import Mathlib

/-!
# Memory-management visualizer (`see_fixed.c`): page replacement and TLB

A shallow embedding of the simulation core of `see_fixed.c`:

* the frame table `physical_memory`, the per-process page tables and the
  global counters (`time_counter`, `page_faults`, `page_hits`, `fifo_index`,
  `clock_hand`);
* `get_free_frame`, `fifo_replacement`, `lru_replacement`,
  `optimal_replacement`, `clock_replacement`;
* the reset and the reference loop of `simulate_page_replacement`;
* `init_tlb`, `search_tlb`, `update_tlb` and the loop of `simulate_tlb_system`.

Modelling conventions.

* C `int` values are `Int`; array indices and the two cursors, which the code
  only ever assigns `0` or `(x + 1) % frame_count`, are `Nat`.  The driver
  bounds every run to at most 30 references, so no counter can overflow.
* `physical_memory` is an array of exactly `frame_count` frames (it is
  allocated with that size), so `frame_count` is the length of the list.
* An array read outside the list (undefined behaviour in C) yields the
  all-zero default entry and a write outside the list is dropped.
* Terminal output, `getchar` pacing and `SLEEP` are omitted; the value of
  `rand() % 2` drawn at step `i` is the input `rnd i`.
-/

namespace SeeFixed

/-! ## Data model -/

/-- The C struct `PageTableEntry`. -/
structure PageTableEntry where
  page_no : Int
  valid : Int
  frame_no : Int
  last_used : Int
  reference_bit : Int
  modify_bit : Int
deriving DecidableEq, Repr, Inhabited

/-- The C struct `Frame`. -/
structure Frame where
  frame_no : Int
  page_no : Int
  process_id : Int
  occupied : Int
  reference_bit : Int
  modify_bit : Int
  age_counter : Int
  load_time : Int
deriving DecidableEq, Repr, Inhabited

/-- The C struct `Process` (the segment table and the name play no part in
the page-replacement and TLB code and are left out). -/
structure Process where
  pid : Int
  page_table : List PageTableEntry
  page_count : Int
deriving DecidableEq, Repr, Inhabited

/-- The C struct `TLBEntry`. -/
structure TLBEntry where
  page_no : Int
  frame_no : Int
  valid : Int
  last_used : Int
deriving DecidableEq, Repr, Inhabited

/-- The global variables used by the page-replacement simulation. -/
structure SimState where
  physical_memory : List Frame
  processes : List Process
  process_count : Nat
  time_counter : Int
  page_faults : Int
  page_hits : Int
  fifo_index : Nat
  clock_hand : Nat
deriving DecidableEq, Repr, Inhabited

/-- The global `frame_count`: the size of the allocated frame array. -/
def SimState.frame_count (s : SimState) : Nat := s.physical_memory.length

/-- The `algo_choice` of `simulate_page_replacement` (1 to 4). -/
inductive Algo where
  | FIFO
  | LRU
  | Optimal
  | Clock
deriving DecidableEq, Repr, Inhabited

/-! ## Array helpers -/

/-- Read `physical_memory[i]`. -/
def frameAt (mem : List Frame) (i : Nat) : Frame := mem.getD i default

/-- Apply field assignments `g` to `physical_memory[i]`. -/
def updFrame (mem : List Frame) (i : Nat) (g : Frame → Frame) : List Frame :=
  mem.set i (g (frameAt mem i))

/-- Read `page_table[i]` for a C `int` index. -/
def pteAt (pt : List PageTableEntry) (i : Int) : PageTableEntry :=
  if 0 ≤ i then pt.getD i.toNat default else default

/-- Apply field assignments `g` to `page_table[i]` for a C `int` index. -/
def updPTE (pt : List PageTableEntry) (i : Int) (g : PageTableEntry → PageTableEntry) :
    List PageTableEntry :=
  if 0 ≤ i then pt.set i.toNat (g (pteAt pt i)) else pt

/-- Apply field assignments to `processes[0].page_table[page_no]`. -/
def updProc0PTE (procs : List Process) (page_no : Int)
    (g : PageTableEntry → PageTableEntry) : List Process :=
  match procs with
  | [] => []
  | pr :: rest => { pr with page_table := updPTE pr.page_table page_no g } :: rest

/-! ## Victim selection -/

/-- Loop of `get_free_frame`, scanning the frames from index `i` on. -/
def get_free_frame_from : List Frame → Nat → Int
  | [], _ => -1
  | fr :: rest, i => if fr.occupied = 0 then (i : Int) else get_free_frame_from rest (i + 1)

/-- The C function `get_free_frame`. -/
def get_free_frame (mem : List Frame) : Int := get_free_frame_from mem 0

/-- The `while (checked < frame_count)` loop of `fifo_replacement`; the first
argument is `frame_count - checked`.  Returns the selected frame and the new
`fifo_index`. -/
def fifo_loop (mem : List Frame) (n : Nat) : Nat → Nat → Nat × Nat
  | 0, _ => (0, 1 % n)
  | fuel + 1, selected =>
    if (frameAt mem selected).occupied ≠ 0 then (selected, (selected + 1) % n)
    else fifo_loop mem n fuel ((selected + 1) % n)

/-- The C function `fifo_replacement`. -/
def fifo_replacement (s : SimState) : Nat × SimState :=
  let r := fifo_loop s.physical_memory s.frame_count s.frame_count s.fifo_index
  (r.1, { s with fifo_index := r.2 })

/-- The `for` loop of `lru_replacement` from frame `i` on, carrying
`(lru_frame, min_time, found)`. -/
def lru_loop : List Frame → Nat → Nat × Int × Bool → Nat × Int × Bool
  | [], _, acc => acc
  | fr :: rest, i, (lru_frame, min_time, found) =>
    if fr.occupied ≠ 0 ∧ fr.load_time < min_time then
      lru_loop rest (i + 1) (i, fr.load_time, true)
    else lru_loop rest (i + 1) (lru_frame, min_time, found)

/-- The C function `lru_replacement`. -/
def lru_replacement (s : SimState) : Nat :=
  let r := lru_loop s.physical_memory 0 (0, s.time_counter + 1, false)
  if r.2.2 then r.1 else 0

/-- Inner loop of `optimal_replacement`: scan `future_refs[j..]` for `page`;
`dflt` is the value `ref_count + 1` that `next_use` keeps when nothing is found. -/
def next_use_scan (page : Int) : List Int → Nat → Nat → Nat
  | [], _, dflt => dflt
  | r :: rest, j, dflt => if r = page then j else next_use_scan page rest (j + 1) dflt

/-- The value of `next_use` computed by `optimal_replacement` for one frame. -/
def next_use (future_refs : List Int) (current_index : Nat) (page : Int) : Nat :=
  next_use_scan page (future_refs.drop current_index) current_index (future_refs.length + 1)

/-- Outer loop of `optimal_replacement` from frame `i` on, carrying
`(optimal_frame, farthest_use)`. -/
def optimal_loop (future_refs : List Int) (current_index : Nat) :
    List Frame → Nat → Nat × Int → Nat × Int
  | [], _, acc => acc
  | fr :: rest, i, (optimal_frame, farthest_use) =>
    if fr.occupied ≠ 0 then
      if (next_use future_refs current_index fr.page_no : Int) > farthest_use then
        optimal_loop future_refs current_index rest (i + 1)
          (i, (next_use future_refs current_index fr.page_no : Int))
      else optimal_loop future_refs current_index rest (i + 1) (optimal_frame, farthest_use)
    else optimal_loop future_refs current_index rest (i + 1) (optimal_frame, farthest_use)

/-- The C function `optimal_replacement(future_refs, ref_count, current_index)`,
with `ref_count` the length of `future_refs`. -/
def optimal_replacement (s : SimState) (future_refs : List Int) (current_index : Nat) : Nat :=
  (optimal_loop future_refs current_index s.physical_memory 0 (0, -1)).1

/-- The `while (checked < frame_count * 2)` loop of `clock_replacement`; the
first argument is `frame_count * 2 - checked`.  Returns the selected frame,
the frame table and the new `clock_hand`. -/
def clock_loop (n : Nat) : Nat → List Frame → Nat → Nat × List Frame × Nat
  | 0, mem, hand => (hand, mem, hand)
  | fuel + 1, mem, hand =>
    if (frameAt mem hand).occupied ≠ 0 then
      if (frameAt mem hand).reference_bit = 0 then (hand, mem, (hand + 1) % n)
      else
        clock_loop n fuel (updFrame mem hand (fun fr => { fr with reference_bit := 0 }))
          ((hand + 1) % n)
    else clock_loop n fuel mem ((hand + 1) % n)

/-- The C function `clock_replacement`. -/
def clock_replacement (s : SimState) : Nat × SimState :=
  let r := clock_loop s.frame_count (s.frame_count * 2) s.physical_memory s.clock_hand
  (r.1, { s with physical_memory := r.2.1, clock_hand := r.2.2 })

/-- The `switch (algo_choice)` of `simulate_page_replacement`; `i` is the loop
index, so Optimal is called with `current_index = i + 1`. -/
def select_victim (algo : Algo) (future_refs : List Int) (i : Nat) (s : SimState) :
    Nat × SimState :=
  match algo with
  | Algo.FIFO => fifo_replacement s
  | Algo.LRU => (lru_replacement s, s)
  | Algo.Optimal => (optimal_replacement s future_refs (i + 1), s)
  | Algo.Clock => clock_replacement s

/-! ## The reference loop of `simulate_page_replacement` -/

/-- The residency check: first frame from index `f` on that is occupied and
holds `page_no`. -/
def find_page_from (page_no : Int) : List Frame → Nat → Option Nat
  | [], _ => none
  | fr :: rest, f =>
    if fr.occupied ≠ 0 ∧ fr.page_no = page_no then some f
    else find_page_from page_no rest (f + 1)

/-- The residency check of one step (`page_found` and `frame_no`). -/
def find_page (mem : List Frame) (page_no : Int) : Option Nat := find_page_from page_no mem 0

/-- The loop that removes the old page from its owner's page table: the first
process among the remaining `process_count` ones whose pid is `old_pid`. -/
def invalidate_old : List Process → Nat → Int → Int → List Process
  | [], _, _, _ => []
  | pr :: rest, 0, _, _ => pr :: rest
  | pr :: rest, k + 1, old_pid, old_page =>
    if pr.pid = old_pid then
      (if old_page < pr.page_count then
        { pr with page_table :=
            updPTE pr.page_table old_page (fun e => { e with valid := 0, frame_no := -1 }) }
      else pr) :: rest
    else pr :: invalidate_old rest k old_pid old_page

/-- What one step of the loop did. -/
inductive StepEvent where
  | hit (frame_no : Nat)
  | loadFree (frame_no : Nat)
  | replace (frame_no : Nat) (evicted : Option Int)
deriving DecidableEq, Repr, Inhabited

/-- The "Load new page" block and the page-table update that follows it. -/
def load_page (s : SimState) (frame_no : Nat) (page_no : Int) (modify : Int) : SimState :=
  let mem := updFrame s.physical_memory frame_no (fun fr =>
    { fr with occupied := 1, page_no := page_no, process_id := 1, reference_bit := 1,
              modify_bit := modify, load_time := s.time_counter })
  let procs :=
    if page_no < (s.processes.getD 0 default).page_count then
      updProc0PTE s.processes page_no (fun e =>
        { e with valid := 1, frame_no := (frame_no : Int), last_used := s.time_counter,
                 reference_bit := 1 })
    else s.processes
  { s with physical_memory := mem, processes := procs }

/-- The "Page hit" block: the frame's reference bit and time stamp, and the
recency fields of the page-table entry when that entry is valid. -/
def page_hit (s : SimState) (frame_no : Nat) (page_no : Int) : SimState :=
  let mem := updFrame s.physical_memory frame_no (fun fr =>
    { fr with reference_bit := 1, load_time := s.time_counter })
  let procs :=
    if (pteAt (s.processes.getD 0 default).page_table page_no).valid ≠ 0 then
      updProc0PTE s.processes page_no (fun e =>
        { e with last_used := s.time_counter, reference_bit := 1 })
    else s.processes
  { s with page_hits := s.page_hits + 1, physical_memory := mem, processes := procs }

/-- The "Remove old page from page table" block for the victim `frame_no`. -/
def remove_old_page (s : SimState) (frame_no : Nat) : SimState :=
  if (frameAt s.physical_memory frame_no).occupied ≠ 0 then
    let old_page := (frameAt s.physical_memory frame_no).page_no
    let old_pid := (frameAt s.physical_memory frame_no).process_id
    { s with processes := invalidate_old s.processes s.process_count old_pid old_page }
  else s

/-- The page a replacement evicts from `frame_no`, if that frame is occupied. -/
def evicted_page (s : SimState) (frame_no : Nat) : Option Int :=
  if (frameAt s.physical_memory frame_no).occupied ≠ 0 then
    some (frameAt s.physical_memory frame_no).page_no
  else none

/-- Body of the reference loop for loop index `i`, with the event it took. -/
def sim_step_ev (algo : Algo) (reference_string : List Int) (rnd : Nat → Int) (i : Nat)
    (s0 : SimState) : SimState × StepEvent :=
  let page_no := reference_string.getD i 0
  let s := { s0 with time_counter := s0.time_counter + 1 }
  match find_page s.physical_memory page_no with
  | some frame_no => (page_hit s frame_no page_no, StepEvent.hit frame_no)
  | none =>
    let s := { s with page_faults := s.page_faults + 1 }
    let free_frame := get_free_frame s.physical_memory
    if free_frame ≠ -1 then
      (load_page s free_frame.toNat page_no (rnd i), StepEvent.loadFree free_frame.toNat)
    else
      let v := select_victim algo reference_string i s
      (load_page (remove_old_page v.2 v.1) v.1 page_no (rnd i),
       StepEvent.replace v.1 (evicted_page v.2 v.1))

/-- Body of the reference loop for loop index `i`. -/
def sim_step (algo : Algo) (reference_string : List Int) (rnd : Nat → Int) (i : Nat)
    (s : SimState) : SimState :=
  (sim_step_ev algo reference_string rnd i s).1

/-- State after the first `k` iterations of the reference loop. -/
def sim_steps (algo : Algo) (reference_string : List Int) (rnd : Nat → Int) (s : SimState) :
    Nat → SimState
  | 0 => s
  | k + 1 => sim_step algo reference_string rnd k (sim_steps algo reference_string rnd s k)

/-- The events of the first `k` iterations of the reference loop. -/
def sim_events (algo : Algo) (reference_string : List Int) (rnd : Nat → Int) (s : SimState) :
    Nat → List StepEvent
  | 0 => []
  | k + 1 =>
    sim_events algo reference_string rnd s k ++
      [(sim_step_ev algo reference_string rnd k (sim_steps algo reference_string rnd s k)).2]

/-- The page-table reset of one process: entries `0 .. page_count - 1`. -/
def reset_page_table : List PageTableEntry → Nat → List PageTableEntry
  | [], _ => []
  | e :: rest, 0 => e :: rest
  | e :: rest, k + 1 =>
    { e with valid := 0, frame_no := -1, last_used := -1, reference_bit := 0 } ::
      reset_page_table rest k

/-- The page-table reset over the first `process_count` processes. -/
def reset_processes : List Process → Nat → List Process
  | [], _ => []
  | pr :: rest, 0 => pr :: rest
  | pr :: rest, k + 1 =>
    { pr with page_table := reset_page_table pr.page_table pr.page_count.toNat } ::
      reset_processes rest k

/-- The "Reset statistics and counters", "Reset all page table entries" and
"Reset all frames" blocks at the start of a run. -/
def sim_reset (s : SimState) : SimState :=
  { s with
    page_faults := 0, page_hits := 0, time_counter := 0, fifo_index := 0, clock_hand := 0,
    processes := reset_processes s.processes s.process_count,
    physical_memory := s.physical_memory.map (fun fr =>
      { fr with occupied := 0, page_no := -1, process_id := -1, reference_bit := 0,
                load_time := -1 }) }

/-- A whole run of `simulate_page_replacement`: the reset, then the loop over
the reference string. -/
def simulate_page_replacement (algo : Algo) (reference_string : List Int) (rnd : Nat → Int)
    (s : SimState) : SimState :=
  sim_steps algo reference_string rnd (sim_reset s) reference_string.length

/-- The frame table made by `setup_memory_frames`, frames `i, i+1, ...`. -/
def fresh_frames : Nat → Nat → List Frame
  | 0, _ => []
  | k + 1, i =>
    { frame_no := (i : Int), page_no := -1, process_id := -1, occupied := 0, reference_bit := 0,
      modify_bit := 0, age_counter := 0, load_time := -1 } :: fresh_frames k (i + 1)

/-- A page table as `init_system` makes it: `page_count` entries numbered from
`i`, followed by the untouched (zero) rest of the `MAX_PAGES` array. -/
def init_page_table : Nat → Nat → Nat → (Nat → Int) → List PageTableEntry
  | 0, _, _, _ => []
  | k + 1, 0, _, _ => default :: init_page_table k 0 0 (fun _ => 0)
  | k + 1, c + 1, i, modify =>
    { page_no := (i : Int), valid := 0, frame_no := -1, last_used := -1, reference_bit := 0,
      modify_bit := modify i } :: init_page_table k c (i + 1) modify

/-- The constant `MAX_PAGES`. -/
def MAX_PAGES : Nat := 50

/-- The constant `MAX_PROCESSES`. -/
def MAX_PROCESSES : Nat := 5

/-- The globals after `init_system` (processes A and B) and
`setup_memory_frames` with `n` frames; `modify p i` stands for the value of
`rand() % 2` stored in the modify bit of page `i` of `processes[p]`. -/
def init_state (n : Nat) (modify : Nat → Nat → Int) : SimState :=
  { physical_memory := fresh_frames n 0
    processes :=
      [ { pid := 1, page_table := init_page_table MAX_PAGES 8 0 (modify 0), page_count := 8 },
        { pid := 2, page_table := init_page_table MAX_PAGES 6 0 (modify 1), page_count := 6 },
        default, default, default ]
    process_count := 2
    time_counter := 0
    page_faults := 0
    page_hits := 0
    fifo_index := 0
    clock_hand := 0 }

/-! ## The TLB (`init_tlb`, `search_tlb`, `update_tlb`, `simulate_tlb_system`) -/

/-- The globals and locals of the TLB simulation: the array `tlb[32]`, the
configured `tlb_size` and the statistics of `simulate_tlb_system`. -/
structure TLBState where
  tlb : List TLBEntry
  tlb_size : Nat
  tlb_hits : Int
  tlb_misses : Int
  total_time : Int
deriving DecidableEq, Repr, Inhabited

/-- Read `tlb[i]`. -/
def tlbAt (tlb : List TLBEntry) (i : Nat) : TLBEntry := tlb.getD i default

/-- The entry written by `init_tlb` into every slot. -/
def empty_tlb_entry : TLBEntry := { page_no := -1, frame_no := -1, valid := 0, last_used := -1 }

/-- The C function `init_tlb`: all 32 slots invalid. -/
def init_tlb : List TLBEntry := List.replicate 32 empty_tlb_entry

/-- Loop of `search_tlb` from slot `i` on; the second argument is
`tlb_size - i`. -/
def search_tlb_from (page_no : Int) : List TLBEntry → Nat → Nat → Int
  | [], _, _ => -1
  | _ :: _, 0, _ => -1
  | e :: rest, k + 1, i =>
    if e.valid ≠ 0 ∧ e.page_no = page_no then (i : Int)
    else search_tlb_from page_no rest k (i + 1)

/-- The C function `search_tlb`. -/
def search_tlb (tlb : List TLBEntry) (tlb_size : Nat) (page_no : Int) : Int :=
  search_tlb_from page_no tlb tlb_size 0

/-- The "Check if empty slot exists" loop of `update_tlb` from slot `i` on;
the second argument is `tlb_size - i`. -/
def empty_slot_from : List TLBEntry → Nat → Nat → Int
  | [], _, _ => -1
  | _ :: _, 0, _ => -1
  | e :: rest, k + 1, i => if e.valid = 0 then (i : Int) else empty_slot_from rest k (i + 1)

/-- The "LRU Replacement" loop of `update_tlb` from slot `i` on, carrying
`(lru_index, min_time)`; the second argument is `tlb_size - i`. -/
def tlb_lru_loop : List TLBEntry → Nat → Nat → Nat × Int → Nat × Int
  | [], _, _, acc => acc
  | _ :: _, 0, _, acc => acc
  | e :: rest, k + 1, i, (lru_index, min_time) =>
    if e.last_used < min_time then tlb_lru_loop rest k (i + 1) (i, e.last_used)
    else tlb_lru_loop rest k (i + 1) (lru_index, min_time)

/-- The slot chosen by the "LRU Replacement" branch of `update_tlb`: the scan
starts with `lru_index = 0`, `min_time = tlb[0].last_used` and runs over slots
`1 .. tlb_size - 1`. -/
def tlb_lru_index (tlb : List TLBEntry) (tlb_size : Nat) : Nat :=
  (tlb_lru_loop (tlb.drop 1) (tlb_size - 1) 1 (0, (tlbAt tlb 0).last_used)).1

/-- The slot that `update_tlb` writes. -/
def update_tlb_slot (tlb : List TLBEntry) (tlb_size : Nat) : Nat :=
  if empty_slot_from tlb tlb_size 0 ≠ -1 then (empty_slot_from tlb tlb_size 0).toNat
  else tlb_lru_index tlb tlb_size

/-- The C function `update_tlb(page_no, frame_no, current_time)`. -/
def update_tlb (tlb : List TLBEntry) (tlb_size : Nat) (page_no frame_no current_time : Int) :
    List TLBEntry :=
  tlb.set (update_tlb_slot tlb tlb_size)
    { page_no := page_no, frame_no := frame_no, valid := 1, last_used := current_time }

/-- Body of the simulation loop of `simulate_tlb_system` for loop index `i`. -/
def tlb_step (hit_time miss_time : Int) (ref_string : List Int) (i : Nat) (s : TLBState) :
    TLBState :=
  let page := ref_string.getD i 0
  let time_step : Int := (i : Int) + 1
  let frame := page * 2 + 1
  let tlb_index := search_tlb s.tlb s.tlb_size page
  if tlb_index ≠ -1 then
    { s with
      tlb_hits := s.tlb_hits + 1
      total_time := s.total_time + hit_time
      tlb := s.tlb.set tlb_index.toNat { tlbAt s.tlb tlb_index.toNat with last_used := time_step } }
  else
    { s with
      tlb_misses := s.tlb_misses + 1
      total_time := s.total_time + (hit_time + miss_time)
      tlb := update_tlb s.tlb s.tlb_size page frame time_step }

/-- State after the first `k` iterations of the TLB simulation loop. -/
def tlb_steps (hit_time miss_time : Int) (ref_string : List Int) (s : TLBState) :
    Nat → TLBState
  | 0 => s
  | k + 1 => tlb_step hit_time miss_time ref_string k (tlb_steps hit_time miss_time ref_string s k)

/-- The state in which the simulation loop starts: `init_tlb()` has run and
the statistics are zero. -/
def tlb_start (tlb_size : Nat) : TLBState :=
  { tlb := init_tlb, tlb_size := tlb_size, tlb_hits := 0, tlb_misses := 0, total_time := 0 }

/-- The TLB contents after the pages `ps` have been inserted one after the
other into slots `j, j+1, ...` at time steps `j+1, j+2, ...`. -/
def filled_slots : List Int → Nat → List TLBEntry
  | [], _ => []
  | p :: ps, j =>
    { page_no := p, frame_no := p * 2 + 1, valid := 1, last_used := (j : Int) + 1 } ::
      filled_slots ps (j + 1)

/-! ## Notions used in the statements -/

/-- A frame with its reference bit masked out. -/
def clearRef (fr : Frame) : Frame := { fr with reference_bit := 0 }

/-- The page resident in a frame, if the frame is occupied. -/
def slot (fr : Frame) : Option Int := if fr.occupied ≠ 0 then some fr.page_no else none

/-- The resident page of every frame, in frame order. -/
def slots (mem : List Frame) : List (Option Int) := mem.map slot

/-- Both cursors point into the frame table (so there is at least one frame). -/
def CursorsOk (s : SimState) : Prop :=
  s.fifo_index < s.frame_count ∧ s.clock_hand < s.frame_count

/-- The state in which a hit is handled: the step counter has been
incremented. -/
def tick (s : SimState) : SimState := { s with time_counter := s.time_counter + 1 }

/-- The state in which a fault is handled: the step counter and the fault
counter have been incremented. -/
def tick_fault (s : SimState) : SimState :=
  { s with time_counter := s.time_counter + 1, page_faults := s.page_faults + 1 }

/-- The fields of a frame that the simulation reads: occupancy, page,
reference bit and time stamp. -/
def frame_view (fr : Frame) : Int × Int × Int × Int :=
  (fr.occupied, fr.page_no, fr.reference_bit, fr.load_time)

/-- Two states that the simulation cannot tell apart: the frames agree on
the fields it reads, and the counters and cursors are equal. -/
def SameView (s1 s2 : SimState) : Prop :=
  s1.physical_memory.map frame_view = s2.physical_memory.map frame_view ∧
  s1.time_counter = s2.time_counter ∧ s1.page_faults = s2.page_faults ∧
  s1.page_hits = s2.page_hits ∧ s1.fifo_index = s2.fifo_index ∧
  s1.clock_hand = s2.clock_hand

/-- The lockstep relation between a Clock run `c` and a FIFO run `f` that
have seen no hit: same resident page in every frame, Clock hand equal to the
FIFO cursor, and the reference bits in one of two patterns: either memory is
full, the frames before the hand have their bit set and the frames from the
hand on have it clear, or the hand is at 0 and every occupied frame has its
bit set. -/
def ClockLikeFifo (c f : SimState) : Prop :=
  slots c.physical_memory = slots f.physical_memory ∧
  c.clock_hand = f.fifo_index ∧
  c.clock_hand < c.frame_count ∧
  c.page_hits = 0 ∧ f.page_hits = 0 ∧
  (∀ j, j < c.clock_hand → (frameAt c.physical_memory j).reference_bit ≠ 0) ∧
  ((none ∉ slots c.physical_memory ∧
      ∀ j, c.clock_hand ≤ j → j < c.frame_count →
        (frameAt c.physical_memory j).reference_bit = 0) ∨
   (c.clock_hand = 0 ∧
      ∀ j, j < c.frame_count → (frameAt c.physical_memory j).occupied ≠ 0 →
        (frameAt c.physical_memory j).reference_bit ≠ 0))

/-- The page table of process 1, `processes[0].page_table`. -/
def pt0 (s : SimState) : List PageTableEntry := (s.processes.getD 0 default).page_table

/-- Process 1 is registered as `init_system` leaves it: `processes[0]` has pid
1, page count `c`, and its page table has room for `c` entries. -/
def Proc0Ok (c : Int) (s : SimState) : Prop :=
  1 ≤ s.process_count ∧
  ∃ pr rest, s.processes = pr :: rest ∧ pr.pid = 1 ∧ pr.page_count = c ∧
    c ≤ (pr.page_table.length : Int)

/-- Page table of process 1 and frame table agree: every occupied frame
belongs to process 1, holds a page below `c` whose entry is valid and points
back to the frame; every valid entry points to an occupied frame holding its
page. -/
def PageTableOk (c : Int) (s : SimState) : Prop :=
  Proc0Ok c s ∧ CursorsOk s ∧
  (∀ f p, f < s.frame_count → slot (frameAt s.physical_memory f) = some p →
    (frameAt s.physical_memory f).process_id = 1 ∧ 0 ≤ p ∧ p < c ∧
    (pteAt (pt0 s) p).valid ≠ 0 ∧ (pteAt (pt0 s) p).frame_no = (f : Int)) ∧
  (∀ p, 0 ≤ p → p < c → (pteAt (pt0 s) p).valid ≠ 0 →
    ∃ f : Nat, (pteAt (pt0 s) p).frame_no = (f : Int) ∧ f < s.frame_count ∧
      slot (frameAt s.physical_memory f) = some p)

/-! ## Demand paging in the abstract -/

/-- The least number of faults that any demand-paging policy with `n` frames
can incur on the references `σ` when the pages `S` are resident: a resident
page costs nothing, a missing page costs one fault and is brought in, into a
free frame while there is one and otherwise in place of a resident page `q`
chosen to minimise the rest (`σ.length` is an upper bound of every cost). -/
def min_faults (n : Nat) : Finset Int → List Int → Nat
  | _, [] => 0
  | S, p :: σ =>
    if p ∈ S then min_faults n S σ
    else if S.card < n then 1 + min_faults n (insert p S) σ
    else 1 + S.fold min σ.length (fun q => min_faults n (insert p (S.erase q)) σ)

/-- The set of pages resident in the frame table. -/
def resident (mem : List Frame) : Finset Int := (slots mem).reduceOption.toFinset

/-! ## Address translation (`simulate_paging`) and configuration input -/

/-- The constant `PAGE_SIZE` (in KB). -/
def PAGE_SIZE : Int := 4

/-- A 32-bit C `int` result: the mathematical value reduced to two's
complement. -/
def int32 (x : Int) : Int := (x + 2147483648) % 4294967296 - 2147483648

/-- The branch one translation of `simulate_paging` takes: "INVALID PAGE
NUMBER", "PAGE FAULT", or a physical address. -/
inductive PagingOutcome where
  | InvalidAddress
  | PageFault
  | Physical (physical_addr : Int)
deriving DecidableEq, Repr, Inhabited

/-- The locals `page_no` and `offset` of one translation and its outcome. -/
structure PagingResult where
  page_no : Int
  offset : Int
  outcome : PagingOutcome
deriving DecidableEq, Repr, Inhabited

/-- One iteration of the translation loop of `simulate_paging`, for the
process `pr` and the logical address `logical_addr` that the two `rand()`
calls produce.  C division and remainder truncate. -/
def simulate_paging (pr : Process) (logical_addr : Int) : PagingResult :=
  let page_no := logical_addr.tdiv (PAGE_SIZE * 1024)
  let offset := logical_addr.tmod (PAGE_SIZE * 1024)
  if page_no < pr.page_count then
    if (pteAt pr.page_table page_no).valid ≠ 0 then
      let frame_no := (pteAt pr.page_table page_no).frame_no
      let physical_addr := int32 (int32 (int32 (frame_no * PAGE_SIZE) * 1024) + offset)
      { page_no := page_no, offset := offset, outcome := PagingOutcome.Physical physical_addr }
    else { page_no := page_no, offset := offset, outcome := PagingOutcome.PageFault }
  else { page_no := page_no, offset := offset, outcome := PagingOutcome.InvalidAddress }

/-- The value of `frame_count` after the input and clamping lines of
`setup_memory_frames`; `input` is what `scanf` stored, `none` when it failed. -/
def read_frame_count (input : Option Int) : Int :=
  let frame_count := match input with
    | some x => x
    | none => 5
  let frame_count := if frame_count < 3 then 3 else frame_count
  if frame_count > 20 then 20 else frame_count

/-- The C function `setup_memory_frames`; `alloc_ok` says whether `malloc`
succeeded.  On failure `frame_count` is 0, there is no frame table, and the
function returns before the cursors are reset. -/
def setup_memory_frames (input : Option Int) (alloc_ok : Bool) (s : SimState) : SimState :=
  let frame_count := read_frame_count input
  if alloc_ok then
    { s with physical_memory := fresh_frames frame_count.toNat 0, fifo_index := 0,
             clock_hand := 0 }
  else { s with physical_memory := [] }

/-- The configuration read at the start of `simulate_tlb_system`. -/
structure TLBConfig where
  tlb_size : Int
  hit_time : Int
  miss_time : Int
  ref_len : Int
deriving DecidableEq, Repr, Inhabited

/-- The "Configuration" block of `simulate_tlb_system`; each argument is what
`scanf` stored, `none` when it failed. -/
def tlb_configure (size_input hit_input miss_input len_input : Option Int) : TLBConfig :=
  let tlb_size := match size_input with
    | some x => x
    | none => 4
  let tlb_size := if tlb_size < 2 then 2 else tlb_size
  let tlb_size := if tlb_size > 32 then 32 else tlb_size
  let hit_time := match hit_input with
    | some x => x
    | none => 10
  let miss_time := match miss_input with
    | some x => x
    | none => 100
  let ref_len := match len_input with
    | some x => x
    | none => 10
  { tlb_size := tlb_size, hit_time := hit_time, miss_time := miss_time, ref_len := ref_len }

/-- The statistics of `simulate_tlb_system` after its simulation loop
`for (i = 0; i < ref_len; i++)`, for the configuration read and the reference
string `ref_string` (its `ref_len` entries are `rand() % 10`). -/
def simulate_tlb_system (size_input hit_input miss_input len_input : Option Int)
    (ref_string : List Int) : TLBState :=
  let cfg := tlb_configure size_input hit_input miss_input len_input
  tlb_steps cfg.hit_time cfg.miss_time ref_string (tlb_start cfg.tlb_size.toNat)
    cfg.ref_len.toNat

/-! ## Counting the probes of `clock_replacement` -/

/-- The number of iterations of the `while` loop of `clock_replacement` up to
and including the one that executes `return selected` (the value of
`checked + 1` at that point), or `none` when the loop runs out and the
fallback `return clock_hand` is reached.  The recursion is that of
`clock_loop`. -/
def clock_loop_probes (n : Nat) : Nat → List Frame → Nat → Option Nat
  | 0, _, _ => none
  | fuel + 1, mem, hand =>
    if (frameAt mem hand).occupied ≠ 0 then
      if (frameAt mem hand).reference_bit = 0 then some 1
      else
        (clock_loop_probes n fuel
          (updFrame mem hand (fun fr => { fr with reference_bit := 0 }))
          ((hand + 1) % n)).map (fun k => k + 1)
    else (clock_loop_probes n fuel mem ((hand + 1) % n)).map (fun k => k + 1)

/-- Probe count of one call of `clock_replacement`. -/
def clock_replacement_probes (s : SimState) : Option Nat :=
  clock_loop_probes s.frame_count (s.frame_count * 2) s.physical_memory s.clock_hand

/-! ## Invariants of the two simulation loops -/

/-- What holds of the TLB after `k` iterations of the simulation loop: the
array keeps its 32 slots, every step was counted as a hit or a miss, the valid
entries among the first `tlb_size` slots are the first `m` slots for some `m`,
carry time stamps in `[1, k]`, and hold pairwise distinct pages and pairwise
distinct time stamps. -/
def TLBOk (k : Nat) (s : TLBState) : Prop :=
  s.tlb.length = 32 ∧
  s.tlb_hits + s.tlb_misses = (k : Int) ∧
  (∃ m, m ≤ s.tlb_size ∧ ∀ j, j < s.tlb_size → ((tlbAt s.tlb j).valid ≠ 0 ↔ j < m)) ∧
  (∀ j, j < s.tlb_size → (tlbAt s.tlb j).valid ≠ 0 →
    1 ≤ (tlbAt s.tlb j).last_used ∧ (tlbAt s.tlb j).last_used ≤ (k : Int)) ∧
  (∀ j1 j2, j1 < s.tlb_size → j2 < s.tlb_size →
    (tlbAt s.tlb j1).valid ≠ 0 → (tlbAt s.tlb j2).valid ≠ 0 →
    (tlbAt s.tlb j1).page_no = (tlbAt s.tlb j2).page_no → j1 = j2) ∧
  (∀ j1 j2, j1 < s.tlb_size → j2 < s.tlb_size →
    (tlbAt s.tlb j1).valid ≠ 0 → (tlbAt s.tlb j2).valid ≠ 0 →
    (tlbAt s.tlb j1).last_used = (tlbAt s.tlb j2).last_used → j1 = j2)

/-- What holds of the time stamps after `k` iterations of the reference loop:
`time_counter` is `k`, and the `load_time` of every occupied frame is the
1-based number `t` of the last one among the first `k` references that names
the page the frame holds. -/
def StampsOk (refs : List Int) (k : Nat) (s : SimState) : Prop :=
  s.time_counter = (k : Int) ∧
  ∀ j, (frameAt s.physical_memory j).occupied ≠ 0 →
    ∃ t : Nat, (frameAt s.physical_memory j).load_time = (t : Int) ∧ 1 ≤ t ∧ t ≤ k ∧
      refs.getD (t - 1) 0 = (frameAt s.physical_memory j).page_no ∧
      ∀ t2, t < t2 → t2 ≤ k → refs.getD (t2 - 1) 0 ≠ (frameAt s.physical_memory j).page_no

/-! ## The table printed by `display_tlb` -/

theorem select_victim_page_hits (algo : Algo) (refs : List Int) (i : Nat) (s : SimState) :
    (select_victim algo refs i s).2.page_hits = s.page_hits := by
  cases algo <;> rfl

theorem select_victim_page_faults (algo : Algo) (refs : List Int) (i : Nat) (s : SimState) :
    (select_victim algo refs i s).2.page_faults = s.page_faults := by
  cases algo <;> rfl

theorem select_victim_time_counter (algo : Algo) (refs : List Int) (i : Nat) (s : SimState) :
    (select_victim algo refs i s).2.time_counter = s.time_counter := by
  cases algo <;> rfl

theorem select_victim_processes (algo : Algo) (refs : List Int) (i : Nat) (s : SimState) :
    (select_victim algo refs i s).2.processes = s.processes := by
  cases algo <;> rfl

theorem select_victim_process_count (algo : Algo) (refs : List Int) (i : Nat) (s : SimState) :
    (select_victim algo refs i s).2.process_count = s.process_count := by
  cases algo <;> rfl

theorem remove_old_page_page_hits (s : SimState) (f : Nat) :
    (remove_old_page s f).page_hits = s.page_hits := by
  unfold remove_old_page; split <;> rfl

theorem remove_old_page_page_faults (s : SimState) (f : Nat) :
    (remove_old_page s f).page_faults = s.page_faults := by
  unfold remove_old_page; split <;> rfl

theorem sim_step_counters (algo : Algo) (refs : List Int) (rnd : Nat → Int) (i : Nat)
    (s : SimState) :
    (sim_step algo refs rnd i s).page_hits + (sim_step algo refs rnd i s).page_faults
      = s.page_hits + s.page_faults + 1 := by
  unfold sim_step sim_step_ev
  simp only []
  split
  · simp only [page_hit]; ring
  · split
    · simp only [load_page]; ring
    · simp only [load_page, remove_old_page_page_hits, remove_old_page_page_faults,
        select_victim_page_hits, select_victim_page_faults]
      ring

theorem sim_steps_counters (algo : Algo) (refs : List Int) (rnd : Nat → Int) (s : SimState)
    (k : Nat) :
    (sim_steps algo refs rnd s k).page_hits + (sim_steps algo refs rnd s k).page_faults
      = s.page_hits + s.page_faults + k := by
  induction k with
  | zero => simp [sim_steps]
  | succ k ih =>
    simp only [sim_steps, sim_step_counters, ih]
    push_cast; ring

/-- C1: after the reset, once `k` references have been processed the hit and
fault counters sum to `k`; after the whole reference string they sum to its
length.  This holds for every strategy, every frame table (so every frame
count `n >= 1`), every reference string and every prior state. -/
theorem hits_plus_faults_eq_steps (algo : Algo) (refs : List Int) (rnd : Nat → Int)
    (s : SimState) :
    (∀ k : Nat,
      (sim_steps algo refs rnd (sim_reset s) k).page_hits
        + (sim_steps algo refs rnd (sim_reset s) k).page_faults = k) ∧
    (simulate_page_replacement algo refs rnd s).page_hits
      + (simulate_page_replacement algo refs rnd s).page_faults = refs.length := by
  have h : ∀ k : Nat,
      (sim_steps algo refs rnd (sim_reset s) k).page_hits
        + (sim_steps algo refs rnd (sim_reset s) k).page_faults = k := by
    intro k
    rw [sim_steps_counters]
    simp [sim_reset]
  exact ⟨h, h refs.length⟩


/-! ## Frame-table helpers -/

theorem frameAt_of_lt {mem : List Frame} {i : Nat} (h : i < mem.length) :
    frameAt mem i = mem.get ⟨i, h⟩ := by
  simp [frameAt, List.getD_eq_getElem?_getD, List.getElem?_eq_getElem h]

theorem frameAt_mem {mem : List Frame} {i : Nat} (h : i < mem.length) :
    frameAt mem i ∈ mem := by
  rw [frameAt_of_lt h]; exact List.get_mem mem i h

theorem exists_frameAt_of_mem {mem : List Frame} {fr : Frame} (h : fr ∈ mem) :
    ∃ i, i < mem.length ∧ frameAt mem i = fr := by
  obtain ⟨⟨i, hi⟩, h2⟩ := List.mem_iff_get.mp h
  exact ⟨i, hi, by rw [frameAt_of_lt hi]; exact h2⟩

@[simp] theorem frameAt_cons_zero (fr : Frame) (mem : List Frame) :
    frameAt (fr :: mem) 0 = fr := rfl

@[simp] theorem frameAt_cons_succ (fr : Frame) (mem : List Frame) (i : Nat) :
    frameAt (fr :: mem) (i + 1) = frameAt mem i := rfl

@[simp] theorem updFrame_length (mem : List Frame) (i : Nat) (g : Frame → Frame) :
    (updFrame mem i g).length = mem.length := by
  simp [updFrame]

theorem frameAt_updFrame_self {mem : List Frame} {i : Nat} (g : Frame → Frame)
    (h : i < mem.length) : frameAt (updFrame mem i g) i = g (frameAt mem i) := by
  simp [frameAt, updFrame, List.getD_eq_getElem?_getD, List.getElem?_set, h]

theorem frameAt_updFrame_ne (mem : List Frame) {i j : Nat} (g : Frame → Frame)
    (h : j ≠ i) : frameAt (updFrame mem i g) j = frameAt mem j := by
  simp [frameAt, updFrame, List.getD_eq_getElem?_getD, List.getElem?_set, Ne.symm h]

theorem frameAt_updFrame (mem : List Frame) (i j : Nat) (g : Frame → Frame) :
    frameAt (updFrame mem i g) j
      = if j = i ∧ i < mem.length then g (frameAt mem i) else frameAt mem j := by
  by_cases hji : j = i
  · subst hji
    by_cases hlt : j < mem.length
    · simp [hlt, frameAt_updFrame_self g hlt]
    · simp [hlt, updFrame, List.set_eq_of_length_le (Nat.le_of_not_lt hlt)]
  · simp [hji, frameAt_updFrame_ne mem g hji]

/-! ## `get_free_frame` -/

theorem get_free_frame_from_none (mem : List Frame) (i : Nat) :
    get_free_frame_from mem i = -1 ↔ ∀ fr ∈ mem, fr.occupied ≠ 0 := by
  induction mem generalizing i with
  | nil => simp [get_free_frame_from]
  | cons fr rest ih =>
    by_cases h : fr.occupied = 0
    · simp only [get_free_frame_from, h, if_true, List.mem_cons]
      constructor
      · intro h2; omega
      · intro h2; exact absurd h (h2 fr (Or.inl rfl))
    · simp [get_free_frame_from, h, ih]

theorem get_free_frame_from_some (mem : List Frame) (i : Nat) (r : Int)
    (h : get_free_frame_from mem i = r) (hr : r ≠ -1) :
    ∃ f : Nat, r = ((i + f : Nat) : Int) ∧ f < mem.length ∧ (frameAt mem f).occupied = 0 ∧
      ∀ j, j < f → (frameAt mem j).occupied ≠ 0 := by
  induction mem generalizing i with
  | nil => simp [get_free_frame_from] at h; exact absurd h.symm hr
  | cons fr rest ih =>
    by_cases h0 : fr.occupied = 0
    · refine ⟨0, ?_, by simp, by simpa using h0, by intro j hj; omega⟩
      simp [get_free_frame_from, h0] at h
      simp [← h]
    · simp only [get_free_frame_from, h0, if_false] at h
      obtain ⟨f, h1, h2, h3, h4⟩ := ih (i + 1) h
      refine ⟨f + 1, ?_, by simpa using h2, by simpa using h3, ?_⟩
      · rw [h1]; congr 1; omega
      · intro j hj
        cases j with
        | zero => simpa using h0
        | succ j => simpa using h4 j (by omega)

theorem get_free_frame_eq_neg_one (mem : List Frame) :
    get_free_frame mem = -1 ↔ ∀ fr ∈ mem, fr.occupied ≠ 0 :=
  get_free_frame_from_none mem 0

theorem get_free_frame_spec (mem : List Frame) (h : get_free_frame mem ≠ -1) :
    ∃ f : Nat, get_free_frame mem = (f : Int) ∧ f < mem.length ∧
      (frameAt mem f).occupied = 0 ∧ ∀ j, j < f → (frameAt mem j).occupied ≠ 0 := by
  obtain ⟨f, h1, h2, h3, h4⟩ := get_free_frame_from_some mem 0 _ rfl h
  exact ⟨f, by simpa [get_free_frame] using h1, h2, h3, h4⟩

/-! ## The residency check -/

theorem find_page_from_none (page_no : Int) (mem : List Frame) (i : Nat) :
    find_page_from page_no mem i = none ↔
      ∀ fr ∈ mem, ¬ (fr.occupied ≠ 0 ∧ fr.page_no = page_no) := by
  induction mem generalizing i with
  | nil => simp [find_page_from]
  | cons fr rest ih =>
    by_cases h : fr.occupied ≠ 0 ∧ fr.page_no = page_no
    · rw [find_page_from, if_pos h]
      constructor
      · intro h2; cases h2
      · intro h2; exact absurd h (h2 fr (List.mem_cons_self _ _))
    · rw [find_page_from, if_neg h, ih (i + 1)]
      constructor
      · intro h2 fr2 hfr2
        rcases List.mem_cons.mp hfr2 with h3 | h3
        · rw [h3]; exact h
        · exact h2 fr2 h3
      · intro h2 fr2 hfr2
        exact h2 fr2 (List.mem_cons_of_mem _ hfr2)

theorem find_page_from_some (page_no : Int) (mem : List Frame) (i r : Nat)
    (h : find_page_from page_no mem i = some r) :
    ∃ f : Nat, r = i + f ∧ f < mem.length ∧ (frameAt mem f).occupied ≠ 0 ∧
      (frameAt mem f).page_no = page_no ∧
      ∀ j, j < f → ¬ ((frameAt mem j).occupied ≠ 0 ∧ (frameAt mem j).page_no = page_no) := by
  induction mem generalizing i with
  | nil => simp [find_page_from] at h
  | cons fr rest ih =>
    by_cases h0 : fr.occupied ≠ 0 ∧ fr.page_no = page_no
    · rw [find_page_from, if_pos h0] at h
      have h : i = r := Option.some.inj h
      exact ⟨0, by omega, by simp, by simpa using h0.1, by simpa using h0.2,
        by intro j hj; omega⟩
    · rw [find_page_from, if_neg h0] at h
      obtain ⟨f, h1, h2, h3, h4, h5⟩ := ih (i + 1) h
      refine ⟨f + 1, by omega, by simpa using h2, by simpa using h3, by simpa using h4, ?_⟩
      intro j hj
      cases j with
      | zero => simpa using h0
      | succ j => simpa using h5 j (by omega)

theorem find_page_none (mem : List Frame) (page_no : Int) :
    find_page mem page_no = none ↔
      ∀ fr ∈ mem, ¬ (fr.occupied ≠ 0 ∧ fr.page_no = page_no) :=
  find_page_from_none page_no mem 0

theorem find_page_some (mem : List Frame) (page_no : Int) (f : Nat)
    (h : find_page mem page_no = some f) :
    f < mem.length ∧ (frameAt mem f).occupied ≠ 0 ∧ (frameAt mem f).page_no = page_no ∧
      ∀ j, j < f → ¬ ((frameAt mem j).occupied ≠ 0 ∧ (frameAt mem j).page_no = page_no) := by
  obtain ⟨g, h1, h2, h3, h4, h5⟩ := find_page_from_some page_no mem 0 f h
  have : f = g := by omega
  subst this
  exact ⟨h2, h3, h4, h5⟩



/-! ## Victim selection: range and footprint -/

theorem map_updFrame_of_eq {β : Type} (φ : Frame → β) (g : Frame → Frame)
    (h : ∀ fr, φ (g fr) = φ fr) (mem : List Frame) (i : Nat) :
    (updFrame mem i g).map φ = mem.map φ := by
  induction mem generalizing i with
  | nil => simp [updFrame]
  | cons fr rest ih =>
    cases i with
    | zero => simp [updFrame, frameAt, h]
    | succ i =>
      have := ih i
      simp only [updFrame, frameAt, List.getD_cons_succ, List.set_cons_succ, List.map_cons] at this ⊢
      rw [this]

theorem occupied_lt_length {mem : List Frame} {i : Nat} (h : (frameAt mem i).occupied ≠ 0) :
    i < mem.length := by
  by_contra hlt
  apply h
  simp [frameAt, List.getD_eq_getElem?_getD, List.getElem?_eq_none (Nat.le_of_not_lt hlt)]
  rfl

theorem fifo_loop_lt (mem : List Frame) (hn : 1 ≤ mem.length) (fuel selected : Nat) :
    (fifo_loop mem mem.length fuel selected).1 < mem.length ∧
      (fifo_loop mem mem.length fuel selected).2 < mem.length := by
  induction fuel generalizing selected with
  | zero => exact ⟨hn, Nat.mod_lt _ hn⟩
  | succ fuel ih =>
    by_cases h : (frameAt mem selected).occupied ≠ 0
    · rw [fifo_loop, if_pos h]
      exact ⟨occupied_lt_length h, Nat.mod_lt _ hn⟩
    · rw [fifo_loop, if_neg h]
      exact ih _

theorem fifo_loop_occupied (mem : List Frame) (n fuel selected : Nat)
    (h : (frameAt mem selected).occupied ≠ 0) :
    fifo_loop mem n (fuel + 1) selected = (selected, (selected + 1) % n) := by
  rw [fifo_loop, if_pos h]

theorem lru_loop_fst (mem : List Frame) (i : Nat) (acc : Nat × Int × Bool) :
    (lru_loop mem i acc).1 = acc.1 ∨
      (i ≤ (lru_loop mem i acc).1 ∧ (lru_loop mem i acc).1 < i + mem.length) := by
  induction mem generalizing i acc with
  | nil => left; rfl
  | cons fr rest ih =>
    obtain ⟨a, b, c⟩ := acc
    by_cases h : fr.occupied ≠ 0 ∧ fr.load_time < b
    · rw [lru_loop, if_pos h]
      rcases ih (i + 1) (i, fr.load_time, true) with h2 | h2
      · right; rw [h2]; simp
      · right; simp only [List.length_cons]; omega
    · rw [lru_loop, if_neg h]
      rcases ih (i + 1) (a, b, c) with h2 | h2
      · left; exact h2
      · right; simp only [List.length_cons]; omega

theorem lru_replacement_lt (s : SimState) (hn : 1 ≤ s.frame_count) :
    lru_replacement s < s.frame_count := by
  unfold lru_replacement
  simp only []
  split
  · rcases lru_loop_fst s.physical_memory 0 (0, s.time_counter + 1, false) with h | h
    · rw [h]; exact hn
    · simpa [SimState.frame_count] using h.2
  · exact hn

theorem optimal_loop_fst (refs : List Int) (cur : Nat) (mem : List Frame) (i : Nat)
    (acc : Nat × Int) :
    (optimal_loop refs cur mem i acc).1 = acc.1 ∨
      (i ≤ (optimal_loop refs cur mem i acc).1 ∧
        (optimal_loop refs cur mem i acc).1 < i + mem.length) := by
  induction mem generalizing i acc with
  | nil => left; rfl
  | cons fr rest ih =>
    obtain ⟨a, b⟩ := acc
    by_cases h : fr.occupied ≠ 0
    · by_cases h1 : (next_use refs cur fr.page_no : Int) > b
      · rw [optimal_loop, if_pos h, if_pos h1]
        rcases ih (i + 1) (i, (next_use refs cur fr.page_no : Int)) with h2 | h2
        · right; rw [h2]; simp
        · right; simp only [List.length_cons]; omega
      · rw [optimal_loop, if_pos h, if_neg h1]
        rcases ih (i + 1) (a, b) with h2 | h2
        · left; exact h2
        · right; simp only [List.length_cons]; omega
    · rw [optimal_loop, if_neg h]
      rcases ih (i + 1) (a, b) with h2 | h2
      · left; exact h2
      · right; simp only [List.length_cons]; omega

theorem optimal_replacement_lt (s : SimState) (refs : List Int) (cur : Nat)
    (hn : 1 ≤ s.frame_count) : optimal_replacement s refs cur < s.frame_count := by
  unfold optimal_replacement
  rcases optimal_loop_fst refs cur s.physical_memory 0 (0, -1) with h | h
  · rw [h]; exact hn
  · simpa [SimState.frame_count] using h.2

theorem clock_loop_length (n fuel : Nat) (mem : List Frame) (hand : Nat) :
    (clock_loop n fuel mem hand).2.1.length = mem.length := by
  induction fuel generalizing mem hand with
  | zero => rfl
  | succ fuel ih =>
    rw [clock_loop]
    split
    · split
      · rfl
      · rw [ih]; simp
    · rw [ih]

theorem clock_loop_clearRef (n fuel : Nat) (mem : List Frame) (hand : Nat) :
    (clock_loop n fuel mem hand).2.1.map clearRef = mem.map clearRef := by
  induction fuel generalizing mem hand with
  | zero => rfl
  | succ fuel ih =>
    rw [clock_loop]
    split
    · split
      · rfl
      · rw [ih]; exact map_updFrame_of_eq clearRef (fun fr => { fr with reference_bit := 0 }) (fun _ => rfl) mem hand
    · rw [ih]

theorem clock_loop_lt (n fuel : Nat) (mem : List Frame) (hand : Nat) (h : hand < n) :
    (clock_loop n fuel mem hand).1 < n ∧ (clock_loop n fuel mem hand).2.2 < n := by
  have hn : 0 < n := by omega
  induction fuel generalizing mem hand with
  | zero => exact ⟨h, h⟩
  | succ fuel ih =>
    rw [clock_loop]
    split
    · split
      · exact ⟨h, Nat.mod_lt _ hn⟩
      · exact ih _ _ (Nat.mod_lt _ hn)
    · exact ih _ _ (Nat.mod_lt _ hn)

theorem select_victim_length (algo : Algo) (refs : List Int) (i : Nat) (s : SimState) :
    (select_victim algo refs i s).2.physical_memory.length = s.physical_memory.length := by
  cases algo
  · rfl
  · rfl
  · rfl
  · exact clock_loop_length _ _ _ _

theorem select_victim_clearRef (algo : Algo) (refs : List Int) (i : Nat) (s : SimState) :
    (select_victim algo refs i s).2.physical_memory.map clearRef
      = s.physical_memory.map clearRef := by
  cases algo
  · rfl
  · rfl
  · rfl
  · exact clock_loop_clearRef _ _ _ _

theorem select_victim_lt (algo : Algo) (refs : List Int) (i : Nat) (s : SimState)
    (hf : s.fifo_index < s.frame_count) (hc : s.clock_hand < s.frame_count) :
    (select_victim algo refs i s).1 < s.frame_count ∧
      (select_victim algo refs i s).2.fifo_index < s.frame_count ∧
      (select_victim algo refs i s).2.clock_hand < s.frame_count := by
  have hn : 1 ≤ s.frame_count := by omega
  cases algo
  · exact ⟨(fifo_loop_lt s.physical_memory hn _ _).1, (fifo_loop_lt s.physical_memory hn _ _).2, hc⟩
  · exact ⟨lru_replacement_lt s hn, hf, hc⟩
  · exact ⟨optimal_replacement_lt s refs (i + 1) hn, hf, hc⟩
  · exact ⟨(clock_loop_lt _ _ _ _ hc).1, hf, (clock_loop_lt _ _ _ _ hc).2⟩


/-! ## One step, branch by branch -/

@[simp] theorem tick_fault_physical_memory (s : SimState) :
    (tick_fault s).physical_memory = s.physical_memory := rfl

@[simp] theorem tick_fault_frame_count (s : SimState) :
    (tick_fault s).frame_count = s.frame_count := rfl

@[simp] theorem tick_fault_fifo_index (s : SimState) :
    (tick_fault s).fifo_index = s.fifo_index := rfl

@[simp] theorem tick_fault_clock_hand (s : SimState) :
    (tick_fault s).clock_hand = s.clock_hand := rfl

@[simp] theorem tick_fault_processes (s : SimState) :
    (tick_fault s).processes = s.processes := rfl

@[simp] theorem tick_fault_process_count (s : SimState) :
    (tick_fault s).process_count = s.process_count := rfl

@[simp] theorem tick_fault_time_counter (s : SimState) :
    (tick_fault s).time_counter = s.time_counter + 1 := rfl

@[simp] theorem tick_physical_memory (s : SimState) :
    (tick s).physical_memory = s.physical_memory := rfl

@[simp] theorem tick_processes (s : SimState) : (tick s).processes = s.processes := rfl

@[simp] theorem tick_process_count (s : SimState) :
    (tick s).process_count = s.process_count := rfl

@[simp] theorem tick_time_counter (s : SimState) :
    (tick s).time_counter = s.time_counter + 1 := rfl

theorem sim_step_ev_hit (algo : Algo) (refs : List Int) (rnd : Nat → Int) (i : Nat)
    (s : SimState) (f : Nat) (h : find_page s.physical_memory (refs.getD i 0) = some f) :
    sim_step_ev algo refs rnd i s = (page_hit (tick s) f (refs.getD i 0), StepEvent.hit f) := by
  unfold sim_step_ev tick
  simp only [h]

theorem sim_step_ev_free (algo : Algo) (refs : List Int) (rnd : Nat → Int) (i : Nat)
    (s : SimState) (f : Nat) (h : find_page s.physical_memory (refs.getD i 0) = none)
    (hf : get_free_frame s.physical_memory = (f : Int)) :
    sim_step_ev algo refs rnd i s
      = (load_page (tick_fault s) f (refs.getD i 0) (rnd i), StepEvent.loadFree f) := by
  unfold sim_step_ev tick_fault
  have hne : (f : Int) ≠ -1 := by omega
  simp only [h, hf, hne, ne_eq, not_false_eq_true, if_true, Int.toNat_ofNat]

theorem sim_step_ev_replace (algo : Algo) (refs : List Int) (rnd : Nat → Int) (i : Nat)
    (s : SimState) (h : find_page s.physical_memory (refs.getD i 0) = none)
    (hf : get_free_frame s.physical_memory = -1) :
    sim_step_ev algo refs rnd i s
      = (load_page
          (remove_old_page (select_victim algo refs i (tick_fault s)).2
            (select_victim algo refs i (tick_fault s)).1)
          (select_victim algo refs i (tick_fault s)).1 (refs.getD i 0) (rnd i),
         StepEvent.replace (select_victim algo refs i (tick_fault s)).1
          (evicted_page (select_victim algo refs i (tick_fault s)).2
            (select_victim algo refs i (tick_fault s)).1)) := by
  unfold sim_step_ev tick_fault
  simp only [h, hf, ne_eq, not_true_eq_false, if_false]

/-- The three branches of a step: a hit, a load into a free frame, or a
replacement. -/
theorem sim_step_ev_cases (refs : List Int) (i : Nat)
    (s : SimState) :
    (∃ f, find_page s.physical_memory (refs.getD i 0) = some f) ∨
    (find_page s.physical_memory (refs.getD i 0) = none ∧
      ∃ f : Nat, get_free_frame s.physical_memory = (f : Int)) ∨
    (find_page s.physical_memory (refs.getD i 0) = none ∧
      get_free_frame s.physical_memory = -1) := by
  cases h : find_page s.physical_memory (refs.getD i 0) with
  | some f => exact Or.inl ⟨f, rfl⟩
  | none =>
    right
    by_cases hf : get_free_frame s.physical_memory = -1
    · exact Or.inr ⟨rfl, hf⟩
    · obtain ⟨f, h1, _⟩ := get_free_frame_spec _ hf
      exact Or.inl ⟨rfl, f, h1⟩

@[simp] theorem remove_old_page_physical_memory (s : SimState) (f : Nat) :
    (remove_old_page s f).physical_memory = s.physical_memory := by
  unfold remove_old_page; split <;> rfl

@[simp] theorem remove_old_page_fifo_index (s : SimState) (f : Nat) :
    (remove_old_page s f).fifo_index = s.fifo_index := by
  unfold remove_old_page; split <;> rfl

@[simp] theorem remove_old_page_clock_hand (s : SimState) (f : Nat) :
    (remove_old_page s f).clock_hand = s.clock_hand := by
  unfold remove_old_page; split <;> rfl

@[simp] theorem remove_old_page_time_counter (s : SimState) (f : Nat) :
    (remove_old_page s f).time_counter = s.time_counter := by
  unfold remove_old_page; split <;> rfl

@[simp] theorem remove_old_page_process_count (s : SimState) (f : Nat) :
    (remove_old_page s f).process_count = s.process_count := by
  unfold remove_old_page; split <;> rfl

theorem sim_step_frame_count (algo : Algo) (refs : List Int) (rnd : Nat → Int) (i : Nat)
    (s : SimState) : (sim_step algo refs rnd i s).frame_count = s.frame_count := by
  unfold sim_step SimState.frame_count
  rcases sim_step_ev_cases refs i s with ⟨f, h⟩ | ⟨h, f, hf⟩ | ⟨h, hf⟩
  · rw [sim_step_ev_hit algo refs rnd i s f h]; simp [page_hit]
  · rw [sim_step_ev_free algo refs rnd i s f h hf]; simp [load_page]
  · rw [sim_step_ev_replace algo refs rnd i s h hf]
    simp [load_page, select_victim_length]

theorem sim_step_cursors (algo : Algo) (refs : List Int) (rnd : Nat → Int) (i : Nat)
    (s : SimState) (hc : CursorsOk s) : CursorsOk (sim_step algo refs rnd i s) := by
  unfold CursorsOk
  rw [sim_step_frame_count]
  unfold sim_step
  rcases sim_step_ev_cases refs i s with ⟨f, h⟩ | ⟨h, f, hf⟩ | ⟨h, hf⟩
  · rw [sim_step_ev_hit algo refs rnd i s f h]; exact hc
  · rw [sim_step_ev_free algo refs rnd i s f h hf]; exact hc
  · rw [sim_step_ev_replace algo refs rnd i s h hf]
    have := select_victim_lt algo refs i (tick_fault s) hc.1 hc.2
    simp only [load_page, remove_old_page_fifo_index, remove_old_page_clock_hand]
    exact ⟨this.2.1, this.2.2⟩

theorem sim_steps_frame_count (algo : Algo) (refs : List Int) (rnd : Nat → Int)
    (s : SimState) (k : Nat) : (sim_steps algo refs rnd s k).frame_count = s.frame_count := by
  induction k with
  | zero => rfl
  | succ k ih => rw [sim_steps, sim_step_frame_count, ih]

theorem sim_steps_cursors (algo : Algo) (refs : List Int) (rnd : Nat → Int)
    (s : SimState) (hc : CursorsOk s) (k : Nat) : CursorsOk (sim_steps algo refs rnd s k) := by
  induction k with
  | zero => exact hc
  | succ k ih => exact sim_step_cursors algo refs rnd k _ ih

@[simp] theorem sim_reset_frame_count (s : SimState) :
    (sim_reset s).frame_count = s.frame_count := by
  simp [sim_reset, SimState.frame_count]

theorem sim_reset_cursors (s : SimState) (hn : 1 ≤ s.frame_count) : CursorsOk (sim_reset s) := by
  unfold CursorsOk
  rw [sim_reset_frame_count]
  exact ⟨hn, hn⟩


/-! ## Resident pages (`slots`) -/

theorem slot_clearRef (fr : Frame) : slot (clearRef fr) = slot fr := rfl

theorem slots_eq_of_clearRef {m1 m2 : List Frame} (h : m1.map clearRef = m2.map clearRef) :
    slots m1 = slots m2 := by
  have h1 : ∀ m : List Frame, slots m = (m.map clearRef).map slot := by
    intro m; simp [slots, List.map_map, Function.comp_def, slot_clearRef]
  rw [h1 m1, h1 m2, h]

@[simp] theorem slots_length (mem : List Frame) : (slots mem).length = mem.length := by
  simp [slots]

theorem slots_getElem? (mem : List Frame) (i : Nat) (h : i < mem.length) :
    (slots mem)[i]? = some (slot (frameAt mem i)) := by
  simp [slots, frameAt, List.getD_eq_getElem?_getD, List.getElem?_eq_getElem h]

theorem slot_eq_some {fr : Frame} {p : Int} :
    slot fr = some p ↔ fr.occupied ≠ 0 ∧ fr.page_no = p := by
  unfold slot
  by_cases h : fr.occupied ≠ 0
  · rw [if_pos h]; simp [h]
  · rw [if_neg h]; simp [h]

theorem slot_eq_none {fr : Frame} : slot fr = none ↔ fr.occupied = 0 := by
  unfold slot
  by_cases h : fr.occupied ≠ 0
  · rw [if_pos h]; simp [h]
  · rw [if_neg h]; simpa using h

theorem some_mem_slots {mem : List Frame} {p : Int} :
    some p ∈ slots mem ↔ ∃ fr ∈ mem, fr.occupied ≠ 0 ∧ fr.page_no = p := by
  simp only [slots, List.mem_map, slot_eq_some]

theorem none_mem_slots {mem : List Frame} :
    none ∈ slots mem ↔ ∃ fr ∈ mem, fr.occupied = 0 := by
  simp only [slots, List.mem_map, slot_eq_none]

theorem find_page_none_iff (mem : List Frame) (p : Int) :
    find_page mem p = none ↔ some p ∉ slots mem := by
  rw [find_page_none, some_mem_slots]
  constructor
  · rintro h ⟨fr, h1, h2⟩; exact h fr h1 h2
  · intro h fr h1 h2; exact h ⟨fr, h1, h2⟩

theorem get_free_frame_neg_one_iff (mem : List Frame) :
    get_free_frame mem = -1 ↔ none ∉ slots mem := by
  rw [get_free_frame_eq_neg_one, none_mem_slots]
  constructor
  · rintro h ⟨fr, h1, h2⟩; exact h fr h1 h2
  · intro h fr h1 h2; exact h ⟨fr, h1, h2⟩

theorem slots_page_hit (s : SimState) (f : Nat) (p : Int) :
    slots (page_hit s f p).physical_memory = slots s.physical_memory := by
  exact map_updFrame_of_eq slot
    (fun fr => { fr with reference_bit := 1, load_time := s.time_counter }) (fun _ => rfl) _ _

theorem slots_load_page (s : SimState) (f : Nat) (p m : Int) :
    slots (load_page s f p m).physical_memory = (slots s.physical_memory).set f (some p) := by
  unfold load_page slots updFrame
  simp only [List.map_set]
  rfl

theorem slots_select_victim (algo : Algo) (refs : List Int) (i : Nat) (s : SimState) :
    slots (select_victim algo refs i s).2.physical_memory = slots s.physical_memory :=
  slots_eq_of_clearRef (select_victim_clearRef algo refs i s)

/-- How one step acts on the resident pages and the fault counter. -/
theorem sim_step_slots (algo : Algo) (refs : List Int) (rnd : Nat → Int) (i : Nat)
    (s : SimState) :
    (some (refs.getD i 0) ∈ slots s.physical_memory ∧
      slots (sim_step algo refs rnd i s).physical_memory = slots s.physical_memory ∧
      (sim_step algo refs rnd i s).page_faults = s.page_faults) ∨
    (some (refs.getD i 0) ∉ slots s.physical_memory ∧
      (sim_step algo refs rnd i s).page_faults = s.page_faults + 1 ∧
      ∃ f : Nat, f < s.frame_count ∧ (slots s.physical_memory)[f]? = some none ∧
        slots (sim_step algo refs rnd i s).physical_memory
          = (slots s.physical_memory).set f (some (refs.getD i 0))) ∨
    (some (refs.getD i 0) ∉ slots s.physical_memory ∧ none ∉ slots s.physical_memory ∧
      (sim_step algo refs rnd i s).page_faults = s.page_faults + 1 ∧
      slots (sim_step algo refs rnd i s).physical_memory
        = (slots s.physical_memory).set
            (select_victim algo refs i (tick_fault s)).1 (some (refs.getD i 0))) := by
  unfold sim_step
  rcases sim_step_ev_cases refs i s with ⟨f, h⟩ | ⟨h, f, hf⟩ | ⟨h, hf⟩
  · left
    rw [sim_step_ev_hit algo refs rnd i s f h]
    refine ⟨?_, slots_page_hit _ _ _, rfl⟩
    by_contra hc
    rw [(find_page_none_iff _ _).mpr hc] at h
    cases h
  · right; left
    rw [sim_step_ev_free algo refs rnd i s f h hf]
    have hne : get_free_frame s.physical_memory ≠ -1 := by rw [hf]; omega
    obtain ⟨g, h1, h2, h3, _⟩ := get_free_frame_spec _ hne
    have hfg : f = g := by rw [hf] at h1; exact_mod_cast h1
    subst hfg
    refine ⟨(find_page_none_iff _ _).mp h, rfl, f, h2, ?_, slots_load_page _ _ _ _⟩
    rw [slots_getElem? _ _ h2, slot_eq_none.mpr h3]
  · right; right
    rw [sim_step_ev_replace algo refs rnd i s h hf]
    refine ⟨(find_page_none_iff _ _).mp h, (get_free_frame_neg_one_iff _).mp hf, ?_, ?_⟩
    · simp only [load_page, remove_old_page_page_faults, select_victim_page_faults]
      rfl
    · rw [slots_load_page, remove_old_page_physical_memory, slots_select_victim]
      rfl

/-! ## Distinct resident pages -/

theorem mem_set_some {sl : List (Option Int)} {f : Nat} {p : Int} {x : Option Int}
    (h : x ∈ sl.set f (some p)) : x = some p ∨ x ∈ sl := by
  rcases List.mem_or_eq_of_mem_set h with h1 | h1
  · exact Or.inr h1
  · exact Or.inl h1

theorem nodup_reduceOption_set (sl : List (Option Int)) (f : Nat) (p : Int)
    (hnd : sl.reduceOption.Nodup) (hp : some p ∉ sl) :
    (sl.set f (some p)).reduceOption.Nodup := by
  induction sl generalizing f with
  | nil => simp
  | cons a rest ih =>
    have hp2 : some p ∉ rest := fun h => hp (List.mem_cons_of_mem _ h)
    have hrest : rest.reduceOption.Nodup := by
      cases a with
      | none => simpa [List.reduceOption_cons_of_none] using hnd
      | some q =>
        rw [List.reduceOption_cons_of_some] at hnd
        exact (List.nodup_cons.mp hnd).2
    cases f with
    | zero =>
      rw [List.set_cons_zero, List.reduceOption_cons_of_some]
      exact List.nodup_cons.mpr ⟨fun h => hp2 (List.reduceOption_mem_iff.mp h), hrest⟩
    | succ f =>
      rw [List.set_cons_succ]
      cases a with
      | none =>
        rw [List.reduceOption_cons_of_none]
        exact ih f hrest hp2
      | some q =>
        rw [List.reduceOption_cons_of_some] at hnd ⊢
        refine List.nodup_cons.mpr ⟨?_, ih f hrest hp2⟩
        intro hq
        rcases mem_set_some (List.reduceOption_mem_iff.mp hq) with h1 | h1
        · apply hp
          rw [← h1]
          exact List.mem_cons_self _ _
        · exact (List.nodup_cons.mp hnd).1 (List.reduceOption_mem_iff.mpr h1)

theorem nodup_reduceOption_index {sl : List (Option Int)} (hnd : sl.reduceOption.Nodup)
    {i j : Nat} {p : Int} (hi : sl[i]? = some (some p)) (hj : sl[j]? = some (some p)) :
    i = j := by
  induction sl generalizing i j with
  | nil => simp at hi
  | cons a rest ih =>
    have hrest : rest.reduceOption.Nodup := by
      cases a with
      | none => simpa [List.reduceOption_cons_of_none] using hnd
      | some q =>
        rw [List.reduceOption_cons_of_some] at hnd
        exact (List.nodup_cons.mp hnd).2
    have key : ∀ k : Nat, a = some p → rest[k]? = some (some p) → False := by
      intro k ha hk
      subst ha
      rw [List.reduceOption_cons_of_some] at hnd
      exact (List.nodup_cons.mp hnd).1
        (List.reduceOption_mem_iff.mpr (List.getElem?_mem hk))
    cases i with
    | zero =>
      cases j with
      | zero => rfl
      | succ j =>
        simp only [List.getElem?_cons_zero, Option.some.injEq] at hi
        simp only [List.getElem?_cons_succ] at hj
        exact (key j hi hj).elim
    | succ i =>
      cases j with
      | zero =>
        simp only [List.getElem?_cons_zero, Option.some.injEq] at hj
        simp only [List.getElem?_cons_succ] at hi
        exact (key i hj hi).elim
      | succ j =>
        simp only [List.getElem?_cons_succ] at hi hj
        rw [ih hrest hi hj]

theorem sim_step_nodup (algo : Algo) (refs : List Int) (rnd : Nat → Int) (i : Nat)
    (s : SimState) (h : (slots s.physical_memory).reduceOption.Nodup) :
    (slots (sim_step algo refs rnd i s).physical_memory).reduceOption.Nodup := by
  rcases sim_step_slots algo refs rnd i s with ⟨_, h1, _⟩ | ⟨h0, _, f, _, _, h1⟩ | ⟨h0, _, _, h1⟩
  · rw [h1]; exact h
  · rw [h1]; exact nodup_reduceOption_set _ _ _ h h0
  · rw [h1]; exact nodup_reduceOption_set _ _ _ h h0

theorem slots_sim_reset (s : SimState) :
    slots (sim_reset s).physical_memory = List.replicate s.frame_count none := by
  simp only [sim_reset, slots, List.map_map, SimState.frame_count]
  rw [List.eq_replicate_iff]
  refine ⟨by simp, ?_⟩
  intro b hb
  obtain ⟨fr, _, h2⟩ := List.mem_map.mp hb
  rw [← h2]
  rfl

theorem reduceOption_replicate_none (n : Nat) :
    (List.replicate n (none : Option Int)).reduceOption = [] := by
  induction n with
  | zero => rfl
  | succ n ih => rw [List.replicate_succ, List.reduceOption_cons_of_none, ih]

theorem sim_steps_nodup (algo : Algo) (refs : List Int) (rnd : Nat → Int) (s : SimState)
    (k : Nat) :
    (slots (sim_steps algo refs rnd (sim_reset s) k).physical_memory).reduceOption.Nodup := by
  induction k with
  | zero =>
    rw [sim_steps, slots_sim_reset, reduceOption_replicate_none]
    exact List.nodup_nil
  | succ k ih => exact sim_step_nodup algo refs rnd k _ ih

/-- C10: after the reset and after every step of a run, two occupied frames
never hold the same (process id, page number) pair, and the number of
occupied frames is at most `frame_count` (which the run never changes). -/
theorem occupied_frames_distinct_and_bounded (algo : Algo) (refs : List Int)
    (rnd : Nat → Int) (s : SimState) (k : Nat) :
    (∀ i j : Nat, i < s.frame_count → j < s.frame_count →
      (frameAt (sim_steps algo refs rnd (sim_reset s) k).physical_memory i).occupied ≠ 0 →
      (frameAt (sim_steps algo refs rnd (sim_reset s) k).physical_memory j).occupied ≠ 0 →
      (frameAt (sim_steps algo refs rnd (sim_reset s) k).physical_memory i).process_id
        = (frameAt (sim_steps algo refs rnd (sim_reset s) k).physical_memory j).process_id →
      (frameAt (sim_steps algo refs rnd (sim_reset s) k).physical_memory i).page_no
        = (frameAt (sim_steps algo refs rnd (sim_reset s) k).physical_memory j).page_no →
      i = j) ∧
    ((sim_steps algo refs rnd (sim_reset s) k).physical_memory.filter
        (fun fr => decide (fr.occupied ≠ 0))).length ≤ s.frame_count ∧
    (sim_steps algo refs rnd (sim_reset s) k).frame_count = s.frame_count := by
  have hlen : (sim_steps algo refs rnd (sim_reset s) k).frame_count = s.frame_count := by
    rw [sim_steps_frame_count, sim_reset_frame_count]
  refine ⟨?_, ?_, hlen⟩
  · intro i j hi hj hoi hoj _ hpage
    have hi2 : i < (sim_steps algo refs rnd (sim_reset s) k).physical_memory.length := by
      rw [← hlen] at hi; exact hi
    have hj2 : j < (sim_steps algo refs rnd (sim_reset s) k).physical_memory.length := by
      rw [← hlen] at hj; exact hj
    apply nodup_reduceOption_index (sim_steps_nodup algo refs rnd s k)
    · rw [slots_getElem? _ _ hi2, slot_eq_some.mpr ⟨hoi, hpage⟩]
    · rw [slots_getElem? _ _ hj2, slot_eq_some.mpr ⟨hoj, rfl⟩]
  · rw [← hlen]
    exact List.length_filter_le _ _


/-! ## Replacement only when memory is full -/

theorem all_occupied_iff (mem : List Frame) :
    (∀ fr ∈ mem, fr.occupied ≠ 0) ↔ ∀ j, j < mem.length → (frameAt mem j).occupied ≠ 0 := by
  constructor
  · intro h j hj; exact h _ (frameAt_mem hj)
  · intro h fr hfr
    obtain ⟨j, hj, h2⟩ := exists_frameAt_of_mem hfr
    rw [← h2]; exact h j hj

/-- C8: `get_free_frame` returns -1 exactly when every frame is occupied and
otherwise the lowest-index free frame; a step whose event is a replacement
started with every frame occupied, and while some frame is free the step does
not depend on the strategy; on a fault with a free frame the page is loaded
into that frame and the FIFO cursor, the Clock hand and every other frame are
unchanged. -/
theorem replacement_only_when_full (algo : Algo) (refs : List Int) (rnd : Nat → Int)
    (i : Nat) (s : SimState) :
    (get_free_frame s.physical_memory = -1 ↔
      ∀ j, j < s.frame_count → (frameAt s.physical_memory j).occupied ≠ 0) ∧
    (get_free_frame s.physical_memory ≠ -1 →
      ∃ f : Nat, get_free_frame s.physical_memory = (f : Int) ∧ f < s.frame_count ∧
        (frameAt s.physical_memory f).occupied = 0 ∧
        ∀ j, j < f → (frameAt s.physical_memory j).occupied ≠ 0) ∧
    (∀ f e, (sim_step_ev algo refs rnd i s).2 = StepEvent.replace f e →
      ∀ j, j < s.frame_count → (frameAt s.physical_memory j).occupied ≠ 0) ∧
    ((∃ j, j < s.frame_count ∧ (frameAt s.physical_memory j).occupied = 0) →
      ∀ algo2 : Algo, sim_step_ev algo2 refs rnd i s = sim_step_ev algo refs rnd i s) ∧
    (∀ f : Nat, find_page s.physical_memory (refs.getD i 0) = none →
      get_free_frame s.physical_memory = (f : Int) →
      (sim_step_ev algo refs rnd i s).2 = StepEvent.loadFree f ∧
      (sim_step algo refs rnd i s).fifo_index = s.fifo_index ∧
      (sim_step algo refs rnd i s).clock_hand = s.clock_hand ∧
      (frameAt (sim_step algo refs rnd i s).physical_memory f).occupied = 1 ∧
      (frameAt (sim_step algo refs rnd i s).physical_memory f).page_no = refs.getD i 0 ∧
      ∀ j, j ≠ f →
        frameAt (sim_step algo refs rnd i s).physical_memory j
          = frameAt s.physical_memory j) := by
  have hfull : get_free_frame s.physical_memory = -1 ↔
      ∀ j, j < s.frame_count → (frameAt s.physical_memory j).occupied ≠ 0 := by
    rw [get_free_frame_eq_neg_one, all_occupied_iff]; rfl
  refine ⟨hfull, get_free_frame_spec _, ?_, ?_, ?_⟩
  · intro f e hev
    rcases sim_step_ev_cases refs i s with ⟨g, h⟩ | ⟨h, g, hf⟩ | ⟨h, hf⟩
    · rw [sim_step_ev_hit algo refs rnd i s g h] at hev; cases hev
    · rw [sim_step_ev_free algo refs rnd i s g h hf] at hev; cases hev
    · exact hfull.mp hf
  · rintro ⟨j, hj, hfree⟩ algo2
    rcases sim_step_ev_cases refs i s with ⟨g, h⟩ | ⟨h, g, hf⟩ | ⟨h, hf⟩
    · rw [sim_step_ev_hit algo refs rnd i s g h, sim_step_ev_hit algo2 refs rnd i s g h]
    · rw [sim_step_ev_free algo refs rnd i s g h hf, sim_step_ev_free algo2 refs rnd i s g h hf]
    · exact absurd hfree (hfull.mp hf j hj)
  · intro f h hf
    have hne : get_free_frame s.physical_memory ≠ -1 := by rw [hf]; omega
    obtain ⟨g, h1, h2, _, _⟩ := get_free_frame_spec _ hne
    have hfg : f = g := by rw [hf] at h1; exact_mod_cast h1
    subst hfg
    unfold sim_step
    rw [sim_step_ev_free algo refs rnd i s f h hf]
    refine ⟨rfl, rfl, rfl, ?_, ?_, ?_⟩
    · simp only [load_page, tick_fault_physical_memory]
      rw [frameAt_updFrame_self _ h2]
    · simp only [load_page, tick_fault_physical_memory]
      rw [frameAt_updFrame_self _ h2]
    · intro j hj
      simp only [load_page, tick_fault_physical_memory]
      rw [frameAt_updFrame_ne _ _ hj]


/-! ## Determinism: the run reads only `frame_view` -/

theorem frame_view_eq {a b : Frame} (h : frame_view a = frame_view b) :
    a.occupied = b.occupied ∧ a.page_no = b.page_no ∧ a.reference_bit = b.reference_bit ∧
      a.load_time = b.load_time := by
  simp only [frame_view, Prod.mk.injEq] at h
  exact h

theorem frame_view_frameAt {m1 m2 : List Frame} (h : m1.map frame_view = m2.map frame_view)
    (i : Nat) : frame_view (frameAt m1 i) = frame_view (frameAt m2 i) := by
  have h1 : ∀ m : List Frame,
      frame_view (frameAt m i) = (m.map frame_view).getD i (frame_view default) := by
    intro m
    simp only [frameAt, List.getD_eq_getElem?_getD, List.getElem?_map]
    cases m[i]? <;> rfl
  rw [h1 m1, h1 m2, h]

theorem frame_view_updFrame {m1 m2 : List Frame} (h : m1.map frame_view = m2.map frame_view)
    (i : Nat) (g1 g2 : Frame → Frame)
    (hg : ∀ a b, frame_view a = frame_view b → frame_view (g1 a) = frame_view (g2 b)) :
    (updFrame m1 i g1).map frame_view = (updFrame m2 i g2).map frame_view := by
  unfold updFrame
  rw [List.map_set, List.map_set, h, hg _ _ (frame_view_frameAt h i)]

theorem find_page_from_view (p : Int) {m1 m2 : List Frame}
    (h : m1.map frame_view = m2.map frame_view) (i : Nat) :
    find_page_from p m1 i = find_page_from p m2 i := by
  induction m1 generalizing m2 i with
  | nil =>
    cases m2 with
    | nil => rfl
    | cons b r2 => simp at h
  | cons a r1 ih =>
    cases m2 with
    | nil => simp at h
    | cons b r2 =>
      simp only [List.map_cons, List.cons.injEq] at h
      obtain ⟨h1, h2, _, _⟩ := frame_view_eq h.1
      simp only [find_page_from, h1, h2, ih h.2]

theorem get_free_frame_from_view {m1 m2 : List Frame}
    (h : m1.map frame_view = m2.map frame_view) (i : Nat) :
    get_free_frame_from m1 i = get_free_frame_from m2 i := by
  induction m1 generalizing m2 i with
  | nil =>
    cases m2 with
    | nil => rfl
    | cons b r2 => simp at h
  | cons a r1 ih =>
    cases m2 with
    | nil => simp at h
    | cons b r2 =>
      simp only [List.map_cons, List.cons.injEq] at h
      obtain ⟨h1, _, _, _⟩ := frame_view_eq h.1
      simp only [get_free_frame_from, h1, ih h.2]

theorem lru_loop_view {m1 m2 : List Frame} (h : m1.map frame_view = m2.map frame_view)
    (i : Nat) (acc : Nat × Int × Bool) : lru_loop m1 i acc = lru_loop m2 i acc := by
  induction m1 generalizing m2 i acc with
  | nil =>
    cases m2 with
    | nil => rfl
    | cons b r2 => simp at h
  | cons a r1 ih =>
    cases m2 with
    | nil => simp at h
    | cons b r2 =>
      simp only [List.map_cons, List.cons.injEq] at h
      obtain ⟨h1, _, _, h4⟩ := frame_view_eq h.1
      obtain ⟨x, y, z⟩ := acc
      simp only [lru_loop, h1, h4, ih h.2]

theorem optimal_loop_view (refs : List Int) (cur : Nat) {m1 m2 : List Frame}
    (h : m1.map frame_view = m2.map frame_view) (i : Nat) (acc : Nat × Int) :
    optimal_loop refs cur m1 i acc = optimal_loop refs cur m2 i acc := by
  induction m1 generalizing m2 i acc with
  | nil =>
    cases m2 with
    | nil => rfl
    | cons b r2 => simp at h
  | cons a r1 ih =>
    cases m2 with
    | nil => simp at h
    | cons b r2 =>
      simp only [List.map_cons, List.cons.injEq] at h
      obtain ⟨h1, h2, _, _⟩ := frame_view_eq h.1
      obtain ⟨x, y⟩ := acc
      simp only [optimal_loop, h1, h2, ih h.2]

theorem fifo_loop_view {m1 m2 : List Frame} (h : m1.map frame_view = m2.map frame_view)
    (n fuel selected : Nat) : fifo_loop m1 n fuel selected = fifo_loop m2 n fuel selected := by
  induction fuel generalizing selected with
  | zero => rfl
  | succ fuel ih =>
    simp only [fifo_loop, (frame_view_eq (frame_view_frameAt h selected)).1, ih]

theorem clock_loop_view (n fuel : Nat) {m1 m2 : List Frame}
    (h : m1.map frame_view = m2.map frame_view) (hand : Nat) :
    (clock_loop n fuel m1 hand).1 = (clock_loop n fuel m2 hand).1 ∧
    (clock_loop n fuel m1 hand).2.1.map frame_view
      = (clock_loop n fuel m2 hand).2.1.map frame_view ∧
    (clock_loop n fuel m1 hand).2.2 = (clock_loop n fuel m2 hand).2.2 := by
  induction fuel generalizing m1 m2 hand with
  | zero => exact ⟨rfl, h, rfl⟩
  | succ fuel ih =>
    obtain ⟨h1, _, h3, _⟩ := frame_view_eq (frame_view_frameAt h hand)
    rw [clock_loop, clock_loop, h1, h3]
    split
    · split
      · exact ⟨rfl, h, rfl⟩
      · apply ih
        apply frame_view_updFrame h
        intro a b hab
        obtain ⟨e1, e2, _, e4⟩ := frame_view_eq hab
        simp only [frame_view, e1, e2, e4]
    · exact ih h _

theorem length_eq_of_view {m1 m2 : List Frame} (h : m1.map frame_view = m2.map frame_view) :
    m1.length = m2.length := by
  have := congrArg List.length h
  simpa using this

theorem select_victim_view (algo : Algo) (refs : List Int) (i : Nat) {s1 s2 : SimState}
    (h : SameView s1 s2) :
    (select_victim algo refs i s1).1 = (select_victim algo refs i s2).1 ∧
      SameView (select_victim algo refs i s1).2 (select_victim algo refs i s2).2 := by
  obtain ⟨hm, ht, hpf, hph, hfi, hch⟩ := h
  have hlen : s1.frame_count = s2.frame_count := length_eq_of_view hm
  cases algo
  · have e : fifo_loop s1.physical_memory s1.frame_count s1.frame_count s1.fifo_index
        = fifo_loop s2.physical_memory s2.frame_count s2.frame_count s2.fifo_index := by
      rw [hlen, hfi, fifo_loop_view hm]
    have e1 : (select_victim Algo.FIFO refs i s1).1 = (select_victim Algo.FIFO refs i s2).1 := by
      show (fifo_loop s1.physical_memory s1.frame_count s1.frame_count s1.fifo_index).1
        = (fifo_loop s2.physical_memory s2.frame_count s2.frame_count s2.fifo_index).1
      rw [e]
    have e2 : (select_victim Algo.FIFO refs i s1).2.fifo_index
        = (select_victim Algo.FIFO refs i s2).2.fifo_index := by
      show (fifo_loop s1.physical_memory s1.frame_count s1.frame_count s1.fifo_index).2
        = (fifo_loop s2.physical_memory s2.frame_count s2.frame_count s2.fifo_index).2
      rw [e]
    exact ⟨e1, hm, ht, hpf, hph, e2, hch⟩
  · have e : lru_replacement s1 = lru_replacement s2 := by
      unfold lru_replacement
      rw [ht, lru_loop_view hm]
    exact ⟨e, hm, ht, hpf, hph, hfi, hch⟩
  · have e : optimal_replacement s1 refs (i + 1) = optimal_replacement s2 refs (i + 1) := by
      unfold optimal_replacement
      rw [optimal_loop_view refs (i + 1) hm]
    exact ⟨e, hm, ht, hpf, hph, hfi, hch⟩
  · obtain ⟨c1, c2, c3⟩ := clock_loop_view s2.frame_count (s2.frame_count * 2) hm s2.clock_hand
    have e1 : (clock_replacement s1).1 = (clock_replacement s2).1 := by
      unfold clock_replacement
      rw [hlen, hch]
      exact c1
    have e2 : (clock_replacement s1).2.physical_memory.map frame_view
        = (clock_replacement s2).2.physical_memory.map frame_view := by
      unfold clock_replacement
      rw [hlen, hch]
      exact c2
    have e3 : (clock_replacement s1).2.clock_hand = (clock_replacement s2).2.clock_hand := by
      unfold clock_replacement
      rw [hlen, hch]
      exact c3
    exact ⟨e1, e2, ht, hpf, hph, hfi, e3⟩

theorem page_hit_physical_memory (s : SimState) (f : Nat) (p : Int) :
    (page_hit s f p).physical_memory
      = updFrame s.physical_memory f (fun fr =>
          { fr with reference_bit := 1, load_time := s.time_counter }) := rfl

theorem load_page_physical_memory (s : SimState) (f : Nat) (p m : Int) :
    (load_page s f p m).physical_memory
      = updFrame s.physical_memory f (fun fr =>
          { fr with occupied := 1, page_no := p, process_id := 1, reference_bit := 1,
                    modify_bit := m, load_time := s.time_counter }) := rfl

theorem page_hit_view {s1 s2 : SimState} (h : SameView s1 s2) (f : Nat) (p : Int) :
    SameView (page_hit s1 f p) (page_hit s2 f p) := by
  obtain ⟨hm, ht, hpf, hph, hfi, hch⟩ := h
  refine ⟨?_, ht, hpf, ?_, hfi, hch⟩
  · rw [page_hit_physical_memory, page_hit_physical_memory]
    apply frame_view_updFrame hm
    intro a b hab
    obtain ⟨e1, e2, _, _⟩ := frame_view_eq hab
    simp only [frame_view, e1, e2, ht]
  · show s1.page_hits + 1 = s2.page_hits + 1
    rw [hph]

theorem load_page_view {s1 s2 : SimState} (h : SameView s1 s2) (f : Nat) (p m1 m2 : Int) :
    SameView (load_page s1 f p m1) (load_page s2 f p m2) := by
  obtain ⟨hm, ht, hpf, hph, hfi, hch⟩ := h
  refine ⟨?_, ht, hpf, hph, hfi, hch⟩
  rw [load_page_physical_memory, load_page_physical_memory]
  apply frame_view_updFrame hm
  intro a b _
  simp only [frame_view, ht]

theorem remove_old_page_view {s1 s2 : SimState} (h : SameView s1 s2) (f1 f2 : Nat) :
    SameView (remove_old_page s1 f1) (remove_old_page s2 f2) := by
  unfold SameView
  simp only [remove_old_page_physical_memory, remove_old_page_time_counter,
    remove_old_page_page_faults, remove_old_page_page_hits, remove_old_page_fifo_index,
    remove_old_page_clock_hand]
  exact h

theorem tick_fault_view {s1 s2 : SimState} (h : SameView s1 s2) :
    SameView (tick_fault s1) (tick_fault s2) := by
  obtain ⟨hm, ht, hpf, hph, hfi, hch⟩ := h
  refine ⟨hm, ?_, ?_, hph, hfi, hch⟩
  · show s1.time_counter + 1 = s2.time_counter + 1
    rw [ht]
  · show s1.page_faults + 1 = s2.page_faults + 1
    rw [hpf]

theorem sim_step_view (algo : Algo) (refs : List Int) (rnd1 rnd2 : Nat → Int) (i : Nat)
    {s1 s2 : SimState} (h : SameView s1 s2) :
    SameView (sim_step algo refs rnd1 i s1) (sim_step algo refs rnd2 i s2) := by
  have hm := h.1
  have hfind : find_page s1.physical_memory (refs.getD i 0)
      = find_page s2.physical_memory (refs.getD i 0) := find_page_from_view _ hm 0
  have hfree : get_free_frame s1.physical_memory = get_free_frame s2.physical_memory :=
    get_free_frame_from_view hm 0
  unfold sim_step
  rcases sim_step_ev_cases refs i s1 with ⟨f, hf⟩ | ⟨hf, f, hg⟩ | ⟨hf, hg⟩
  · rw [sim_step_ev_hit algo refs rnd1 i s1 f hf,
      sim_step_ev_hit algo refs rnd2 i s2 f (hfind ▸ hf)]
    apply page_hit_view
    obtain ⟨_, ht, hpf, hph, hfi, hch⟩ := h
    refine ⟨hm, ?_, hpf, hph, hfi, hch⟩
    show s1.time_counter + 1 = s2.time_counter + 1
    rw [ht]
  · rw [sim_step_ev_free algo refs rnd1 i s1 f hf hg,
      sim_step_ev_free algo refs rnd2 i s2 f (hfind ▸ hf) (hfree ▸ hg)]
    exact load_page_view (tick_fault_view h) _ _ _ _
  · rw [sim_step_ev_replace algo refs rnd1 i s1 hf hg,
      sim_step_ev_replace algo refs rnd2 i s2 (hfind ▸ hf) (hfree ▸ hg)]
    obtain ⟨hv, hsv⟩ := select_victim_view algo refs i (tick_fault_view h)
    rw [hv]
    exact load_page_view (remove_old_page_view hsv _ _) _ _ _ _

theorem sim_steps_view (algo : Algo) (refs : List Int) (rnd1 rnd2 : Nat → Int)
    {s1 s2 : SimState} (h : SameView s1 s2) (k : Nat) :
    SameView (sim_steps algo refs rnd1 s1 k) (sim_steps algo refs rnd2 s2 k) := by
  induction k with
  | zero => exact h
  | succ k ih => exact sim_step_view algo refs rnd1 rnd2 k ih

theorem sim_reset_view (s1 s2 : SimState) (h : s1.frame_count = s2.frame_count) :
    SameView (sim_reset s1) (sim_reset s2) := by
  refine ⟨?_, rfl, rfl, rfl, rfl, rfl⟩
  have key : ∀ s : SimState, (sim_reset s).physical_memory.map frame_view
      = List.replicate s.frame_count (0, -1, 0, -1) := by
    intro s
    simp only [sim_reset, List.map_map, SimState.frame_count]
    rw [List.eq_replicate_iff]
    refine ⟨by simp, ?_⟩
    intro b hb
    obtain ⟨fr, _, h2⟩ := List.mem_map.mp hb
    rw [← h2]
    rfl
  rw [key s1, key s2, h]

/-- C7: two runs of the same strategy on the same reference string with the
same frame count, started from arbitrary prior states and with arbitrary
random modify bits, end (after the reset each run begins with) with equal hit
counts, equal fault counts, and the same occupancy flag and page number in
every frame. -/
theorem rerun_after_reset_deterministic (algo : Algo) (refs : List Int)
    (rnd1 rnd2 : Nat → Int) (s1 s2 : SimState) (hn : s1.frame_count = s2.frame_count) :
    (simulate_page_replacement algo refs rnd1 s1).page_hits
      = (simulate_page_replacement algo refs rnd2 s2).page_hits ∧
    (simulate_page_replacement algo refs rnd1 s1).page_faults
      = (simulate_page_replacement algo refs rnd2 s2).page_faults ∧
    ∀ j : Nat,
      (frameAt (simulate_page_replacement algo refs rnd1 s1).physical_memory j).occupied
        = (frameAt (simulate_page_replacement algo refs rnd2 s2).physical_memory j).occupied ∧
      (frameAt (simulate_page_replacement algo refs rnd1 s1).physical_memory j).page_no
        = (frameAt (simulate_page_replacement algo refs rnd2 s2).physical_memory j).page_no := by
  obtain ⟨hm, _, hpf, hph, _, _⟩ :=
    sim_steps_view algo refs rnd1 rnd2 (sim_reset_view s1 s2 hn) refs.length
  refine ⟨hph, hpf, ?_⟩
  intro j
  obtain ⟨e1, e2, _, _⟩ := frame_view_eq (frame_view_frameAt hm j)
  exact ⟨e1, e2⟩


theorem rerun_after_reset_deterministic_witness :
    (init_state 3 (fun _ _ => 0)).frame_count
      = (simulate_page_replacement Algo.LRU [0, 1, 2, 3] (fun _ => 1)
          (init_state 3 (fun _ _ => 1))).frame_count ∧
    (simulate_page_replacement Algo.Clock [0, 1, 2, 0, 3] (fun _ => 0)
        (init_state 3 (fun _ _ => 0))).page_faults
      = (simulate_page_replacement Algo.Clock [0, 1, 2, 0, 3] (fun _ => 1)
          (simulate_page_replacement Algo.LRU [0, 1, 2, 3] (fun _ => 1)
            (init_state 3 (fun _ _ => 1)))).page_faults :=
  ⟨by rfl, (rerun_after_reset_deterministic Algo.Clock [0, 1, 2, 0, 3] (fun _ => 0)
    (fun _ => 1) (init_state 3 (fun _ _ => 0))
    (simulate_page_replacement Algo.LRU [0, 1, 2, 3] (fun _ => 1) (init_state 3 (fun _ _ => 1)))
    (by rfl)).2.1⟩

/-! ## The textbook reference string -/

theorem counters_of_three_frames (algo : Algo) (refs : List Int) (rnd : Nat → Int)
    (s : SimState) (h : s.frame_count = 3) :
    (simulate_page_replacement algo refs rnd s).page_faults
      = (simulate_page_replacement algo refs (fun _ => 0)
          (init_state 3 (fun _ _ => 0))).page_faults ∧
    (simulate_page_replacement algo refs rnd s).page_hits
      = (simulate_page_replacement algo refs (fun _ => 0)
          (init_state 3 (fun _ _ => 0))).page_hits := by
  have hn : s.frame_count = (init_state 3 (fun _ _ => 0)).frame_count := by rw [h]; rfl
  obtain ⟨_, _, hpf, hph, _, _⟩ :=
    sim_steps_view algo refs rnd (fun _ => 0) (sim_reset_view s _ hn) refs.length
  exact ⟨hpf, hph⟩

/-- C3: FIFO with 3 frames on the reference string
`[0,1,2,3,0,1,4,0,1,2,3,4]`, run from the reset state (whatever the state
before the reset and the random modify bits), ends with 9 page faults and 3
page hits. -/
theorem fifo_textbook_nine_faults (rnd : Nat → Int) (s : SimState) (h : s.frame_count = 3) :
    (simulate_page_replacement Algo.FIFO [0, 1, 2, 3, 0, 1, 4, 0, 1, 2, 3, 4] rnd s).page_faults
      = 9 ∧
    (simulate_page_replacement Algo.FIFO [0, 1, 2, 3, 0, 1, 4, 0, 1, 2, 3, 4] rnd s).page_hits
      = 3 := by
  obtain ⟨h1, h2⟩ :=
    counters_of_three_frames Algo.FIFO [0, 1, 2, 3, 0, 1, 4, 0, 1, 2, 3, 4] rnd s h
  rw [h1, h2]
  exact ⟨by rfl, by rfl⟩

theorem fifo_textbook_nine_faults_witness :
    (init_state 3 (fun _ _ => 1)).frame_count = 3 ∧
    (simulate_page_replacement Algo.FIFO [0, 1, 2, 3, 0, 1, 4, 0, 1, 2, 3, 4] (fun _ => 1)
      (init_state 3 (fun _ _ => 1))).page_faults = 9 :=
  ⟨by rfl, (fifo_textbook_nine_faults (fun _ => 1) (init_state 3 (fun _ _ => 1)) (by rfl)).1⟩

/-- C4: LRU with 3 frames on the reference string
`[0,1,2,3,0,1,4,0,1,2,3,4]`, run from the reset state (whatever the state
before the reset and the random modify bits), ends with 10 page faults and 2
page hits. -/
theorem lru_textbook_ten_faults (rnd : Nat → Int) (s : SimState) (h : s.frame_count = 3) :
    (simulate_page_replacement Algo.LRU [0, 1, 2, 3, 0, 1, 4, 0, 1, 2, 3, 4] rnd s).page_faults
      = 10 ∧
    (simulate_page_replacement Algo.LRU [0, 1, 2, 3, 0, 1, 4, 0, 1, 2, 3, 4] rnd s).page_hits
      = 2 := by
  obtain ⟨h1, h2⟩ :=
    counters_of_three_frames Algo.LRU [0, 1, 2, 3, 0, 1, 4, 0, 1, 2, 3, 4] rnd s h
  rw [h1, h2]
  exact ⟨by rfl, by rfl⟩

theorem lru_textbook_ten_faults_witness :
    (init_state 3 (fun _ _ => 1)).frame_count = 3 ∧
    (simulate_page_replacement Algo.LRU [0, 1, 2, 3, 0, 1, 4, 0, 1, 2, 3, 4] (fun _ => 1)
      (init_state 3 (fun _ _ => 1))).page_faults = 10 :=
  ⟨by rfl, (lru_textbook_ten_faults (fun _ => 1) (init_state 3 (fun _ _ => 1)) (by rfl)).1⟩


/-! ## The TLB filled without hits -/

theorem search_tlb_from_none (p : Int) (l : List TLBEntry) (k i : Nat)
    (h : ∀ e ∈ l, ¬ (e.valid ≠ 0 ∧ e.page_no = p)) : search_tlb_from p l k i = -1 := by
  induction l generalizing k i with
  | nil => rfl
  | cons e rest ih =>
    cases k with
    | zero => rfl
    | succ k =>
      rw [search_tlb_from, if_neg (h e (List.mem_cons_self _ _))]
      exact ih k (i + 1) (fun e2 h2 => h e2 (List.mem_cons_of_mem _ h2))

theorem mem_filled_slots {ps : List Int} {j : Nat} {e : TLBEntry} (h : e ∈ filled_slots ps j) :
    e.page_no ∈ ps ∧ e.valid = 1 := by
  induction ps generalizing j with
  | nil => simp [filled_slots] at h
  | cons p ps ih =>
    rw [filled_slots] at h
    rcases List.mem_cons.mp h with h1 | h1
    · rw [h1]; exact ⟨List.mem_cons_self _ _, rfl⟩
    · exact ⟨List.mem_cons_of_mem _ (ih h1).1, (ih h1).2⟩

@[simp] theorem filled_slots_length (ps : List Int) (j : Nat) :
    (filled_slots ps j).length = ps.length := by
  induction ps generalizing j with
  | nil => rfl
  | cons p ps ih => simp [filled_slots, ih]

theorem filled_slots_append (ps : List Int) (p : Int) (j : Nat) :
    filled_slots (ps ++ [p]) j
      = filled_slots ps j ++
          [{ page_no := p, frame_no := p * 2 + 1, valid := 1,
             last_used := ((j + ps.length : Nat) : Int) + 1 }] := by
  induction ps generalizing j with
  | nil => simp [filled_slots]
  | cons q ps ih =>
    rw [List.cons_append, filled_slots, filled_slots, ih, List.cons_append, List.length_cons]
    have : j + 1 + ps.length = j + (ps.length + 1) := by omega
    rw [this]

theorem empty_slot_from_filled (ps : List Int) (j : Nat) (e : TLBEntry) (rest : List TLBEntry)
    (k i : Nat) (he : e.valid = 0) (hk : ps.length < k) :
    empty_slot_from (filled_slots ps j ++ e :: rest) k i = ((i + ps.length : Nat) : Int) := by
  induction ps generalizing j k i with
  | nil =>
    cases k with
    | zero => omega
    | succ k => simp [filled_slots, empty_slot_from, he]
  | cons p ps ih =>
    cases k with
    | zero => omega
    | succ k =>
      rw [filled_slots, List.cons_append, empty_slot_from, if_neg (by simp),
        ih (j + 1) k (i + 1) (by simpa using hk), List.length_cons]
      congr 1
      omega

theorem empty_slot_from_full (ps : List Int) (j : Nat) (rest : List TLBEntry) (i : Nat) :
    empty_slot_from (filled_slots ps j ++ rest) ps.length i = -1 := by
  induction ps generalizing j i with
  | nil => cases rest <;> rfl
  | cons p ps ih =>
    rw [filled_slots, List.cons_append, List.length_cons, empty_slot_from, if_neg (by simp)]
    exact ih (j + 1) (i + 1)

theorem tlb_lru_loop_filled (ps : List Int) (j : Nat) (rest : List TLBEntry) (i a : Nat)
    (m : Int) (hm : m ≤ (j : Int) + 1) :
    tlb_lru_loop (filled_slots ps j ++ rest) ps.length i (a, m) = (a, m) := by
  induction ps generalizing j i with
  | nil => cases rest <;> rfl
  | cons p ps ih =>
    rw [filled_slots, List.cons_append, List.length_cons, tlb_lru_loop,
      if_neg (by simp only [not_lt]; omega)]
    exact ih (j + 1) (i + 1) (by push_cast; omega)

theorem tlbAt_filled_slots (ps : List Int) (j : Nat) (rest : List TLBEntry) (i : Nat)
    (h : i < ps.length) :
    tlbAt (filled_slots ps j ++ rest) i
      = { page_no := ps.getD i 0, frame_no := ps.getD i 0 * 2 + 1, valid := 1,
          last_used := ((j + i : Nat) : Int) + 1 } := by
  induction ps generalizing j i with
  | nil => simp at h
  | cons p ps ih =>
    cases i with
    | zero => simp [filled_slots, tlbAt]
    | succ i =>
      have := ih (j + 1) i (by simpa using h)
      simp only [tlbAt, filled_slots, List.cons_append, List.getD_cons_succ] at this ⊢
      rw [this]
      have : j + 1 + i = j + (i + 1) := by omega
      rw [this]

theorem tlbAt_append_right (l rest : List TLBEntry) (i : Nat) (h : l.length ≤ i) :
    tlbAt (l ++ rest) i = tlbAt rest (i - l.length) := by
  simp only [tlbAt, List.getD_eq_getElem?_getD]
  rw [List.getElem?_append_right h]

theorem tlbAt_replicate_empty (n i : Nat) :
    (tlbAt (List.replicate n empty_tlb_entry) i).valid = 0 := by
  simp only [tlbAt, List.getD_eq_getElem?_getD, List.getElem?_replicate]
  split <;> rfl

theorem getD_not_mem_take {pages : List Int} (hnd : pages.Nodup) {k : Nat}
    (hk : k < pages.length) : pages.getD k 0 ∉ pages.take k := by
  intro hmem
  obtain ⟨i, hi⟩ := List.mem_iff_getElem?.mp hmem
  have hik : i < k := by
    by_contra hc
    rw [List.getElem?_take_eq_none (Nat.le_of_not_lt hc)] at hi
    cases hi
  rw [List.getElem?_take, if_pos hik] at hi
  have hi2 : i < pages.length := by omega
  rw [List.getElem?_eq_getElem hi2] at hi
  rw [List.getD_eq_getElem?_getD, List.getElem?_eq_getElem hk] at hi
  simp only [Option.getD_some, Option.some.injEq] at hi
  have := (List.Nodup.getElem_inj_iff hnd).mp hi
  omega

theorem search_tlb_filled_miss (pages : List Int) (hnd : pages.Nodup) (k N : Nat)
    (hk : k < pages.length) :
    search_tlb (filled_slots (pages.take k) 0 ++ List.replicate (32 - k) empty_tlb_entry) N
      (pages.getD k 0) = -1 := by
  apply search_tlb_from_none
  intro e he
  rcases List.mem_append.mp he with h1 | h1
  · intro h2
    exact getD_not_mem_take hnd hk (h2.2 ▸ (mem_filled_slots h1).1)
  · rw [List.eq_of_mem_replicate h1]
    intro h2
    exact h2.1 rfl

/-- The state of the TLB simulation after `k` accesses, when the first
`k` pages were all misses that filled slots `0 .. k-1`. -/
theorem tlb_steps_filling (hit_time miss_time : Int) (N : Nat) (hN : N ≤ 32)
    (pages : List Int) (hnd : pages.Nodup) (k : Nat) (hk : k ≤ N) (hlen : k ≤ pages.length) :
    tlb_steps hit_time miss_time pages (tlb_start N) k
      = { tlb := filled_slots (pages.take k) 0 ++ List.replicate (32 - k) empty_tlb_entry
          tlb_size := N
          tlb_hits := 0
          tlb_misses := (k : Int)
          total_time := (k : Int) * (hit_time + miss_time) } := by
  induction k with
  | zero => simp [tlb_steps, tlb_start, init_tlb, filled_slots]
  | succ k ih =>
    have hk1 : k < pages.length := by omega
    rw [tlb_steps, ih (by omega) (by omega)]
    have htake : pages.take (k + 1) = pages.take k ++ [pages.getD k 0] := by
      rw [List.take_succ, List.getD_eq_getElem?_getD, List.getElem?_eq_getElem hk1]
      rfl
    have hsearch := search_tlb_filled_miss pages hnd k N hk1
    have hrep : List.replicate (32 - k) empty_tlb_entry
        = empty_tlb_entry :: List.replicate (32 - (k + 1)) empty_tlb_entry := by
      have : 32 - k = (32 - (k + 1)) + 1 := by omega
      rw [this, List.replicate_succ]
    have hlk : (pages.take k).length = k := by
      rw [List.length_take]; omega
    have hslot : update_tlb_slot
        (filled_slots (pages.take k) 0 ++ List.replicate (32 - k) empty_tlb_entry) N = k := by
      unfold update_tlb_slot
      rw [hrep, empty_slot_from_filled _ _ _ _ _ _ rfl (by rw [hlk]; omega), hlk]
      simp
    unfold tlb_step
    simp only [hsearch, ne_eq, not_true_eq_false, if_false]
    unfold update_tlb
    rw [hslot, htake, filled_slots_append, hlk]
    congr 1
    · rw [hrep]
      have hl2 : (filled_slots (pages.take k) 0).length = k := by
        rw [filled_slots_length, hlk]
      rw [List.set_append_right _ _ (by rw [hl2]), hl2]
      simp
    · push_cast; ring

theorem tlbAt_set_ne (tlb : List TLBEntry) (i j : Nat) (e : TLBEntry) (h : j ≠ i) :
    tlbAt (tlb.set i e) j = tlbAt tlb j := by
  simp [tlbAt, List.getD_eq_getElem?_getD, List.getElem?_set, Ne.symm h]

theorem tlbAt_set_self (tlb : List TLBEntry) (i : Nat) (e : TLBEntry) (h : i < tlb.length) :
    tlbAt (tlb.set i e) i = e := by
  simp [tlbAt, List.getD_eq_getElem?_getD, List.getElem?_set, h]

theorem update_tlb_slot_full (pages : List Int) (N : Nat) (hN : 1 ≤ N)
    (hlen : N ≤ pages.length) (rest : List TLBEntry) :
    update_tlb_slot (filled_slots (pages.take N) 0 ++ rest) N = 0 := by
  have hlk : (pages.take N).length = N := by rw [List.length_take]; omega
  unfold update_tlb_slot
  have h1 : empty_slot_from (filled_slots (pages.take N) 0 ++ rest) N 0 = -1 := by
    have := empty_slot_from_full (pages.take N) 0 rest 0
    rw [hlk] at this
    exact this
  rw [h1]
  simp only [ne_eq, not_true_eq_false, if_false]
  unfold tlb_lru_index
  cases hps : pages.take N with
  | nil => rw [hps] at hlk; simp at hlk; omega
  | cons p ps =>
    rw [hps] at hlk
    have hl2 : ps.length = N - 1 := by simp at hlk; omega
    rw [filled_slots, List.cons_append, List.drop_succ_cons, List.drop_zero, ← hl2]
    rw [tlb_lru_loop_filled ps 1 rest 1 0 _ (by simp [tlbAt])]

/-- C6: with TLB capacity `N` (2 to 32) and `N + 1` pairwise distinct pages
accessed at steps `1 .. N+1` from `init_tlb`: every access misses; the first
`N` accesses overwrite no valid entry; before the last access slot 0 is valid
and holds the first page; the last access changes slot 0 only, which then
holds the last page; and afterwards slots `1 .. N-1` still hold pages
`2 .. N` of the sequence, so the TLB holds exactly pages `2 .. N+1`. -/
theorem tlb_evicts_first_inserted (hit_time miss_time : Int) (N : Nat) (hN2 : 2 ≤ N)
    (hN32 : N ≤ 32) (pages : List Int) (hlen : pages.length = N + 1) (hnd : pages.Nodup) :
    (tlb_steps hit_time miss_time pages (tlb_start N) (N + 1)).tlb_misses = (N : Int) + 1 ∧
    (tlb_steps hit_time miss_time pages (tlb_start N) (N + 1)).tlb_hits = 0 ∧
    (∀ k, k ≤ N →
      search_tlb (tlb_steps hit_time miss_time pages (tlb_start N) k).tlb N (pages.getD k 0)
        = -1) ∧
    (∀ k j, k < N →
      (tlbAt (tlb_steps hit_time miss_time pages (tlb_start N) k).tlb j).valid ≠ 0 →
      tlbAt (tlb_steps hit_time miss_time pages (tlb_start N) (k + 1)).tlb j
        = tlbAt (tlb_steps hit_time miss_time pages (tlb_start N) k).tlb j) ∧
    ((tlbAt (tlb_steps hit_time miss_time pages (tlb_start N) N).tlb 0).valid ≠ 0 ∧
      (tlbAt (tlb_steps hit_time miss_time pages (tlb_start N) N).tlb 0).page_no
        = pages.getD 0 0) ∧
    (∀ j, j ≠ 0 →
      tlbAt (tlb_steps hit_time miss_time pages (tlb_start N) (N + 1)).tlb j
        = tlbAt (tlb_steps hit_time miss_time pages (tlb_start N) N).tlb j) ∧
    ((tlbAt (tlb_steps hit_time miss_time pages (tlb_start N) (N + 1)).tlb 0).valid ≠ 0 ∧
      (tlbAt (tlb_steps hit_time miss_time pages (tlb_start N) (N + 1)).tlb 0).page_no
        = pages.getD N 0) ∧
    (∀ j, 1 ≤ j → j < N →
      (tlbAt (tlb_steps hit_time miss_time pages (tlb_start N) (N + 1)).tlb j).valid ≠ 0 ∧
      (tlbAt (tlb_steps hit_time miss_time pages (tlb_start N) (N + 1)).tlb j).page_no
        = pages.getD j 0) ∧
    (∀ j, N ≤ j →
      (tlbAt (tlb_steps hit_time miss_time pages (tlb_start N) (N + 1)).tlb j).valid = 0) := by
  have hshape : ∀ k, k ≤ N → tlb_steps hit_time miss_time pages (tlb_start N) k
      = { tlb := filled_slots (pages.take k) 0 ++ List.replicate (32 - k) empty_tlb_entry
          tlb_size := N
          tlb_hits := 0
          tlb_misses := (k : Int)
          total_time := (k : Int) * (hit_time + miss_time) } :=
    fun k hk => tlb_steps_filling hit_time miss_time N hN32 pages hnd k hk (by omega)
  have hlk : ∀ k, k ≤ N → (pages.take k).length = k := by
    intro k hk; rw [List.length_take]; omega
  have hmiss : ∀ k, k ≤ N →
      search_tlb (tlb_steps hit_time miss_time pages (tlb_start N) k).tlb N (pages.getD k 0)
        = -1 := by
    intro k hk
    rw [hshape k hk]
    exact search_tlb_filled_miss pages hnd k N (by omega)
  have hentry : ∀ k j, k ≤ N → j < k →
      tlbAt (tlb_steps hit_time miss_time pages (tlb_start N) k).tlb j
        = { page_no := pages.getD j 0, frame_no := pages.getD j 0 * 2 + 1, valid := 1,
            last_used := (j : Int) + 1 } := by
    intro k j hk hj
    rw [hshape k hk]
    simp only []
    rw [tlbAt_filled_slots _ _ _ _ (by rw [hlk k hk]; exact hj)]
    have : (pages.take k).getD j 0 = pages.getD j 0 := by
      simp only [List.getD_eq_getElem?_getD, List.getElem?_take, if_pos hj]
    rw [this]
    simp
  have hinvalid : ∀ k j, k ≤ N → k ≤ j →
      (tlbAt (tlb_steps hit_time miss_time pages (tlb_start N) k).tlb j).valid = 0 := by
    intro k j hk hj
    rw [hshape k hk]
    simp only []
    rw [tlbAt_append_right _ _ _ (by rw [filled_slots_length, hlk k hk]; exact hj)]
    exact tlbAt_replicate_empty _ _
  have hlast : tlb_steps hit_time miss_time pages (tlb_start N) (N + 1)
      = { tlb := (tlb_steps hit_time miss_time pages (tlb_start N) N).tlb.set 0
            { page_no := pages.getD N 0, frame_no := pages.getD N 0 * 2 + 1, valid := 1,
              last_used := (N : Int) + 1 }
          tlb_size := N
          tlb_hits := 0
          tlb_misses := (N : Int) + 1
          total_time := (N : Int) * (hit_time + miss_time) + (hit_time + miss_time) } := by
    have hm := hmiss N (Nat.le_refl N)
    rw [tlb_steps]
    rw [hshape N (Nat.le_refl N)] at hm ⊢
    unfold tlb_step
    simp only [hm, ne_eq, not_true_eq_false, if_false]
    unfold update_tlb
    rw [update_tlb_slot_full pages N (by omega) (by omega)]
  have hlen32 : 0 < (tlb_steps hit_time miss_time pages (tlb_start N) N).tlb.length := by
    rw [hshape N (Nat.le_refl N)]
    simp only [List.length_append, filled_slots_length, List.length_replicate]
    rw [hlk N (Nat.le_refl N)]
    omega
  refine ⟨?_, ?_, hmiss, ?_, ?_, ?_, ?_, ?_, ?_⟩
  · rw [hlast]
  · rw [hlast]
  · intro k j hk hv
    have hjk : j < k := by
      by_contra hc
      exact hv (hinvalid k j (by omega) (Nat.le_of_not_lt hc))
    rw [hentry (k + 1) j (by omega) (by omega), hentry k j (by omega) hjk]
  · rw [hentry N 0 (Nat.le_refl N) (by omega)]
    exact ⟨by simp, rfl⟩
  · intro j hj
    rw [hlast]
    exact tlbAt_set_ne _ _ _ _ hj
  · rw [hlast]
    simp only []
    rw [tlbAt_set_self _ _ _ hlen32]
    exact ⟨by simp, rfl⟩
  · intro j hj1 hjN
    rw [hlast]
    simp only []
    rw [tlbAt_set_ne _ _ _ _ (by omega), hentry N j (Nat.le_refl N) hjN]
    exact ⟨by simp, rfl⟩
  · intro j hj
    rw [hlast]
    simp only []
    rw [tlbAt_set_ne _ _ _ _ (by omega)]
    exact hinvalid N j (Nat.le_refl N) hj

theorem tlb_evicts_first_inserted_witness :
    (tlb_steps 10 100 [7, 3, 9] (tlb_start 2) 3).tlb_misses = 3 ∧
    (tlbAt (tlb_steps 10 100 [7, 3, 9] (tlb_start 2) 3).tlb 0).page_no = 9 :=
  ⟨by
    have h := (tlb_evicts_first_inserted 10 100 2 (by decide) (by decide) [7, 3, 9] rfl
      (by decide)).1
    exact h,
   (tlb_evicts_first_inserted 10 100 2 (by decide) (by decide) [7, 3, 9] rfl
      (by decide)).2.2.2.2.2.2.1.2⟩


/-! ## Clock against FIFO when no reference hits -/

theorem slot_eq_iff {a b : Frame} (h : slot a = slot b) :
    (a.occupied ≠ 0 ↔ b.occupied ≠ 0) ∧ (a.occupied ≠ 0 → a.page_no = b.page_no) := by
  unfold slot at h
  by_cases ha : a.occupied ≠ 0 <;> by_cases hb : b.occupied ≠ 0
  · rw [if_pos ha, if_pos hb] at h
    exact ⟨⟨fun _ => hb, fun _ => ha⟩, fun _ => Option.some.inj h⟩
  · rw [if_pos ha, if_neg hb] at h; cases h
  · rw [if_neg ha, if_pos hb] at h; cases h
  · exact ⟨⟨fun x => absurd x ha, fun x => absurd x hb⟩, fun x => absurd x ha⟩

theorem find_page_from_slots (p : Int) {m1 m2 : List Frame} (h : slots m1 = slots m2)
    (i : Nat) : find_page_from p m1 i = find_page_from p m2 i := by
  induction m1 generalizing m2 i with
  | nil =>
    cases m2 with
    | nil => rfl
    | cons b r2 => simp [slots] at h
  | cons a r1 ih =>
    cases m2 with
    | nil => simp [slots] at h
    | cons b r2 =>
      simp only [slots, List.map_cons, List.cons.injEq] at h
      obtain ⟨h1, h2⟩ := slot_eq_iff h.1
      by_cases ha : a.occupied ≠ 0
      · have hb := h1.mp ha
        rw [find_page_from, find_page_from, h2 ha, ih h.2]
        by_cases hp : b.page_no = p
        · rw [if_pos ⟨ha, hp⟩, if_pos ⟨hb, hp⟩]
        · rw [if_neg (fun x => hp x.2), if_neg (fun x => hp x.2)]
      · have hb : ¬ b.occupied ≠ 0 := fun x => ha (h1.mpr x)
        rw [find_page_from, find_page_from, if_neg (fun x => ha x.1), if_neg (fun x => hb x.1)]
        exact ih h.2 _

theorem get_free_frame_from_slots {m1 m2 : List Frame} (h : slots m1 = slots m2) (i : Nat) :
    get_free_frame_from m1 i = get_free_frame_from m2 i := by
  induction m1 generalizing m2 i with
  | nil =>
    cases m2 with
    | nil => rfl
    | cons b r2 => simp [slots] at h
  | cons a r1 ih =>
    cases m2 with
    | nil => simp [slots] at h
    | cons b r2 =>
      simp only [slots, List.map_cons, List.cons.injEq] at h
      obtain ⟨h1, _⟩ := slot_eq_iff h.1
      by_cases ha : a.occupied = 0
      · have hb : b.occupied = 0 := by
          by_contra hc
          exact (h1.mpr hc) ha
        rw [get_free_frame_from, get_free_frame_from, if_pos ha, if_pos hb]
      · have hb : ¬ b.occupied = 0 := h1.mp ha
        rw [get_free_frame_from, get_free_frame_from, if_neg ha, if_neg hb]
        exact ih h.2 _

theorem slot_frameAt_of_slots {m1 m2 : List Frame} (h : slots m1 = slots m2) (i : Nat) :
    slot (frameAt m1 i) = slot (frameAt m2 i) := by
  have h1 : ∀ m : List Frame, slot (frameAt m i) = (slots m).getD i (slot default) := by
    intro m
    simp only [frameAt, slots, List.getD_eq_getElem?_getD, List.getElem?_map]
    cases m[i]? <;> rfl
  rw [h1 m1, h1 m2, h]

theorem evicted_page_eq_slot (s : SimState) (f : Nat) :
    evicted_page s f = slot (frameAt s.physical_memory f) := rfl

theorem all_occupied_of_none_not_mem {mem : List Frame} (h : none ∉ slots mem) (j : Nat)
    (hj : j < mem.length) : (frameAt mem j).occupied ≠ 0 := by
  intro hc
  exact h (none_mem_slots.mpr ⟨_, frameAt_mem hj, hc⟩)

theorem clock_loop_bit_clear (n fuel : Nat) (mem : List Frame) (hand : Nat)
    (ho : (frameAt mem hand).occupied ≠ 0) (hb : (frameAt mem hand).reference_bit = 0) :
    clock_loop n (fuel + 1) mem hand = (hand, mem, (hand + 1) % n) := by
  rw [clock_loop, if_pos ho, if_pos hb]

theorem reference_bit_updFrame_clear (mem : List Frame) (i j : Nat) :
    (frameAt (updFrame mem i (fun fr => { fr with reference_bit := 0 })) j).reference_bit
      = if j = i ∧ i < mem.length then 0 else (frameAt mem j).reference_bit := by
  rw [frameAt_updFrame]
  split <;> rfl

theorem occupied_updFrame_clear (mem : List Frame) (i j : Nat) :
    (frameAt (updFrame mem i (fun fr => { fr with reference_bit := 0 })) j).occupied
      = (frameAt mem j).occupied := by
  rw [frameAt_updFrame]
  split
  · rename_i h; rw [h.1]
  · rfl

/-- The sweep of `clock_replacement` when every frame from the hand to the
end has its bit set and every frame before the hand has it clear: the bits
are cleared up to the end, the hand wraps, and frame 0 is selected. -/
theorem clock_loop_sweep (mem : List Frame) (d : Nat) :
    ∀ (fuel hand : Nat) (m : List Frame), m.length = mem.length → hand + d = mem.length →
      0 < d → d + 1 ≤ fuel →
      (∀ j, j < mem.length → (frameAt m j).occupied ≠ 0) →
      (∀ j, hand ≤ j → j < mem.length → (frameAt m j).reference_bit ≠ 0) →
      (∀ j, j < hand → (frameAt m j).reference_bit = 0) →
      (clock_loop mem.length fuel m hand).1 = 0 ∧
      (clock_loop mem.length fuel m hand).2.2 = 1 % mem.length ∧
      ∀ j, j < mem.length →
        (frameAt (clock_loop mem.length fuel m hand).2.1 j).reference_bit = 0 := by
  induction d with
  | zero => intro fuel hand m _ _ h; omega
  | succ d ih =>
    intro fuel hand m hlen hd _ hfuel hocc hset hclr
    have hh : hand < mem.length := by omega
    obtain ⟨fuel1, rfl⟩ : ∃ f1, fuel = f1 + 1 := ⟨fuel - 1, by omega⟩
    rw [clock_loop, if_pos (hocc hand hh), if_neg (hset hand (Nat.le_refl _) hh)]
    have hlen2 : (updFrame m hand (fun fr => { fr with reference_bit := 0 })).length
        = mem.length := by rw [updFrame_length, hlen]
    have hocc2 : ∀ j, j < mem.length →
        (frameAt (updFrame m hand (fun fr => { fr with reference_bit := 0 })) j).occupied
          ≠ 0 := by
      intro j hj; rw [occupied_updFrame_clear]; exact hocc j hj
    have hbit2 : ∀ j, j < hand + 1 →
        (frameAt (updFrame m hand (fun fr => { fr with reference_bit := 0 })) j).reference_bit
          = 0 := by
      intro j hj
      rw [reference_bit_updFrame_clear]
      by_cases hjh : j = hand
      · rw [if_pos ⟨hjh, by rw [hlen]; exact hh⟩]
      · rw [if_neg (fun x => hjh x.1)]
        exact hclr j (by omega)
    by_cases hd0 : d = 0
    · subst hd0
      have hwrap : (hand + 1) % mem.length = 0 := by
        have : hand + 1 = mem.length := by omega
        rw [this, Nat.mod_self]
      rw [hwrap]
      obtain ⟨fuel2, rfl⟩ : ∃ f2, fuel1 = f2 + 1 := ⟨fuel1 - 1, by omega⟩
      rw [clock_loop_bit_clear _ _ _ _ (hocc2 0 (by omega)) (hbit2 0 (by omega))]
      refine ⟨rfl, rfl, ?_⟩
      intro j hj
      exact hbit2 j (by omega)
    · have hmod : (hand + 1) % mem.length = hand + 1 := Nat.mod_eq_of_lt (by omega)
      rw [hmod]
      apply ih fuel1 (hand + 1) _ hlen2 (by omega) (by omega) (by omega) hocc2 _ hbit2
      intro j hj1 hj2
      rw [reference_bit_updFrame_clear, if_neg (fun x => by omega)]
      exact hset j (by omega) hj2


theorem fifo_replacement_full (f : SimState) (hh : f.fifo_index < f.frame_count)
    (hfull : none ∉ slots f.physical_memory) :
    (fifo_replacement f).1 = f.fifo_index ∧
      (fifo_replacement f).2.fifo_index = (f.fifo_index + 1) % f.frame_count ∧
      (fifo_replacement f).2.physical_memory = f.physical_memory ∧
      (fifo_replacement f).2.page_hits = f.page_hits := by
  have ho := all_occupied_of_none_not_mem hfull f.fifo_index hh
  obtain ⟨m, hm⟩ : ∃ m, f.frame_count = m + 1 := ⟨f.frame_count - 1, by omega⟩
  have e : fifo_loop f.physical_memory f.frame_count f.frame_count f.fifo_index
      = (f.fifo_index, (f.fifo_index + 1) % f.frame_count) := by
    have h1 := fifo_loop_occupied f.physical_memory f.frame_count m f.fifo_index ho
    rw [← hm] at h1
    exact h1
  refine ⟨?_, ?_, rfl, rfl⟩
  · show (fifo_loop f.physical_memory f.frame_count f.frame_count f.fifo_index).1 = _
    rw [e]
  · show (fifo_loop f.physical_memory f.frame_count f.frame_count f.fifo_index).2 = _
    rw [e]

theorem clock_replacement_full (c : SimState) (hh : c.clock_hand < c.frame_count)
    (hfull : none ∉ slots c.physical_memory)
    (hlow : ∀ j, j < c.clock_hand → (frameAt c.physical_memory j).reference_bit ≠ 0)
    (hpat : (∀ j, c.clock_hand ≤ j → j < c.frame_count →
              (frameAt c.physical_memory j).reference_bit = 0) ∨
            (c.clock_hand = 0 ∧ ∀ j, j < c.frame_count →
              (frameAt c.physical_memory j).reference_bit ≠ 0)) :
    (clock_replacement c).1 = c.clock_hand ∧
      (clock_replacement c).2.clock_hand = (c.clock_hand + 1) % c.frame_count ∧
      (∀ j, j < c.clock_hand →
        (frameAt (clock_replacement c).2.physical_memory j).reference_bit ≠ 0) ∧
      (∀ j, c.clock_hand ≤ j → j < c.frame_count →
        (frameAt (clock_replacement c).2.physical_memory j).reference_bit = 0) ∧
      (clock_replacement c).2.page_hits = c.page_hits := by
  have hocc := all_occupied_of_none_not_mem hfull
  rcases hpat with h1 | ⟨h0, h2⟩
  · obtain ⟨m, hm⟩ : ∃ m, c.frame_count * 2 = m + 1 := ⟨c.frame_count * 2 - 1, by omega⟩
    unfold clock_replacement
    simp only []
    rw [hm, clock_loop_bit_clear _ _ _ _ (hocc _ hh) (h1 _ (Nat.le_refl _) hh)]
    exact ⟨rfl, rfl, hlow, h1, trivial⟩
  · have hs := clock_loop_sweep c.physical_memory c.frame_count (c.frame_count * 2) 0
      c.physical_memory rfl (by simp [SimState.frame_count]) (by omega) (by omega) hocc
      (fun j _ hj => h2 j hj) (fun j hj => by omega)
    unfold clock_replacement
    simp only []
    rw [h0]
    refine ⟨hs.1, hs.2.1, fun j hj => by omega, fun j _ hj => hs.2.2 j hj, trivial⟩

theorem none_not_mem_set {sl : List (Option Int)} (h : none ∉ sl) (v : Nat) (p : Int) :
    none ∉ sl.set v (some p) := by
  intro hc
  rcases mem_set_some hc with h1 | h1
  · cases h1
  · exact h h1

theorem sim_step_page_hits_of_hit (algo : Algo) (refs : List Int) (rnd : Nat → Int) (i : Nat)
    (s : SimState) (h : some (refs.getD i 0) ∈ slots s.physical_memory) :
    (sim_step algo refs rnd i s).page_hits = s.page_hits + 1 := by
  have h1 := sim_step_counters algo refs rnd i s
  rcases sim_step_slots algo refs rnd i s with ⟨_, _, h2⟩ | ⟨h0, _⟩ | ⟨h0, _⟩
  · rw [h2] at h1; omega
  · exact absurd h h0
  · exact absurd h h0

theorem reference_bit_load_page (s : SimState) (f : Nat) (p m : Int) (j : Nat) :
    (frameAt (load_page s f p m).physical_memory j).reference_bit
      = if j = f ∧ f < s.physical_memory.length then 1
        else (frameAt s.physical_memory j).reference_bit := by
  rw [load_page_physical_memory, frameAt_updFrame]
  split <;> rfl

/-- One faulting step keeps a Clock run and a FIFO run in lockstep, and both
take the same event. -/
theorem clock_fifo_fault_step (refs : List Int) (rnd : Nat → Int) (i : Nat)
    (c f : SimState) (hR : ClockLikeFifo c f)
    (hp : some (refs.getD i 0) ∉ slots c.physical_memory) :
    ClockLikeFifo (sim_step Algo.Clock refs rnd i c) (sim_step Algo.FIFO refs rnd i f) ∧
      (sim_step_ev Algo.Clock refs rnd i c).2 = (sim_step_ev Algo.FIFO refs rnd i f).2 := by
  obtain ⟨hsl, hcur, hlt, hhc, hhf, hlow, hpat⟩ := hR
  have hlen : c.physical_memory.length = f.physical_memory.length := by
    have := congrArg List.length hsl
    simpa using this
  have hfc : find_page c.physical_memory (refs.getD i 0) = none :=
    (find_page_none_iff _ _).mpr hp
  have hff : find_page f.physical_memory (refs.getD i 0) = none := by
    rw [← hfc]; exact (find_page_from_slots _ hsl 0).symm
  have hfree : get_free_frame c.physical_memory = get_free_frame f.physical_memory :=
    get_free_frame_from_slots hsl 0
  unfold sim_step
  by_cases hg : get_free_frame c.physical_memory = -1
  · -- replacement
    have hfullc : none ∉ slots c.physical_memory := (get_free_frame_neg_one_iff _).mp hg
    have hfullf : none ∉ slots f.physical_memory := hsl ▸ hfullc
    rw [sim_step_ev_replace Algo.Clock refs rnd i c hfc hg,
      sim_step_ev_replace Algo.FIFO refs rnd i f hff (hfree ▸ hg)]
    have hocc := all_occupied_of_none_not_mem hfullc
    have hpat2 : (∀ j, c.clock_hand ≤ j → j < c.frame_count →
              (frameAt c.physical_memory j).reference_bit = 0) ∨
            (c.clock_hand = 0 ∧ ∀ j, j < c.frame_count →
              (frameAt c.physical_memory j).reference_bit ≠ 0) := by
      rcases hpat with ⟨_, h1⟩ | ⟨h0, h1⟩
      · exact Or.inl h1
      · exact Or.inr ⟨h0, fun j hj => h1 j hj (hocc j hj)⟩
    obtain ⟨c1, c2, c3, c4, c5⟩ := clock_replacement_full (tick_fault c) hlt hfullc hlow hpat2
    obtain ⟨f1, f2, f3, f4⟩ := fifo_replacement_full (tick_fault f)
      (by show f.fifo_index < f.physical_memory.length
          rw [← hcur, ← hlen]; exact hlt) hfullf
    simp only [select_victim]
    rw [c1, f1]
    simp only [tick_fault_clock_hand, tick_fault_fifo_index, tick_fault_frame_count,
      tick_fault_physical_memory] at c1 c2 c3 c4 c5 f1 f2 f3 f4 ⊢
    have hslc : slots (clock_replacement (tick_fault c)).2.physical_memory
        = slots c.physical_memory := slots_select_victim Algo.Clock refs i (tick_fault c)
    have hlenc : (clock_replacement (tick_fault c)).2.physical_memory.length
        = c.physical_memory.length := select_victim_length Algo.Clock refs i (tick_fault c)
    have hn : 0 < c.frame_count := by omega
    refine ⟨⟨?_, ?_, ?_, ?_, ?_, ?_, ?_⟩, ?_⟩
    · rw [slots_load_page, slots_load_page, remove_old_page_physical_memory,
        remove_old_page_physical_memory, hslc, f3, hsl, hcur]
    · show (remove_old_page (clock_replacement (tick_fault c)).2 c.clock_hand).clock_hand
        = (remove_old_page (fifo_replacement (tick_fault f)).2 f.fifo_index).fifo_index
      rw [remove_old_page_clock_hand, remove_old_page_fifo_index, c2, f2, hcur]
      show _ = (f.fifo_index + 1) % f.physical_memory.length
      rw [← hlen]; rfl
    · show (remove_old_page (clock_replacement (tick_fault c)).2 c.clock_hand).clock_hand
        < (load_page _ _ _ _).physical_memory.length
      rw [remove_old_page_clock_hand, c2, load_page_physical_memory, updFrame_length,
        remove_old_page_physical_memory, hlenc]
      exact Nat.mod_lt _ hn
    · show (remove_old_page (clock_replacement (tick_fault c)).2 c.clock_hand).page_hits = 0
      rw [remove_old_page_page_hits, c5]; exact hhc
    · show (remove_old_page (fifo_replacement (tick_fault f)).2 f.fifo_index).page_hits = 0
      rw [remove_old_page_page_hits, f4]; exact hhf
    · intro j hj
      change j < (remove_old_page (clock_replacement (tick_fault c)).2 c.clock_hand).clock_hand
        at hj
      rw [remove_old_page_clock_hand, c2] at hj
      rw [reference_bit_load_page, remove_old_page_physical_memory, hlenc]
      by_cases hjh : j = c.clock_hand
      · rw [if_pos ⟨hjh, hlt⟩]; decide
      · rw [if_neg (fun x => hjh x.1)]
        apply c3
        by_cases hw : c.clock_hand + 1 < c.frame_count
        · rw [Nat.mod_eq_of_lt hw] at hj; omega
        · have : c.clock_hand + 1 = c.frame_count := by
            have := hlt; omega
          rw [this, Nat.mod_self] at hj; omega
    · by_cases hw : c.clock_hand + 1 < c.frame_count
      · left
        refine ⟨?_, ?_⟩
        · rw [slots_load_page, remove_old_page_physical_memory, hslc]
          exact none_not_mem_set hfullc _ _
        · intro j hj1 hj2
          change (remove_old_page (clock_replacement (tick_fault c)).2 c.clock_hand).clock_hand
            ≤ j at hj1
          change j < (load_page _ _ _ _).physical_memory.length at hj2
          rw [remove_old_page_clock_hand, c2, Nat.mod_eq_of_lt hw] at hj1
          rw [load_page_physical_memory, updFrame_length, remove_old_page_physical_memory,
            hlenc] at hj2
          rw [reference_bit_load_page, remove_old_page_physical_memory, hlenc,
            if_neg (fun x => by omega)]
          exact c4 j (by omega) hj2
      · right
        have hwrap : c.clock_hand + 1 = c.frame_count := by
          have := hlt; omega
        refine ⟨?_, ?_⟩
        · show (remove_old_page (clock_replacement (tick_fault c)).2 c.clock_hand).clock_hand
            = 0
          rw [remove_old_page_clock_hand, c2, hwrap, Nat.mod_self]
        · intro j hj _
          change j < (load_page _ _ _ _).physical_memory.length at hj
          rw [load_page_physical_memory, updFrame_length, remove_old_page_physical_memory,
            hlenc] at hj
          rw [reference_bit_load_page, remove_old_page_physical_memory, hlenc]
          by_cases hjh : j = c.clock_hand
          · rw [if_pos ⟨hjh, hlt⟩]; decide
          · rw [if_neg (fun x => hjh x.1)]
            exact c3 j (by have : j < c.frame_count := hj; omega)
    · show StepEvent.replace _ _ = StepEvent.replace _ _
      rw [evicted_page_eq_slot, evicted_page_eq_slot, hcur]
      congr 1
      exact slot_frameAt_of_slots (by rw [hslc, f3, hsl]) _
  · -- load into a free frame
    obtain ⟨g, h1, h2, h3, _⟩ := get_free_frame_spec _ hg
    rw [sim_step_ev_free Algo.Clock refs rnd i c g hfc h1,
      sim_step_ev_free Algo.FIFO refs rnd i f g hff (hfree ▸ h1)]
    have hnone : none ∈ slots c.physical_memory := by
      by_contra hc
      exact hg ((get_free_frame_neg_one_iff _).mpr hc)
    have hcase2 : c.clock_hand = 0 ∧
        ∀ j, j < c.frame_count → (frameAt c.physical_memory j).occupied ≠ 0 →
          (frameAt c.physical_memory j).reference_bit ≠ 0 := by
      rcases hpat with ⟨h4, _⟩ | h4
      · exact absurd hnone h4
      · exact h4
    refine ⟨⟨?_, hcur, ?_, hhc, hhf, ?_, ?_⟩, rfl⟩
    · rw [slots_load_page, slots_load_page, tick_fault_physical_memory,
        tick_fault_physical_memory, hsl]
    · show c.clock_hand < (load_page _ _ _ _).physical_memory.length
      rw [load_page_physical_memory, updFrame_length]
      exact hlt
    · intro j hj
      change j < c.clock_hand at hj
      omega
    · right
      refine ⟨hcase2.1, ?_⟩
      intro j hj hoj
      change j < (load_page _ _ _ _).physical_memory.length at hj
      rw [load_page_physical_memory, updFrame_length] at hj
      rw [reference_bit_load_page, tick_fault_physical_memory]
      by_cases hjg : j = g
      · rw [if_pos ⟨hjg, h2⟩]; decide
      · rw [if_neg (fun x => hjg x.1)]
        rw [load_page_physical_memory, frameAt_updFrame_ne _ _ hjg] at hoj
        exact hcase2.2 j hj hoj

theorem sim_step_page_hits_mono (algo : Algo) (refs : List Int) (rnd : Nat → Int) (i : Nat)
    (s : SimState) : s.page_hits ≤ (sim_step algo refs rnd i s).page_hits := by
  have h1 := sim_step_counters algo refs rnd i s
  rcases sim_step_slots algo refs rnd i s with ⟨_, _, h2⟩ | ⟨_, h2, _⟩ | ⟨_, _, h2, _⟩ <;>
    (rw [h2] at h1; omega)

theorem sim_steps_page_hits_mono (algo : Algo) (refs : List Int) (rnd : Nat → Int)
    (s : SimState) (k m : Nat) (h : k ≤ m) :
    (sim_steps algo refs rnd s k).page_hits ≤ (sim_steps algo refs rnd s m).page_hits := by
  induction m with
  | zero =>
    have : k = 0 := by omega
    rw [this]
  | succ m ih =>
    by_cases hk : k = m + 1
    · rw [hk]
    · exact le_trans (ih (by omega)) (sim_step_page_hits_mono algo refs rnd m _)

theorem sim_steps_page_hits_nonneg (algo : Algo) (refs : List Int) (rnd : Nat → Int)
    (s : SimState) (k : Nat) : 0 ≤ (sim_steps algo refs rnd (sim_reset s) k).page_hits := by
  have := sim_steps_page_hits_mono algo refs rnd (sim_reset s) 0 k (Nat.zero_le _)
  exact this

theorem clockLikeFifo_reset (s : SimState) (hn : 1 ≤ s.frame_count) :
    ClockLikeFifo (sim_reset s) (sim_reset s) := by
  refine ⟨rfl, rfl, ?_, rfl, rfl, ?_, ?_⟩
  · rw [sim_reset_frame_count]; exact hn
  · intro j hj
    change j < 0 at hj
    omega
  · right
    refine ⟨rfl, ?_⟩
    intro j hj hocc
    exfalso
    have hj2 : j < (sim_reset s).physical_memory.length := hj
    have h1 := slots_getElem? (sim_reset s).physical_memory j hj2
    rw [slots_sim_reset, List.getElem?_replicate] at h1
    rw [sim_reset_frame_count] at hj
    rw [if_pos hj] at h1
    have h2 : slot (frameAt (sim_reset s).physical_memory j) = none := (Option.some.inj h1).symm
    exact hocc (slot_eq_none.mp h2)

theorem clock_fifo_lockstep (refs : List Int) (rnd : Nat → Int) (s : SimState)
    (hn : 1 ≤ s.frame_count) (m : Nat)
    (hno : (sim_steps Algo.FIFO refs rnd (sim_reset s) m).page_hits = 0 ∨
      (sim_steps Algo.Clock refs rnd (sim_reset s) m).page_hits = 0) (k : Nat) (hk : k ≤ m) :
    ClockLikeFifo (sim_steps Algo.Clock refs rnd (sim_reset s) k)
        (sim_steps Algo.FIFO refs rnd (sim_reset s) k) ∧
      sim_events Algo.Clock refs rnd (sim_reset s) k
        = sim_events Algo.FIFO refs rnd (sim_reset s) k := by
  induction k with
  | zero => exact ⟨clockLikeFifo_reset s hn, rfl⟩
  | succ k ih =>
    obtain ⟨hR, hev⟩ := ih (by omega)
    have hp : some (refs.getD k 0)
        ∉ slots (sim_steps Algo.Clock refs rnd (sim_reset s) k).physical_memory := by
      intro hmem
      have hc := sim_step_page_hits_of_hit Algo.Clock refs rnd k _ hmem
      have hf := sim_step_page_hits_of_hit Algo.FIFO refs rnd k _ (hR.1 ▸ hmem)
      have hc0 := sim_steps_page_hits_nonneg Algo.Clock refs rnd s k
      have hf0 := sim_steps_page_hits_nonneg Algo.FIFO refs rnd s k
      have hcm := sim_steps_page_hits_mono Algo.Clock refs rnd (sim_reset s) (k + 1) m hk
      have hfm := sim_steps_page_hits_mono Algo.FIFO refs rnd (sim_reset s) (k + 1) m hk
      rw [sim_steps] at hcm hfm
      rcases hno with h0 | h0 <;> omega
    obtain ⟨hR2, hev2⟩ := clock_fifo_fault_step refs rnd k _ _ hR hp
    exact ⟨hR2, by rw [sim_events, sim_events, hev, hev2]⟩

/-- C5: for every frame count `n >= 1` and every reference string on which
the run (under FIFO, or equally under Clock) records no hit, the Clock run
and the FIFO run from the reset state take the same event at every step (the
same frame chosen, the same page evicted, in the same order) and end with the
same resident page in every frame. -/
theorem clock_equals_fifo_without_hits (refs : List Int) (rnd : Nat → Int) (s : SimState)
    (hn : 1 ≤ s.frame_count)
    (hno : (simulate_page_replacement Algo.FIFO refs rnd s).page_hits = 0 ∨
      (simulate_page_replacement Algo.Clock refs rnd s).page_hits = 0) :
    sim_events Algo.Clock refs rnd (sim_reset s) refs.length
      = sim_events Algo.FIFO refs rnd (sim_reset s) refs.length ∧
    ∀ j : Nat,
      ((frameAt (simulate_page_replacement Algo.Clock refs rnd s).physical_memory j).occupied ≠ 0
        ↔ (frameAt (simulate_page_replacement Algo.FIFO refs rnd s).physical_memory j).occupied
            ≠ 0) ∧
      ((frameAt (simulate_page_replacement Algo.Clock refs rnd s).physical_memory j).occupied ≠ 0
        → (frameAt (simulate_page_replacement Algo.Clock refs rnd s).physical_memory j).page_no
          = (frameAt (simulate_page_replacement Algo.FIFO refs rnd s).physical_memory j).page_no)
    := by
  obtain ⟨hR, hev⟩ := clock_fifo_lockstep refs rnd s hn refs.length hno refs.length
    (Nat.le_refl _)
  refine ⟨hev, ?_⟩
  intro j
  exact slot_eq_iff (slot_frameAt_of_slots hR.1 j)

theorem clock_equals_fifo_without_hits_witness :
    1 ≤ (init_state 3 (fun _ _ => 0)).frame_count ∧
    ((simulate_page_replacement Algo.FIFO [0, 1, 2, 3, 4, 5, 6, 7] (fun _ => 0)
        (init_state 3 (fun _ _ => 0))).page_hits = 0 ∨
      (simulate_page_replacement Algo.Clock [0, 1, 2, 3, 4, 5, 6, 7] (fun _ => 0)
        (init_state 3 (fun _ _ => 0))).page_hits = 0) ∧
    sim_events Algo.Clock [0, 1, 2, 3, 4, 5, 6, 7] (fun _ => 0)
        (sim_reset (init_state 3 (fun _ _ => 0))) 8
      = sim_events Algo.FIFO [0, 1, 2, 3, 4, 5, 6, 7] (fun _ => 0)
        (sim_reset (init_state 3 (fun _ _ => 0))) 8 :=
  ⟨by decide, Or.inl (by rfl),
    (clock_equals_fifo_without_hits [0, 1, 2, 3, 4, 5, 6, 7] (fun _ => 0)
      (init_state 3 (fun _ _ => 0)) (by decide) (Or.inl (by rfl))).1⟩


/-! ## Page table of process 1 against the frame table -/

theorem pteAt_updPTE_self (pt : List PageTableEntry) (p : Int)
    (g : PageTableEntry → PageTableEntry) (h0 : 0 ≤ p) (h1 : p < (pt.length : Int)) :
    pteAt (updPTE pt p g) p = g (pteAt pt p) := by
  have hlt : p.toNat < pt.length := by omega
  unfold updPTE
  rw [if_pos h0]
  unfold pteAt
  rw [if_pos h0, if_pos h0]
  simp [List.getD_eq_getElem?_getD, List.getElem?_set, hlt]

theorem pteAt_updPTE_ne (pt : List PageTableEntry) (p q : Int)
    (g : PageTableEntry → PageTableEntry) (h : q ≠ p) :
    pteAt (updPTE pt p g) q = pteAt pt q := by
  unfold updPTE
  by_cases h0 : 0 ≤ p
  · rw [if_pos h0]
    unfold pteAt
    by_cases hq : 0 ≤ q
    · rw [if_pos hq, if_pos hq]
      have hne : p.toNat ≠ q.toNat := by omega
      simp [List.getD_eq_getElem?_getD, List.getElem?_set, hne]
    · rw [if_neg hq, if_neg hq]
  · rw [if_neg h0]

@[simp] theorem updPTE_length (pt : List PageTableEntry) (p : Int)
    (g : PageTableEntry → PageTableEntry) : (updPTE pt p g).length = pt.length := by
  unfold updPTE
  split
  · simp
  · rfl

theorem pteAt_updPTE_keep (pt : List PageTableEntry) (p q : Int)
    (g : PageTableEntry → PageTableEntry)
    (hg : ∀ e, (g e).valid = e.valid ∧ (g e).frame_no = e.frame_no) :
    (pteAt (updPTE pt p g) q).valid = (pteAt pt q).valid ∧
      (pteAt (updPTE pt p g) q).frame_no = (pteAt pt q).frame_no := by
  by_cases hqp : q = p
  · subst hqp
    by_cases h0 : 0 ≤ q
    · by_cases h1 : q < (pt.length : Int)
      · rw [pteAt_updPTE_self pt q g h0 h1]
        exact hg _
      · have : updPTE pt q g = pt := by
          unfold updPTE
          rw [if_pos h0, List.set_eq_of_length_le (by omega)]
        rw [this]
        exact ⟨rfl, rfl⟩
    · have : updPTE pt q g = pt := by
        unfold updPTE
        rw [if_neg h0]
      rw [this]
      exact ⟨rfl, rfl⟩
  · rw [pteAt_updPTE_ne pt p q g hqp]
    exact ⟨rfl, rfl⟩

theorem proc0Ok_pt0 {c : Int} {s : SimState} (h : Proc0Ok c s) :
    c ≤ ((pt0 s).length : Int) ∧ (s.processes.getD 0 default).page_count = c := by
  obtain ⟨_, pr, rest, h1, _, h3, h4⟩ := h
  unfold pt0
  rw [h1]
  exact ⟨h4, h3⟩

/-- Effect of the "Page hit" block on process 1's page table. -/
theorem page_hit_pt0 (c : Int) (s : SimState) (f : Nat) (p : Int) (h : Proc0Ok c s) :
    Proc0Ok c (page_hit s f p) ∧
      ∀ q, (pteAt (pt0 (page_hit s f p)) q).valid = (pteAt (pt0 s) q).valid ∧
        (pteAt (pt0 (page_hit s f p)) q).frame_no = (pteAt (pt0 s) q).frame_no := by
  obtain ⟨hc, pr, rest, h1, h2, h3, h4⟩ := h
  unfold page_hit pt0 Proc0Ok
  simp only [h1, List.getD_cons_zero]
  split
  · refine ⟨⟨hc, _, _, rfl, h2, h3, by simpa using h4⟩, ?_⟩
    intro q
    simp only [updProc0PTE, List.getD_cons_zero]
    exact pteAt_updPTE_keep _ _ _ _ (fun e => ⟨rfl, rfl⟩)
  · refine ⟨⟨hc, _, _, rfl, h2, h3, h4⟩, ?_⟩
    intro q
    exact ⟨rfl, rfl⟩

/-- Effect of the "Load new page" block on process 1's page table. -/
theorem load_page_pt0 (c : Int) (s : SimState) (f : Nat) (p m : Int) (h : Proc0Ok c s)
    (hp0 : 0 ≤ p) (hpc : p < c) :
    Proc0Ok c (load_page s f p m) ∧
      (pteAt (pt0 (load_page s f p m)) p).valid = 1 ∧
      (pteAt (pt0 (load_page s f p m)) p).frame_no = (f : Int) ∧
      ∀ q, q ≠ p → pteAt (pt0 (load_page s f p m)) q = pteAt (pt0 s) q := by
  obtain ⟨hc, pr, rest, h1, h2, h3, h4⟩ := h
  unfold load_page pt0 Proc0Ok
  simp only [h1, List.getD_cons_zero, h3, hpc, if_true, updProc0PTE]
  refine ⟨⟨hc, _, _, rfl, h2, rfl, by simpa using h4⟩, ?_, ?_, ?_⟩
  · rw [pteAt_updPTE_self _ _ _ hp0 (by omega)]
  · rw [pteAt_updPTE_self _ _ _ hp0 (by omega)]
  · intro q hq
    exact pteAt_updPTE_ne _ _ _ _ hq

/-- Effect of the "Remove old page" block on process 1's page table when the
victim frame holds page `q` of process 1. -/
theorem remove_old_page_pt0 (c : Int) (s : SimState) (v : Nat) (q : Int) (h : Proc0Ok c s)
    (hocc : (frameAt s.physical_memory v).occupied ≠ 0)
    (hpage : (frameAt s.physical_memory v).page_no = q)
    (hpid : (frameAt s.physical_memory v).process_id = 1)
    (hq0 : 0 ≤ q) (hqc : q < c) :
    Proc0Ok c (remove_old_page s v) ∧
      (pteAt (pt0 (remove_old_page s v)) q).valid = 0 ∧
      (pteAt (pt0 (remove_old_page s v)) q).frame_no = -1 ∧
      ∀ r, r ≠ q → pteAt (pt0 (remove_old_page s v)) r = pteAt (pt0 s) r := by
  obtain ⟨hc, pr, rest, h1, h2, h3, h4⟩ := h
  obtain ⟨k, hk⟩ : ∃ k, s.process_count = k + 1 := ⟨s.process_count - 1, by omega⟩
  unfold remove_old_page
  rw [if_pos hocc]
  unfold pt0 Proc0Ok
  simp only [h1, hk, hpid, hpage, invalidate_old, h2, if_true, h3, hqc, List.getD_cons_zero]
  refine ⟨⟨by omega, _, _, rfl, rfl, rfl, by simpa using h4⟩, ?_, ?_, ?_⟩
  · rw [pteAt_updPTE_self _ _ _ hq0 (by omega)]
  · rw [pteAt_updPTE_self _ _ _ hq0 (by omega)]
  · intro r hr
    exact pteAt_updPTE_ne _ _ _ _ hr


theorem clearRef_frameAt {m1 m2 : List Frame} (h : m1.map clearRef = m2.map clearRef)
    (i : Nat) : clearRef (frameAt m1 i) = clearRef (frameAt m2 i) := by
  have h1 : ∀ m : List Frame,
      clearRef (frameAt m i) = (m.map clearRef).getD i (clearRef default) := by
    intro m
    simp only [frameAt, List.getD_eq_getElem?_getD, List.getElem?_map]
    cases m[i]? <;> rfl
  rw [h1 m1, h1 m2, h]

theorem select_victim_frameAt (algo : Algo) (refs : List Int) (i : Nat) (s : SimState)
    (j : Nat) :
    slot (frameAt (select_victim algo refs i s).2.physical_memory j)
        = slot (frameAt s.physical_memory j) ∧
      (frameAt (select_victim algo refs i s).2.physical_memory j).process_id
        = (frameAt s.physical_memory j).process_id ∧
      (frameAt (select_victim algo refs i s).2.physical_memory j).occupied
        = (frameAt s.physical_memory j).occupied ∧
      (frameAt (select_victim algo refs i s).2.physical_memory j).page_no
        = (frameAt s.physical_memory j).page_no := by
  have h := clearRef_frameAt (select_victim_clearRef algo refs i s) j
  refine ⟨?_, ?_, ?_, ?_⟩
  · rw [← slot_clearRef, h, slot_clearRef]
  · have h1 := congrArg Frame.process_id h
    exact h1
  · have h1 := congrArg Frame.occupied h
    exact h1
  · have h1 := congrArg Frame.page_no h
    exact h1

theorem load_page_frameAt (s : SimState) (f : Nat) (p m : Int) (j : Nat) :
    slot (frameAt (load_page s f p m).physical_memory j)
        = (if j = f ∧ f < s.physical_memory.length then some p
           else slot (frameAt s.physical_memory j)) ∧
      (frameAt (load_page s f p m).physical_memory j).process_id
        = (if j = f ∧ f < s.physical_memory.length then 1
           else (frameAt s.physical_memory j).process_id) := by
  rw [load_page_physical_memory, frameAt_updFrame]
  split
  · exact ⟨rfl, rfl⟩
  · exact ⟨rfl, rfl⟩

theorem page_hit_frameAt (s : SimState) (f : Nat) (p : Int) (j : Nat) :
    slot (frameAt (page_hit s f p).physical_memory j) = slot (frameAt s.physical_memory j) ∧
      (frameAt (page_hit s f p).physical_memory j).process_id
        = (frameAt s.physical_memory j).process_id := by
  rw [page_hit_physical_memory, frameAt_updFrame]
  split
  · rename_i h
    rw [h.1]
    exact ⟨rfl, rfl⟩
  · exact ⟨rfl, rfl⟩

theorem slot_frameAt_mem {mem : List Frame} {j : Nat} (hj : j < mem.length) :
    slot (frameAt mem j) ∈ slots mem :=
  List.mem_map.mpr ⟨_, frameAt_mem hj, rfl⟩


theorem pageTableOk_hit_case (c : Int) (s : SimState) (f0 : Nat) (p : Int)
    (h : PageTableOk c s) :
    Proc0Ok c (page_hit (tick s) f0 p) ∧
    (∀ f q, f < s.frame_count → slot (frameAt (page_hit (tick s) f0 p).physical_memory f) = some q →
      (frameAt (page_hit (tick s) f0 p).physical_memory f).process_id = 1 ∧ 0 ≤ q ∧ q < c ∧
      (pteAt (pt0 (page_hit (tick s) f0 p)) q).valid ≠ 0 ∧
      (pteAt (pt0 (page_hit (tick s) f0 p)) q).frame_no = (f : Int)) ∧
    (∀ q, 0 ≤ q → q < c → (pteAt (pt0 (page_hit (tick s) f0 p)) q).valid ≠ 0 →
      ∃ f : Nat, (pteAt (pt0 (page_hit (tick s) f0 p)) q).frame_no = (f : Int) ∧
        f < s.frame_count ∧ slot (frameAt (page_hit (tick s) f0 p).physical_memory f) = some q) := by
  obtain ⟨hP, _, h2, h3⟩ := h
  obtain ⟨hP2, hpt⟩ := page_hit_pt0 c (tick s) f0 p hP
  refine ⟨hP2, ?_, ?_⟩
  · intro f q hf hs
    rw [(page_hit_frameAt (tick s) f0 p f).1] at hs
    rw [(page_hit_frameAt (tick s) f0 p f).2, (hpt q).1, (hpt q).2]
    exact h2 f q hf hs
  · intro q hq0 hqc hv
    rw [(hpt q).1] at hv
    obtain ⟨f, e1, e2, e3⟩ := h3 q hq0 hqc hv
    refine ⟨f, ?_, e2, ?_⟩
    · rw [(hpt q).2]; exact e1
    · rw [(page_hit_frameAt (tick s) f0 p f).1]; exact e3

theorem pageTableOk_free_case (c : Int) (s : SimState) (g : Nat) (p m : Int)
    (h : PageTableOk c s) (hp0 : 0 ≤ p) (hpc : p < c) (hg : g < s.frame_count)
    (hfree : slot (frameAt s.physical_memory g) = none)
    (hp : some p ∉ slots s.physical_memory) :
    Proc0Ok c (load_page (tick_fault s) g p m) ∧
    (∀ f q, f < s.frame_count →
      slot (frameAt (load_page (tick_fault s) g p m).physical_memory f) = some q →
      (frameAt (load_page (tick_fault s) g p m).physical_memory f).process_id = 1 ∧
      0 ≤ q ∧ q < c ∧
      (pteAt (pt0 (load_page (tick_fault s) g p m)) q).valid ≠ 0 ∧
      (pteAt (pt0 (load_page (tick_fault s) g p m)) q).frame_no = (f : Int)) ∧
    (∀ q, 0 ≤ q → q < c → (pteAt (pt0 (load_page (tick_fault s) g p m)) q).valid ≠ 0 →
      ∃ f : Nat, (pteAt (pt0 (load_page (tick_fault s) g p m)) q).frame_no = (f : Int) ∧
        f < s.frame_count ∧
        slot (frameAt (load_page (tick_fault s) g p m).physical_memory f) = some q) := by
  obtain ⟨hP, _, h2, h3⟩ := h
  obtain ⟨hP2, hv1, hf1, hother⟩ := load_page_pt0 c (tick_fault s) g p m hP hp0 hpc
  have hglen : g < (tick_fault s).physical_memory.length := hg
  refine ⟨hP2, ?_, ?_⟩
  · intro f q hf hs
    rw [(load_page_frameAt (tick_fault s) g p m f).1] at hs
    rw [(load_page_frameAt (tick_fault s) g p m f).2]
    by_cases hfg : f = g
    · rw [if_pos ⟨hfg, hglen⟩] at hs ⊢
      have hqp : q = p := (Option.some.inj hs).symm
      rw [hqp, hv1, hf1, hfg]
      exact ⟨rfl, hp0, hpc, by decide, rfl⟩
    · rw [if_neg (fun x => hfg x.1)] at hs ⊢
      have hqp : q ≠ p := by
        intro e
        apply hp
        rw [← e, ← hs]
        exact slot_frameAt_mem (show f < s.physical_memory.length from hf)
      rw [hother q hqp]
      exact h2 f q hf hs
  · intro q hq0 hqc hv
    by_cases hqp : q = p
    · refine ⟨g, ?_, hg, ?_⟩
      · rw [hqp]; exact hf1
      · rw [(load_page_frameAt (tick_fault s) g p m g).1, if_pos ⟨rfl, hglen⟩, hqp]
    · rw [hother q hqp] at hv ⊢
      obtain ⟨f, e1, e2, e3⟩ := h3 q hq0 hqc hv
      refine ⟨f, e1, e2, ?_⟩
      have hfg : f ≠ g := by
        intro e
        rw [e, hfree] at e3
        cases e3
      rw [(load_page_frameAt (tick_fault s) g p m f).1, if_neg (fun x => hfg x.1)]
      exact e3

theorem pageTableOk_replace_case (c : Int) (algo : Algo) (refs : List Int) (i : Nat)
    (s : SimState) (p m : Int) (h : PageTableOk c s) (hp0 : 0 ≤ p) (hpc : p < c)
    (hfull : none ∉ slots s.physical_memory) (hp : some p ∉ slots s.physical_memory) :
    Proc0Ok c (load_page
        (remove_old_page (select_victim algo refs i (tick_fault s)).2
          (select_victim algo refs i (tick_fault s)).1)
        (select_victim algo refs i (tick_fault s)).1 p m) ∧
    (∀ f q, f < s.frame_count →
      slot (frameAt (load_page
        (remove_old_page (select_victim algo refs i (tick_fault s)).2
          (select_victim algo refs i (tick_fault s)).1)
        (select_victim algo refs i (tick_fault s)).1 p m).physical_memory f) = some q →
      (frameAt (load_page
        (remove_old_page (select_victim algo refs i (tick_fault s)).2
          (select_victim algo refs i (tick_fault s)).1)
        (select_victim algo refs i (tick_fault s)).1 p m).physical_memory f).process_id = 1 ∧
      0 ≤ q ∧ q < c ∧
      (pteAt (pt0 (load_page
        (remove_old_page (select_victim algo refs i (tick_fault s)).2
          (select_victim algo refs i (tick_fault s)).1)
        (select_victim algo refs i (tick_fault s)).1 p m)) q).valid ≠ 0 ∧
      (pteAt (pt0 (load_page
        (remove_old_page (select_victim algo refs i (tick_fault s)).2
          (select_victim algo refs i (tick_fault s)).1)
        (select_victim algo refs i (tick_fault s)).1 p m)) q).frame_no = (f : Int)) ∧
    (∀ q, 0 ≤ q → q < c →
      (pteAt (pt0 (load_page
        (remove_old_page (select_victim algo refs i (tick_fault s)).2
          (select_victim algo refs i (tick_fault s)).1)
        (select_victim algo refs i (tick_fault s)).1 p m)) q).valid ≠ 0 →
      ∃ f : Nat, (pteAt (pt0 (load_page
        (remove_old_page (select_victim algo refs i (tick_fault s)).2
          (select_victim algo refs i (tick_fault s)).1)
        (select_victim algo refs i (tick_fault s)).1 p m)) q).frame_no = (f : Int) ∧
        f < s.frame_count ∧
        slot (frameAt (load_page
          (remove_old_page (select_victim algo refs i (tick_fault s)).2
            (select_victim algo refs i (tick_fault s)).1)
          (select_victim algo refs i (tick_fault s)).1 p m).physical_memory f) = some q) ∧
    (∀ q, evicted_page (select_victim algo refs i (tick_fault s)).2
        (select_victim algo refs i (tick_fault s)).1 = some q →
      (pteAt (pt0 (load_page
        (remove_old_page (select_victim algo refs i (tick_fault s)).2
          (select_victim algo refs i (tick_fault s)).1)
        (select_victim algo refs i (tick_fault s)).1 p m)) q).valid = 0 ∧
      (pteAt (pt0 (load_page
        (remove_old_page (select_victim algo refs i (tick_fault s)).2
          (select_victim algo refs i (tick_fault s)).1)
        (select_victim algo refs i (tick_fault s)).1 p m)) q).frame_no = -1) := by
  obtain ⟨hP, hC, h2, h3⟩ := h
  obtain ⟨hv, _, _⟩ := select_victim_lt algo refs i (tick_fault s) hC.1 hC.2
  generalize hsv : select_victim algo refs i (tick_fault s) = sv at *
  have hfr : ∀ j, slot (frameAt sv.2.physical_memory j) = slot (frameAt s.physical_memory j) ∧
      (frameAt sv.2.physical_memory j).process_id = (frameAt s.physical_memory j).process_id ∧
      (frameAt sv.2.physical_memory j).occupied = (frameAt s.physical_memory j).occupied ∧
      (frameAt sv.2.physical_memory j).page_no = (frameAt s.physical_memory j).page_no := by
    intro j
    rw [← hsv]
    exact select_victim_frameAt algo refs i (tick_fault s) j
  have hlen : sv.2.physical_memory.length = s.physical_memory.length := by
    rw [← hsv]; exact select_victim_length algo refs i (tick_fault s)
  have hv2 : sv.1 < s.physical_memory.length := hv
  have hP1 : Proc0Ok c sv.2 := by
    unfold Proc0Ok
    rw [← hsv, select_victim_processes, select_victim_process_count]
    exact hP
  have hpt1 : pt0 sv.2 = pt0 s := by
    unfold pt0
    rw [← hsv, select_victim_processes]
    rfl
  have hocc : (frameAt sv.2.physical_memory sv.1).occupied ≠ 0 := by
    rw [(hfr sv.1).2.2.1]
    exact all_occupied_of_none_not_mem hfull sv.1 hv2
  have hslotv : slot (frameAt s.physical_memory sv.1)
      = some (frameAt sv.2.physical_memory sv.1).page_no := by
    rw [← (hfr sv.1).1]
    exact slot_eq_some.mpr ⟨hocc, rfl⟩
  obtain ⟨hpid, hq0, hqc, hqv, hqf⟩ := h2 sv.1 _ hv hslotv
  obtain ⟨hP3, hv3, hf3, hother3⟩ := remove_old_page_pt0 c sv.2 sv.1
    (frameAt sv.2.physical_memory sv.1).page_no hP1 hocc rfl
    (by rw [(hfr sv.1).2.1]; exact hpid) hq0 hqc
  obtain ⟨hP4, hv4, hf4, hother4⟩ := load_page_pt0 c (remove_old_page sv.2 sv.1) sv.1 p m hP3
    hp0 hpc
  have hqp : (frameAt sv.2.physical_memory sv.1).page_no ≠ p := by
    intro e
    apply hp
    rw [← e, ← hslotv]
    exact slot_frameAt_mem hv2
  have hvlen : sv.1 < (remove_old_page sv.2 sv.1).physical_memory.length := by
    rw [remove_old_page_physical_memory, hlen]; exact hv2
  refine ⟨hP4, ?_, ?_, ?_⟩
  · intro f q hf hs
    rw [(load_page_frameAt _ sv.1 p m f).1] at hs
    rw [(load_page_frameAt _ sv.1 p m f).2]
    by_cases hfv : f = sv.1
    · rw [if_pos ⟨hfv, hvlen⟩] at hs ⊢
      have hqp2 : q = p := (Option.some.inj hs).symm
      rw [hqp2, hv4, hf4, hfv]
      exact ⟨rfl, hp0, hpc, by decide, rfl⟩
    · rw [if_neg (fun x => hfv x.1)] at hs ⊢
      rw [remove_old_page_physical_memory] at hs ⊢
      rw [(hfr f).1] at hs
      rw [(hfr f).2.1]
      obtain ⟨a1, a2, a3, a4, a5⟩ := h2 f q hf hs
      have hne1 : q ≠ p := by
        intro e
        apply hp
        rw [← e, ← hs]
        exact slot_frameAt_mem (show f < s.physical_memory.length from hf)
      have hne2 : q ≠ (frameAt sv.2.physical_memory sv.1).page_no := by
        intro e
        rw [e, hqf] at a5
        exact hfv (by exact_mod_cast a5.symm)
      rw [hother4 q hne1, hother3 q hne2, hpt1]
      exact ⟨a1, a2, a3, a4, a5⟩
  · intro q hq0' hqc' hvq
    by_cases hqp2 : q = p
    · refine ⟨sv.1, ?_, hv, ?_⟩
      · rw [hqp2]; exact hf4
      · rw [(load_page_frameAt _ sv.1 p m sv.1).1, if_pos ⟨rfl, hvlen⟩, hqp2]
    · rw [hother4 q hqp2] at hvq ⊢
      by_cases hqq : q = (frameAt sv.2.physical_memory sv.1).page_no
      · rw [hqq, hv3] at hvq
        exact absurd rfl hvq
      · rw [hother3 q hqq, hpt1] at hvq ⊢
        obtain ⟨f, e1, e2, e3⟩ := h3 q hq0' hqc' hvq
        refine ⟨f, e1, e2, ?_⟩
        have hfv : f ≠ sv.1 := by
          intro e
          rw [e, hslotv] at e3
          exact hqq (Option.some.inj e3).symm
        rw [(load_page_frameAt _ sv.1 p m f).1, if_neg (fun x => hfv x.1),
          remove_old_page_physical_memory, (hfr f).1]
        exact e3
  · intro q hev
    rw [evicted_page_eq_slot, (hfr sv.1).1, hslotv] at hev
    have hq : q = (frameAt sv.2.physical_memory sv.1).page_no := (Option.some.inj hev).symm
    rw [hother4 q (by rw [hq]; exact hqp), hq]
    exact ⟨hv3, hf3⟩


/-- One step keeps process 1's page table and the frame table in agreement,
and the entry of a page evicted in that step is invalid with `frame_no = -1`
when the step ends. -/
theorem pageTableOk_step (c : Int) (algo : Algo) (refs : List Int) (rnd : Nat → Int)
    (i : Nat) (s : SimState) (h : PageTableOk c s) (hp0 : 0 ≤ refs.getD i 0)
    (hpc : refs.getD i 0 < c) :
    PageTableOk c (sim_step algo refs rnd i s) ∧
      ∀ f q, (sim_step_ev algo refs rnd i s).2 = StepEvent.replace f (some q) →
        (pteAt (pt0 (sim_step algo refs rnd i s)) q).valid = 0 ∧
        (pteAt (pt0 (sim_step algo refs rnd i s)) q).frame_no = -1 := by
  have hC2 := sim_step_cursors algo refs rnd i s h.2.1
  have hfc := sim_step_frame_count algo refs rnd i s
  unfold PageTableOk
  rw [hfc]
  unfold sim_step at hC2 ⊢
  rcases sim_step_ev_cases refs i s with ⟨f0, hf⟩ | ⟨hf, g, hg⟩ | ⟨hf, hg⟩
  · rw [sim_step_ev_hit algo refs rnd i s f0 hf] at hC2 ⊢
    obtain ⟨a1, a2, a3⟩ := pageTableOk_hit_case c s f0 (refs.getD i 0) h
    refine ⟨⟨a1, hC2, a2, a3⟩, ?_⟩
    intro f q hev
    cases hev
  · rw [sim_step_ev_free algo refs rnd i s g hf hg] at hC2 ⊢
    have hne : get_free_frame s.physical_memory ≠ -1 := by rw [hg]; omega
    obtain ⟨g2, e1, e2, e3, _⟩ := get_free_frame_spec _ hne
    have hgg : g = g2 := by rw [hg] at e1; exact_mod_cast e1
    subst hgg
    obtain ⟨a1, a2, a3⟩ := pageTableOk_free_case c s g (refs.getD i 0) (rnd i) h hp0 hpc e2
      (slot_eq_none.mpr e3) ((find_page_none_iff _ _).mp hf)
    refine ⟨⟨a1, hC2, a2, a3⟩, ?_⟩
    intro f q hev
    cases hev
  · rw [sim_step_ev_replace algo refs rnd i s hf hg] at hC2 ⊢
    obtain ⟨a1, a2, a3, a4⟩ := pageTableOk_replace_case c algo refs i s (refs.getD i 0) (rnd i)
      h hp0 hpc ((get_free_frame_neg_one_iff _).mp hg) ((find_page_none_iff _ _).mp hf)
    refine ⟨⟨a1, hC2, a2, a3⟩, ?_⟩
    intro f q hev
    simp only [StepEvent.replace.injEq] at hev
    exact a4 q hev.2

theorem reset_page_table_length (pt : List PageTableEntry) (k : Nat) :
    (reset_page_table pt k).length = pt.length := by
  induction pt generalizing k with
  | nil => rfl
  | cons e rest ih =>
    cases k with
    | zero => rfl
    | succ k => simp [reset_page_table, ih]

theorem reset_page_table_valid (pt : List PageTableEntry) (k i : Nat) (h : i < k) :
    ((reset_page_table pt k).getD i default).valid = 0 := by
  induction pt generalizing k i with
  | nil => rfl
  | cons e rest ih =>
    cases k with
    | zero => omega
    | succ k =>
      cases i with
      | zero => rfl
      | succ i =>
        rw [reset_page_table, List.getD_cons_succ]
        exact ih k i (by omega)

theorem getD_mem_of_lt (refs : List Int) (k : Nat) (h : k < refs.length) :
    refs.getD k 0 ∈ refs := by
  rw [List.getD_eq_getElem?_getD, List.getElem?_eq_getElem h]
  exact List.getElem_mem h

theorem pageTableOk_reset (s : SimState) (pr : Process) (rest : List Process)
    (hn : 1 ≤ s.frame_count) (hcount : 1 ≤ s.process_count) (hprocs : s.processes = pr :: rest)
    (hpid : pr.pid = 1) (hroom : pr.page_count ≤ (pr.page_table.length : Int)) :
    PageTableOk pr.page_count (sim_reset s) := by
  obtain ⟨k, hk⟩ : ∃ k, s.process_count = k + 1 := ⟨s.process_count - 1, by omega⟩
  have hprocs2 : (sim_reset s).processes
      = { pr with page_table := reset_page_table pr.page_table pr.page_count.toNat } ::
          reset_processes rest k := by
    show reset_processes s.processes s.process_count = _
    rw [hprocs, hk]
    rfl
  have hslot : ∀ f, f < s.frame_count → slot (frameAt (sim_reset s).physical_memory f) = none := by
    intro f hf
    have hf2 : f < (sim_reset s).physical_memory.length := by
      have := sim_reset_frame_count s
      unfold SimState.frame_count at this
      rw [this]; exact hf
    have h1 := slots_getElem? (sim_reset s).physical_memory f hf2
    rw [slots_sim_reset, List.getElem?_replicate, if_pos hf] at h1
    exact (Option.some.inj h1).symm
  refine ⟨⟨hcount, _, _, hprocs2, hpid, rfl, ?_⟩, sim_reset_cursors s hn, ?_, ?_⟩
  · show pr.page_count ≤ ((reset_page_table pr.page_table pr.page_count.toNat).length : Int)
    rw [reset_page_table_length]; exact hroom
  · intro f p hf hs
    rw [sim_reset_frame_count] at hf
    rw [hslot f hf] at hs
    cases hs
  · intro p hp0 hpc hv
    exfalso
    apply hv
    unfold pt0
    rw [hprocs2]
    show (pteAt (reset_page_table pr.page_table pr.page_count.toNat) p).valid = 0
    unfold pteAt
    rw [if_pos hp0]
    exact reset_page_table_valid _ _ _ (by omega)

theorem pageTableOk_steps (algo : Algo) (refs : List Int) (rnd : Nat → Int) (s : SimState)
    (pr : Process) (rest : List Process)
    (hn : 1 ≤ s.frame_count) (hcount : 1 ≤ s.process_count) (hprocs : s.processes = pr :: rest)
    (hpid : pr.pid = 1) (hroom : pr.page_count ≤ (pr.page_table.length : Int))
    (hrefs : ∀ p ∈ refs, 0 ≤ p ∧ p < pr.page_count) (k : Nat) (hk : k ≤ refs.length) :
    PageTableOk pr.page_count (sim_steps algo refs rnd (sim_reset s) k) := by
  induction k with
  | zero => exact pageTableOk_reset s pr rest hn hcount hprocs hpid hroom
  | succ k ih =>
    have hmem := hrefs _ (getD_mem_of_lt refs k (by omega))
    exact (pageTableOk_step pr.page_count algo refs rnd k _ (ih (by omega)) hmem.1 hmem.2).1

/-- C9: when process 1 is registered in `processes[0]` (pid 1, page table
with room for its `page_count` pages), there is at least one frame, and the
reference string stays in `[0, page_count)`, then after the reset and after
every step of the run, for every page `p` of process 1: the entry of `p` is
valid iff some occupied frame holds page `p` for process 1, and a valid entry's
`frame_no` is the index of such a frame; and the entry of a page evicted by a
step is invalid with `frame_no = -1` when that step ends. -/
theorem page_table_matches_frames (algo : Algo) (refs : List Int) (rnd : Nat → Int)
    (s : SimState) (pr : Process) (rest : List Process)
    (hn : 1 ≤ s.frame_count) (hcount : 1 ≤ s.process_count) (hprocs : s.processes = pr :: rest)
    (hpid : pr.pid = 1) (hroom : pr.page_count ≤ (pr.page_table.length : Int))
    (hrefs : ∀ p ∈ refs, 0 ≤ p ∧ p < pr.page_count) (k : Nat) (hk : k ≤ refs.length) :
    (∀ p, 0 ≤ p → p < pr.page_count →
      ((pteAt (pt0 (sim_steps algo refs rnd (sim_reset s) k)) p).valid ≠ 0 ↔
        ∃ f, f < s.frame_count ∧
          (frameAt (sim_steps algo refs rnd (sim_reset s) k).physical_memory f).occupied ≠ 0 ∧
          (frameAt (sim_steps algo refs rnd (sim_reset s) k).physical_memory f).page_no = p ∧
          (frameAt (sim_steps algo refs rnd (sim_reset s) k).physical_memory f).process_id = 1) ∧
      ((pteAt (pt0 (sim_steps algo refs rnd (sim_reset s) k)) p).valid ≠ 0 →
        ∃ f : Nat,
          (pteAt (pt0 (sim_steps algo refs rnd (sim_reset s) k)) p).frame_no = (f : Int) ∧
          f < s.frame_count ∧
          (frameAt (sim_steps algo refs rnd (sim_reset s) k).physical_memory f).occupied ≠ 0 ∧
          (frameAt (sim_steps algo refs rnd (sim_reset s) k).physical_memory f).page_no = p ∧
          (frameAt (sim_steps algo refs rnd (sim_reset s) k).physical_memory f).process_id = 1)) ∧
    (∀ f q, k < refs.length →
      (sim_step_ev algo refs rnd k (sim_steps algo refs rnd (sim_reset s) k)).2
        = StepEvent.replace f (some q) →
      (pteAt (pt0 (sim_steps algo refs rnd (sim_reset s) (k + 1))) q).valid = 0 ∧
      (pteAt (pt0 (sim_steps algo refs rnd (sim_reset s) (k + 1))) q).frame_no = -1) := by
  have hok := pageTableOk_steps algo refs rnd s pr rest hn hcount hprocs hpid hroom hrefs k hk
  have hfc : (sim_steps algo refs rnd (sim_reset s) k).frame_count = s.frame_count := by
    rw [sim_steps_frame_count, sim_reset_frame_count]
  obtain ⟨_, _, h2, h3⟩ := hok
  rw [hfc] at h2 h3
  have hfwd : ∀ p, 0 ≤ p → p < pr.page_count →
      (pteAt (pt0 (sim_steps algo refs rnd (sim_reset s) k)) p).valid ≠ 0 →
      ∃ f : Nat,
        (pteAt (pt0 (sim_steps algo refs rnd (sim_reset s) k)) p).frame_no = (f : Int) ∧
        f < s.frame_count ∧
        (frameAt (sim_steps algo refs rnd (sim_reset s) k).physical_memory f).occupied ≠ 0 ∧
        (frameAt (sim_steps algo refs rnd (sim_reset s) k).physical_memory f).page_no = p ∧
        (frameAt (sim_steps algo refs rnd (sim_reset s) k).physical_memory f).process_id = 1 := by
    intro p hp0 hpc hv
    obtain ⟨f, e1, e2, e3⟩ := h3 p hp0 hpc hv
    obtain ⟨o1, o2⟩ := slot_eq_some.mp e3
    exact ⟨f, e1, e2, o1, o2, (h2 f p e2 e3).1⟩
  refine ⟨?_, ?_⟩
  · intro p hp0 hpc
    refine ⟨⟨?_, ?_⟩, hfwd p hp0 hpc⟩
    · intro hv
      obtain ⟨f, _, e2, e3, e4, e5⟩ := hfwd p hp0 hpc hv
      exact ⟨f, e2, e3, e4, e5⟩
    · rintro ⟨f, e1, e2, e3, _⟩
      exact (h2 f p e1 (slot_eq_some.mpr ⟨e2, e3⟩)).2.2.2.1
  · intro f q hk2 hev
    have hmem := hrefs _ (getD_mem_of_lt refs k hk2)
    have := (pageTableOk_step pr.page_count algo refs rnd k _
      (pageTableOk_steps algo refs rnd s pr rest hn hcount hprocs hpid hroom hrefs k hk)
      hmem.1 hmem.2).2 f q hev
    exact this

theorem page_table_matches_frames_witness :
    1 ≤ (init_state 3 (fun _ _ => 0)).frame_count ∧
    (∀ p ∈ ([0, 1, 2, 3, 0, 1, 4, 0, 1, 2, 3, 4] : List Int), 0 ≤ p ∧ p < 8) ∧
    ((pteAt (pt0 (sim_steps Algo.FIFO [0, 1, 2, 3, 0, 1, 4, 0, 1, 2, 3, 4] (fun _ => 0)
        (sim_reset (init_state 3 (fun _ _ => 0))) 12)) 4).valid ≠ 0 ↔
      ∃ f, f < (init_state 3 (fun _ _ => 0)).frame_count ∧
        (frameAt (sim_steps Algo.FIFO [0, 1, 2, 3, 0, 1, 4, 0, 1, 2, 3, 4] (fun _ => 0)
          (sim_reset (init_state 3 (fun _ _ => 0))) 12).physical_memory f).occupied ≠ 0 ∧
        (frameAt (sim_steps Algo.FIFO [0, 1, 2, 3, 0, 1, 4, 0, 1, 2, 3, 4] (fun _ => 0)
          (sim_reset (init_state 3 (fun _ _ => 0))) 12).physical_memory f).page_no = 4 ∧
        (frameAt (sim_steps Algo.FIFO [0, 1, 2, 3, 0, 1, 4, 0, 1, 2, 3, 4] (fun _ => 0)
          (sim_reset (init_state 3 (fun _ _ => 0))) 12).physical_memory f).process_id = 1) :=
  ⟨by decide, by decide,
    ((page_table_matches_frames Algo.FIFO [0, 1, 2, 3, 0, 1, 4, 0, 1, 2, 3, 4] (fun _ => 0)
      (init_state 3 (fun _ _ => 0))
      { pid := 1, page_table := init_page_table MAX_PAGES 8 0 (fun _ => 0), page_count := 8 }
      [{ pid := 2, page_table := init_page_table MAX_PAGES 6 0 (fun _ => 0), page_count := 6 },
        default, default, default]
      (by decide) (by decide) rfl rfl (by decide) (by decide) 12 (by decide)).1 4
      (by decide) (by decide)).1⟩


/-! ## Optimality of evicting the page used farthest in the future -/

theorem min_faults_nil (n : Nat) (S : Finset Int) : min_faults n S [] = 0 := by
  cases S; rfl

theorem min_faults_hit (n : Nat) (S : Finset Int) (p : Int) (σ : List Int) (h : p ∈ S) :
    min_faults n S (p :: σ) = min_faults n S σ := by
  rw [min_faults, if_pos h]

theorem min_faults_free (n : Nat) (S : Finset Int) (p : Int) (σ : List Int) (h : p ∉ S)
    (hc : S.card < n) : min_faults n S (p :: σ) = 1 + min_faults n (insert p S) σ := by
  rw [min_faults, if_neg h, if_pos hc]

theorem min_faults_full (n : Nat) (S : Finset Int) (p : Int) (σ : List Int) (h : p ∉ S)
    (hc : ¬ S.card < n) :
    min_faults n S (p :: σ)
      = 1 + S.fold min σ.length (fun q => min_faults n (insert p (S.erase q)) σ) := by
  rw [min_faults, if_neg h, if_neg hc]

theorem min_faults_le_length (n : Nat) (S : Finset Int) (σ : List Int) :
    min_faults n S σ ≤ σ.length := by
  induction σ generalizing S with
  | nil => rw [min_faults_nil]; exact Nat.zero_le _
  | cons p σ ih =>
    by_cases h : p ∈ S
    · rw [min_faults_hit n S p σ h, List.length_cons]
      exact Nat.le_succ_of_le (ih S)
    · by_cases hc : S.card < n
      · rw [min_faults_free n S p σ h hc, List.length_cons]
        have := ih (insert p S)
        omega
      · rw [min_faults_full n S p σ h hc, List.length_cons]
        have : S.fold min σ.length (fun q => min_faults n (insert p (S.erase q)) σ)
            ≤ σ.length := (Finset.fold_min_le _).mpr (Or.inl (Nat.le_refl _))
        omega

theorem min_faults_full_le (n : Nat) (S : Finset Int) (p q : Int) (σ : List Int) (h : p ∉ S)
    (hc : ¬ S.card < n) (hq : q ∈ S) :
    min_faults n S (p :: σ) ≤ 1 + min_faults n (insert p (S.erase q)) σ := by
  rw [min_faults_full n S p σ h hc]
  have : S.fold min σ.length (fun q => min_faults n (insert p (S.erase q)) σ)
      ≤ min_faults n (insert p (S.erase q)) σ :=
    (Finset.fold_min_le _).mpr (Or.inr ⟨q, hq, Nat.le_refl _⟩)
  omega

theorem le_min_faults_full (n : Nat) (S : Finset Int) (p : Int) (σ : List Int) (x : Nat)
    (h : p ∉ S) (hc : ¬ S.card < n) (hx : x ≤ σ.length)
    (hall : ∀ q ∈ S, x ≤ min_faults n (insert p (S.erase q)) σ) :
    1 + x ≤ min_faults n S (p :: σ) := by
  rw [min_faults_full n S p σ h hc]
  have : x ≤ S.fold min σ.length (fun q => min_faults n (insert p (S.erase q)) σ) :=
    (Finset.le_fold_min _).mpr ⟨hx, hall⟩
  omega

/-- More resident pages never cost more. -/
theorem min_faults_mono (n : Nat) (σ : List Int) :
    ∀ S T : Finset Int, S ⊆ T → T.card ≤ n → min_faults n T σ ≤ min_faults n S σ := by
  induction σ with
  | nil => intro S T _ _; rw [min_faults_nil, min_faults_nil]
  | cons r σ ih =>
    intro S T hST hT
    by_cases hrS : r ∈ S
    · rw [min_faults_hit n S r σ hrS, min_faults_hit n T r σ (hST hrS)]
      exact ih S T hST hT
    · by_cases hrT : r ∈ T
      · rw [min_faults_hit n T r σ hrT]
        by_cases hc : S.card < n
        · rw [min_faults_free n S r σ hrS hc]
          have := ih (insert r S) T (Finset.insert_subset hrT hST) hT
          omega
        · have hb := min_faults_le_length n T σ
          have := le_min_faults_full n S r σ (min_faults n T σ - 1) hrS hc (by omega) (by
            intro q hq
            have hsub : insert r (S.erase q) ⊆ T :=
              Finset.insert_subset hrT ((Finset.erase_subset q S).trans hST)
            have := ih _ T hsub hT
            omega)
          omega
      · by_cases hcT : T.card < n
        · have hcS : S.card < n := lt_of_le_of_lt (Finset.card_le_card hST) hcT
          rw [min_faults_free n S r σ hrS hcS, min_faults_free n T r σ hrT hcT]
          have := ih (insert r S) (insert r T) (Finset.insert_subset_insert r hST) (by
            rw [Finset.card_insert_of_not_mem hrT]; omega)
          omega
        · by_cases hcS : S.card < n
          · rw [min_faults_free n S r σ hrS hcS]
            have hlt : S.card < T.card := by omega
            obtain ⟨q0, hq0T, hq0S⟩ : ∃ q0, q0 ∈ T ∧ q0 ∉ S := by
              by_contra hcon
              push_neg at hcon
              have := Finset.card_le_card (show T ⊆ S from fun x hx => hcon x hx)
              omega
            have h1 := min_faults_full_le n T r q0 σ hrT hcT hq0T
            have hsub : insert r S ⊆ insert r (T.erase q0) := by
              apply Finset.insert_subset_insert
              intro x hx
              exact Finset.mem_erase.mpr ⟨fun e => hq0S (e ▸ hx), hST hx⟩
            have hcard : (insert r (T.erase q0)).card ≤ n := by
              rw [Finset.card_insert_of_not_mem (fun hx => hrT (Finset.mem_of_mem_erase hx)),
                Finset.card_erase_of_mem hq0T]
              have : 0 < T.card := Finset.card_pos.mpr ⟨q0, hq0T⟩
              omega
            have := ih _ _ hsub hcard
            omega
          · have hEq : S = T := Finset.eq_of_subset_of_card_le hST (by omega)
            rw [hEq]

theorem insert_erase_swap (C : Finset Int) (q r b : Int) (hq : q ∈ C) (hb : b ∉ C) :
    insert r ((insert b C).erase q) = insert b (insert r (C.erase q)) := by
  have hqb : q ≠ b := fun e => hb (e ▸ hq)
  ext x
  simp only [Finset.mem_insert, Finset.mem_erase]
  constructor
  · rintro (h | ⟨h1, h2 | h2⟩)
    · exact Or.inr (Or.inl h)
    · exact Or.inl h2
    · exact Or.inr (Or.inr ⟨h1, h2⟩)
  · rintro (h | h | ⟨h1, h2⟩)
    · exact Or.inr ⟨fun e => hqb (e.symm.trans h), Or.inl h⟩
    · exact Or.inl h
    · exact Or.inr ⟨h1, Or.inr h2⟩

theorem insert_erase_self (C : Finset Int) (r b : Int) (hb : b ∉ C) :
    insert r ((insert b C).erase b) = insert r C := by
  rw [Finset.erase_insert hb]

theorem insert_erase_back (C : Finset Int) (q r : Int) (hq : q ∈ C) :
    insert q (insert r (C.erase q)) = insert r C := by
  ext x
  simp only [Finset.mem_insert, Finset.mem_erase]
  constructor
  · rintro (h | h | ⟨_, h2⟩)
    · exact Or.inr (h ▸ hq)
    · exact Or.inl h
    · exact Or.inr h2
  · rintro (h | h)
    · exact Or.inr (Or.inl h)
    · by_cases hx : x = q
      · exact Or.inl hx
      · exact Or.inr (Or.inr ⟨hx, h⟩)

theorem card_insert_erase (C : Finset Int) (q r : Int) (hq : q ∈ C) (hr : r ∉ C) :
    (insert r (C.erase q)).card = C.card := by
  rw [Finset.card_insert_of_not_mem (fun hx => hr (Finset.mem_of_mem_erase hx)),
    Finset.card_erase_of_mem hq]
  have : 0 < C.card := Finset.card_pos.mpr ⟨q, hq⟩
  omega

/-- One more resident page saves at most one fault. -/
theorem min_faults_insert (n : Nat) (σ : List Int) :
    ∀ (S : Finset Int) (b : Int), b ∉ S → S.card < n →
      min_faults n S σ ≤ 1 + min_faults n (insert b S) σ := by
  induction σ with
  | nil => intro S b _ _; rw [min_faults_nil]; exact Nat.zero_le _
  | cons r σ ih =>
    intro S b hb hc
    by_cases hrS : r ∈ S
    · rw [min_faults_hit n S r σ hrS,
        min_faults_hit n (insert b S) r σ (Finset.mem_insert_of_mem hrS)]
      exact ih S b hb hc
    · rw [min_faults_free n S r σ hrS hc]
      by_cases hrb : r = b
      · subst hrb
        rw [min_faults_hit n (insert r S) r σ (Finset.mem_insert_self _ _)]
      · have hrSb : r ∉ insert b S := by
          intro hx
          rcases Finset.mem_insert.mp hx with h | h
          · exact hrb h
          · exact hrS h
        have hbr : b ∉ insert r S := by
          intro hx
          rcases Finset.mem_insert.mp hx with h | h
          · exact hrb h.symm
          · exact hb h
        have hcard : (insert b S).card = S.card + 1 := Finset.card_insert_of_not_mem hb
        by_cases hc2 : (insert b S).card < n
        · rw [min_faults_free n (insert b S) r σ hrSb hc2]
          have := ih (insert r S) b hbr (by
            rw [Finset.card_insert_of_not_mem hrS]; omega)
          rw [Finset.Insert.comm b r S] at this
          omega
        · have hb0 := min_faults_le_length n (insert r S) σ
          have := le_min_faults_full n (insert b S) r σ (min_faults n (insert r S) σ - 1)
            hrSb hc2 (by omega) (by
              intro q hq
              rcases Finset.mem_insert.mp hq with h | h
              · subst h
                rw [insert_erase_self S r q hb]
                omega
              · rw [insert_erase_swap S q r b h hb]
                have hcC : (insert r (S.erase q)).card = S.card :=
                  card_insert_erase S q r h hrS
                have h1 := min_faults_mono n σ (insert r (S.erase q))
                  (insert q (insert r (S.erase q))) (Finset.subset_insert _ _) (by
                    rw [insert_erase_back S q r h, Finset.card_insert_of_not_mem hrS]
                    omega)
                rw [insert_erase_back S q r h] at h1
                have hbC : b ∉ insert r (S.erase q) := by
                  intro hx
                  rcases Finset.mem_insert.mp hx with h2 | h2
                  · exact hrb h2.symm
                  · exact hb (Finset.mem_of_mem_erase h2)
                have h2 := ih (insert r (S.erase q)) b hbC (by omega)
                omega)
          omega

/-- Exchange: keeping the page that is referenced sooner never costs more. -/
theorem min_faults_exchange (n : Nat) (σ : List Int) :
    ∀ (C : Finset Int) (a b : Int), a ∉ C → b ∉ C → C.card < n →
      σ.indexOf a ≤ σ.indexOf b →
      min_faults n (insert a C) σ ≤ min_faults n (insert b C) σ := by
  induction σ with
  | nil => intro C a b _ _ _ _; rw [min_faults_nil, min_faults_nil]
  | cons r σ ih =>
    intro C a b ha hb hc hidx
    by_cases hab : a = b
    · rw [hab]
    have hcardA : (insert a C).card = C.card + 1 := Finset.card_insert_of_not_mem ha
    have hcardB : (insert b C).card = C.card + 1 := Finset.card_insert_of_not_mem hb
    have haB : a ∉ insert b C := by
      intro hx
      rcases Finset.mem_insert.mp hx with h | h
      · exact hab h
      · exact ha h
    have hbA : b ∉ insert a C := by
      intro hx
      rcases Finset.mem_insert.mp hx with h | h
      · exact hab h.symm
      · exact hb h
    by_cases hra : r = a
    · subst hra
      rw [min_faults_hit n (insert r C) r σ (Finset.mem_insert_self _ _)]
      by_cases hfull : (insert b C).card < n
      · rw [min_faults_free n (insert b C) r σ haB hfull]
        have := min_faults_insert n σ (insert r C) b hbA (by omega)
        rw [Finset.Insert.comm b r C] at this
        exact this
      · have hb0 := min_faults_le_length n (insert r C) σ
        have := le_min_faults_full n (insert b C) r σ (min_faults n (insert r C) σ - 1)
          haB hfull (by omega) (by
            intro q hq
            rcases Finset.mem_insert.mp hq with h | h
            · subst h
              rw [insert_erase_self C r q hb]
              omega
            · rw [insert_erase_swap C q r b h hb]
              have hcC : (insert r (C.erase q)).card = C.card := card_insert_erase C q r h ha
              have h1 := min_faults_mono n σ (insert r (C.erase q))
                (insert q (insert r (C.erase q))) (Finset.subset_insert _ _) (by
                  rw [insert_erase_back C q r h, hcardA]
                  omega)
              rw [insert_erase_back C q r h] at h1
              have hbC : b ∉ insert r (C.erase q) := by
                intro hx
                rcases Finset.mem_insert.mp hx with h2 | h2
                · exact hab h2.symm
                · exact hb (Finset.mem_of_mem_erase h2)
              have h2 := min_faults_insert n σ (insert r (C.erase q)) b hbC (by omega)
              omega)
        omega
    · have hia : (r :: σ).indexOf a = σ.indexOf a + 1 := List.indexOf_cons_ne σ hra
      by_cases hrb : r = b
      · subst hrb
        rw [List.indexOf_cons_self] at hidx
        omega
      · have hib : (r :: σ).indexOf b = σ.indexOf b + 1 := List.indexOf_cons_ne σ hrb
        have hidx2 : σ.indexOf a ≤ σ.indexOf b := by omega
        by_cases hrC : r ∈ C
        · rw [min_faults_hit n (insert a C) r σ (Finset.mem_insert_of_mem hrC),
            min_faults_hit n (insert b C) r σ (Finset.mem_insert_of_mem hrC)]
          exact ih C a b ha hb hc hidx2
        · have hrA : r ∉ insert a C := by
            intro hx
            rcases Finset.mem_insert.mp hx with h | h
            · exact hra h
            · exact hrC h
          have hrB : r ∉ insert b C := by
            intro hx
            rcases Finset.mem_insert.mp hx with h | h
            · exact hrb h
            · exact hrC h
          by_cases hfull : C.card + 1 < n
          · rw [min_faults_free n (insert a C) r σ hrA (by omega),
              min_faults_free n (insert b C) r σ hrB (by omega),
              Finset.Insert.comm r a C, Finset.Insert.comm r b C]
            have := ih (insert r C) a b
              (by
                intro hx
                rcases Finset.mem_insert.mp hx with h | h
                · exact hra h.symm
                · exact ha h)
              (by
                intro hx
                rcases Finset.mem_insert.mp hx with h | h
                · exact hrb h.symm
                · exact hb h)
              (by rw [Finset.card_insert_of_not_mem hrC]; omega) hidx2
            omega
          · have hA := min_faults_full n (insert a C) r σ hrA (by omega)
            rw [hA]
            have hfoldle : (insert a C).fold min σ.length
                (fun q => min_faults n (insert r ((insert a C).erase q)) σ) ≤ σ.length :=
              (Finset.fold_min_le _).mpr (Or.inl (Nat.le_refl _))
            have := le_min_faults_full n (insert b C) r σ
              ((insert a C).fold min σ.length
                (fun q => min_faults n (insert r ((insert a C).erase q)) σ))
              hrB (by omega) hfoldle (by
                intro q hq
                rcases Finset.mem_insert.mp hq with h | h
                · subst h
                  rw [insert_erase_self C r q hb]
                  apply (Finset.fold_min_le _).mpr
                  right
                  refine ⟨a, Finset.mem_insert_self _ _, ?_⟩
                  show min_faults n (insert r ((insert a C).erase a)) σ ≤ _
                  rw [insert_erase_self C r a ha]
                · rw [insert_erase_swap C q r b h hb]
                  apply (Finset.fold_min_le _).mpr
                  right
                  refine ⟨q, Finset.mem_insert_of_mem h, ?_⟩
                  show min_faults n (insert r ((insert a C).erase q)) σ ≤ _
                  rw [insert_erase_swap C q r a h ha]
                  apply ih (insert r (C.erase q)) a b
                  · intro hx
                    rcases Finset.mem_insert.mp hx with h2 | h2
                    · exact hra h2.symm
                    · exact ha (Finset.mem_of_mem_erase h2)
                  · intro hx
                    rcases Finset.mem_insert.mp hx with h2 | h2
                    · exact hrb h2.symm
                    · exact hb (Finset.mem_of_mem_erase h2)
                  · rw [card_insert_erase C q r h hrC]; exact hc
                  · exact hidx2)
            exact this


theorem min_faults_evict_farthest (n : Nat) (S : Finset Int) (p far : Int) (σ : List Int)
    (hp : p ∉ S) (hfull : ¬ S.card < n) (hle : S.card ≤ n) (hfar : far ∈ S)
    (hidx : ∀ q ∈ S, σ.indexOf q ≤ σ.indexOf far) :
    1 + min_faults n (insert p (S.erase far)) σ ≤ min_faults n S (p :: σ) := by
  apply le_min_faults_full n S p σ _ hp hfull (min_faults_le_length _ _ _)
  intro q hq
  by_cases hqf : q = far
  · rw [hqf]
  · have hpq : p ≠ q := fun e => hp (e ▸ hq)
    have hpf : p ≠ far := fun e => hp (e ▸ hfar)
    have e1 : insert p (S.erase far) = insert q (insert p ((S.erase far).erase q)) := by
      ext x
      simp only [Finset.mem_insert, Finset.mem_erase]
      constructor
      · rintro (h | ⟨h1, h2⟩)
        · exact Or.inr (Or.inl h)
        · by_cases hx : x = q
          · exact Or.inl hx
          · exact Or.inr (Or.inr ⟨hx, h1, h2⟩)
      · rintro (h | h | ⟨_, h2, h3⟩)
        · exact Or.inr ⟨fun e => hqf (h.symm.trans e), h ▸ hq⟩
        · exact Or.inl h
        · exact Or.inr ⟨h2, h3⟩
    have e2 : insert p (S.erase q) = insert far (insert p ((S.erase far).erase q)) := by
      ext x
      simp only [Finset.mem_insert, Finset.mem_erase]
      constructor
      · rintro (h | ⟨h1, h2⟩)
        · exact Or.inr (Or.inl h)
        · by_cases hx : x = far
          · exact Or.inl hx
          · exact Or.inr (Or.inr ⟨h1, hx, h2⟩)
      · rintro (h | h | ⟨h1, _, h3⟩)
        · exact Or.inr ⟨fun e => hqf (e.symm.trans h), h ▸ hfar⟩
        · exact Or.inl h
        · exact Or.inr ⟨h1, h3⟩
    rw [e1, e2]
    apply min_faults_exchange
    · intro hx
      rcases Finset.mem_insert.mp hx with h | h
      · exact hpq h.symm
      · exact (Finset.mem_erase.mp h).1 rfl
    · intro hx
      rcases Finset.mem_insert.mp hx with h | h
      · exact hpf h.symm
      · exact (Finset.mem_erase.mp (Finset.mem_of_mem_erase h)).1 rfl
    · have hq2 : q ∈ S.erase far := Finset.mem_erase.mpr ⟨hqf, hq⟩
      have h1 : ((S.erase far).erase q).card = (S.erase far).card - 1 :=
        Finset.card_erase_of_mem hq2
      have h2 : (S.erase far).card = S.card - 1 := Finset.card_erase_of_mem hfar
      have h3 : 0 < (S.erase far).card := Finset.card_pos.mpr ⟨q, hq2⟩
      have h4 := Finset.card_insert_le p ((S.erase far).erase q)
      omega
    · exact hidx q hq

/-! ### From the frame table to the resident set -/

theorem mem_resident {mem : List Frame} {p : Int} : p ∈ resident mem ↔ some p ∈ slots mem := by
  unfold resident
  rw [List.mem_toFinset, List.reduceOption_mem_iff]

theorem toFinset_set_none (sl : List (Option Int)) (f : Nat) (p : Int)
    (h : sl[f]? = some none) :
    (sl.set f (some p)).reduceOption.toFinset = insert p sl.reduceOption.toFinset := by
  induction sl generalizing f with
  | nil => simp at h
  | cons a rest ih =>
    cases f with
    | zero =>
      simp only [List.getElem?_cons_zero, Option.some.injEq] at h
      subst h
      rw [List.set_cons_zero, List.reduceOption_cons_of_some, List.reduceOption_cons_of_none,
        List.toFinset_cons]
    | succ f =>
      simp only [List.getElem?_cons_succ] at h
      rw [List.set_cons_succ]
      cases a with
      | none =>
        rw [List.reduceOption_cons_of_none, List.reduceOption_cons_of_none]
        exact ih f h
      | some y =>
        rw [List.reduceOption_cons_of_some, List.reduceOption_cons_of_some, List.toFinset_cons,
          List.toFinset_cons, ih f h, Finset.Insert.comm]

theorem toFinset_set_some (sl : List (Option Int)) (f : Nat) (p q : Int)
    (hnd : sl.reduceOption.Nodup) (h : sl[f]? = some (some q)) :
    (sl.set f (some p)).reduceOption.toFinset
      = insert p (sl.reduceOption.toFinset.erase q) := by
  induction sl generalizing f with
  | nil => simp at h
  | cons a rest ih =>
    cases f with
    | zero =>
      simp only [List.getElem?_cons_zero, Option.some.injEq] at h
      subst h
      rw [List.reduceOption_cons_of_some] at hnd
      have hq : q ∉ rest.reduceOption.toFinset := by
        rw [List.mem_toFinset]
        exact (List.nodup_cons.mp hnd).1
      rw [List.set_cons_zero, List.reduceOption_cons_of_some, List.reduceOption_cons_of_some,
        List.toFinset_cons, List.toFinset_cons, Finset.erase_insert hq]
    | succ f =>
      simp only [List.getElem?_cons_succ] at h
      rw [List.set_cons_succ]
      cases a with
      | none =>
        rw [List.reduceOption_cons_of_none] at hnd ⊢
        rw [List.reduceOption_cons_of_none]
        exact ih f hnd h
      | some y =>
        rw [List.reduceOption_cons_of_some] at hnd ⊢
        rw [List.reduceOption_cons_of_some]
        have hy : y ≠ q := by
          intro e
          apply (List.nodup_cons.mp hnd).1
          rw [e]
          exact List.reduceOption_mem_iff.mpr (List.getElem?_mem h)
        rw [List.toFinset_cons, List.toFinset_cons, ih f (List.nodup_cons.mp hnd).2 h,
          Finset.erase_insert_of_ne hy, Finset.Insert.comm]

theorem card_resident_lt {mem : List Frame} (h : none ∈ slots mem) :
    (resident mem).card < mem.length := by
  unfold resident
  have h1 := List.toFinset_card_le (slots mem).reduceOption
  have h2 : (slots mem).reduceOption.length < (slots mem).length :=
    List.reduceOption_length_lt_iff.mpr h
  rw [slots_length] at h2
  omega

theorem card_resident_full {mem : List Frame} (h : none ∉ slots mem)
    (hnd : (slots mem).reduceOption.Nodup) : (resident mem).card = mem.length := by
  unfold resident
  rw [List.toFinset_card_of_nodup hnd]
  have h2 : (slots mem).reduceOption.length = (slots mem).length := by
    apply List.reduceOption_length_eq_iff.mpr
    intro x hx
    cases x with
    | none => exact absurd hx h
    | some y => rfl
  rw [h2, slots_length]

theorem card_resident_le (mem : List Frame) : (resident mem).card ≤ mem.length := by
  unfold resident
  have h1 := List.toFinset_card_le (slots mem).reduceOption
  have h2 := List.reduceOption_length_le (slots mem)
  rw [slots_length] at h2
  omega

theorem slots_full_getElem? {sl : List (Option Int)} (h : none ∉ sl) {v : Nat}
    (hv : v < sl.length) : ∃ q, sl[v]? = some (some q) := by
  rw [List.getElem?_eq_getElem hv]
  cases hq : sl[v] with
  | none =>
    exfalso
    apply h
    rw [← hq]
    exact List.getElem_mem hv
  | some q => exact ⟨q, rfl⟩

theorem drop_eq_getD_cons (refs : List Int) (k : Nat) (h : k < refs.length) :
    refs.drop k = refs.getD k 0 :: refs.drop (k + 1) := by
  rw [List.getD_eq_getElem?_getD, List.getElem?_eq_getElem h]
  exact List.drop_eq_getElem_cons h


/-- Every strategy pays at least `min_faults` on the rest of the string. -/
theorem min_faults_le_run (algo : Algo) (refs : List Int) (rnd : Nat → Int) (s : SimState)
    (hn : 1 ≤ s.frame_count) (d : Nat) :
    ∀ k, k + d = refs.length →
      (min_faults s.frame_count
          (resident (sim_steps algo refs rnd (sim_reset s) k).physical_memory)
          (refs.drop k) : Int)
        ≤ (sim_steps algo refs rnd (sim_reset s) refs.length).page_faults
          - (sim_steps algo refs rnd (sim_reset s) k).page_faults := by
  induction d with
  | zero =>
    intro k hk
    have : k = refs.length := by omega
    rw [this, List.drop_length, min_faults_nil]
    simp
  | succ d ih =>
    intro k hk
    have hklt : k < refs.length := by omega
    have hih := ih (k + 1) (by omega)
    rw [sim_steps] at hih
    rw [drop_eq_getD_cons refs k hklt]
    have hnd := sim_steps_nodup algo refs rnd s k
    have hcur := sim_steps_cursors algo refs rnd (sim_reset s) (sim_reset_cursors s hn) k
    have hfc : (sim_steps algo refs rnd (sim_reset s) k).frame_count = s.frame_count := by
      rw [sim_steps_frame_count, sim_reset_frame_count]
    generalize sim_steps algo refs rnd (sim_reset s) k = t at *
    have hlen : t.physical_memory.length = s.frame_count := hfc
    rcases sim_step_slots algo refs rnd k t with ⟨h0, h1, h2⟩ | ⟨h0, h2, f, hf, hnone, h1⟩ |
      ⟨h0, hfull, h2, h1⟩
    · have hres : resident (sim_step algo refs rnd k t).physical_memory
          = resident t.physical_memory := by
        unfold resident; rw [h1]
      rw [hres, h2] at hih
      rw [min_faults_hit _ _ _ _ (mem_resident.mpr h0)]
      exact hih
    · have hres : resident (sim_step algo refs rnd k t).physical_memory
          = insert (refs.getD k 0) (resident t.physical_memory) := by
        unfold resident; rw [h1]; exact toFinset_set_none _ _ _ hnone
      rw [hres, h2] at hih
      have hc : (resident t.physical_memory).card < s.frame_count := by
        rw [← hlen]
        exact card_resident_lt (List.getElem?_mem hnone)
      rw [min_faults_free _ _ _ _ (fun hx => h0 (mem_resident.mp hx)) hc]
      push_cast
      omega
    · have hv := (select_victim_lt algo refs k (tick_fault t) hcur.1 hcur.2).1
      have hv2 : (select_victim algo refs k (tick_fault t)).1 < (slots t.physical_memory).length := by
        rw [slots_length]; exact hv
      obtain ⟨q, hq⟩ := slots_full_getElem? hfull hv2
      have hres : resident (sim_step algo refs rnd k t).physical_memory
          = insert (refs.getD k 0) ((resident t.physical_memory).erase q) := by
        unfold resident; rw [h1]; exact toFinset_set_some _ _ _ _ hnd hq
      rw [hres, h2] at hih
      have hc : ¬ (resident t.physical_memory).card < s.frame_count := by
        rw [card_resident_full hfull hnd, hlen]; omega
      have hqmem : q ∈ resident t.physical_memory := mem_resident.mpr (List.getElem?_mem hq)
      have := min_faults_full_le s.frame_count _ (refs.getD k 0) q (refs.drop (k + 1))
        (fun hx => h0 (mem_resident.mp hx)) hc hqmem
      have h3 : (min_faults s.frame_count (resident t.physical_memory)
          (refs.getD k 0 :: refs.drop (k + 1)) : Int)
          ≤ 1 + (min_faults s.frame_count
            (insert (refs.getD k 0) ((resident t.physical_memory).erase q))
            (refs.drop (k + 1)) : Int) := by exact_mod_cast this
      omega

/-! ### What `optimal_replacement` selects -/

theorem next_use_scan_eq (page : Int) (l : List Int) (j dflt : Nat) :
    next_use_scan page l j dflt = if page ∈ l then j + l.indexOf page else dflt := by
  induction l generalizing j with
  | nil => simp [next_use_scan]
  | cons r rest ih =>
    by_cases h : r = page
    · rw [next_use_scan, if_pos h, h, if_pos (List.mem_cons_self _ _), List.indexOf_cons_self]
      rfl
    · rw [next_use_scan, if_neg h, ih, List.indexOf_cons_ne rest h]
      by_cases hm : page ∈ rest
      · rw [if_pos hm, if_pos (List.mem_cons_of_mem _ hm)]
        omega
      · rw [if_neg hm, if_neg]
        intro hx
        rcases List.mem_cons.mp hx with h1 | h1
        · exact h h1.symm
        · exact hm h1

theorem indexOf_le_of_next_use_le (refs : List Int) (cur : Nat) (hcur : cur ≤ refs.length)
    (q far : Int) (h : next_use refs cur q ≤ next_use refs cur far) :
    (refs.drop cur).indexOf q ≤ (refs.drop cur).indexOf far := by
  unfold next_use at h
  rw [next_use_scan_eq, next_use_scan_eq] at h
  have hlen : (refs.drop cur).length = refs.length - cur := List.length_drop cur refs
  by_cases hf : far ∈ refs.drop cur
  · rw [if_pos hf] at h
    have hlt : (refs.drop cur).indexOf far < (refs.drop cur).length :=
      List.indexOf_lt_length.mpr hf
    by_cases hq : q ∈ refs.drop cur
    · rw [if_pos hq] at h
      omega
    · rw [if_neg hq] at h
      omega
  · rw [List.indexOf_eq_length.mpr hf]
    exact List.indexOf_le_length

theorem optimal_loop_spec (refs : List Int) (cur : Nat) (mem : List Frame) :
    ∀ (i a : Nat) (b : Int),
      b ≤ (optimal_loop refs cur mem i (a, b)).2 ∧
      (∀ fr ∈ mem, fr.occupied ≠ 0 →
        (next_use refs cur fr.page_no : Int) ≤ (optimal_loop refs cur mem i (a, b)).2) ∧
      (optimal_loop refs cur mem i (a, b) = (a, b) ∨
        ∃ j, j < mem.length ∧ (optimal_loop refs cur mem i (a, b)).1 = i + j ∧
          (frameAt mem j).occupied ≠ 0 ∧
          (next_use refs cur (frameAt mem j).page_no : Int)
            = (optimal_loop refs cur mem i (a, b)).2) := by
  induction mem with
  | nil =>
    intro i a b
    exact ⟨le_refl _, fun fr hfr => absurd hfr (List.not_mem_nil _), Or.inl rfl⟩
  | cons fr rest ih =>
    intro i a b
    by_cases ho : fr.occupied ≠ 0
    · by_cases hgt : (next_use refs cur fr.page_no : Int) > b
      · rw [optimal_loop, if_pos ho, if_pos hgt]
        obtain ⟨h1, h2, h3⟩ := ih (i + 1) i (next_use refs cur fr.page_no : Int)
        refine ⟨by omega, ?_, ?_⟩
        · intro fr2 hfr2 ho2
          rcases List.mem_cons.mp hfr2 with e | e
          · rw [e]; exact h1
          · exact h2 fr2 e ho2
        · right
          rcases h3 with e | ⟨j, e1, e2, e3, e4⟩
          · refine ⟨0, by simp, ?_, by simpa using ho, ?_⟩
            · rw [e]; rfl
            · rw [e]; rfl
          · exact ⟨j + 1, by simpa using e1, by omega, by simpa using e3, by simpa using e4⟩
      · rw [optimal_loop, if_pos ho, if_neg hgt]
        obtain ⟨h1, h2, h3⟩ := ih (i + 1) a b
        refine ⟨h1, ?_, ?_⟩
        · intro fr2 hfr2 ho2
          rcases List.mem_cons.mp hfr2 with e | e
          · rw [e]; omega
          · exact h2 fr2 e ho2
        · rcases h3 with e | ⟨j, e1, e2, e3, e4⟩
          · exact Or.inl e
          · exact Or.inr ⟨j + 1, by simpa using e1, by omega, by simpa using e3,
              by simpa using e4⟩
    · rw [optimal_loop, if_neg ho]
      obtain ⟨h1, h2, h3⟩ := ih (i + 1) a b
      refine ⟨h1, ?_, ?_⟩
      · intro fr2 hfr2 ho2
        rcases List.mem_cons.mp hfr2 with e | e
        · rw [e] at ho2; exact absurd ho2 ho
        · exact h2 fr2 e ho2
      · rcases h3 with e | ⟨j, e1, e2, e3, e4⟩
        · exact Or.inl e
        · exact Or.inr ⟨j + 1, by simpa using e1, by omega, by simpa using e3,
            by simpa using e4⟩

/-- With every frame occupied, `optimal_replacement` returns a frame whose
page has the largest `next_use`. -/
theorem optimal_replacement_farthest (s : SimState) (refs : List Int) (cur : Nat)
    (hn : 1 ≤ s.frame_count) (hfull : none ∉ slots s.physical_memory) :
    optimal_replacement s refs cur < s.frame_count ∧
      ∀ j, j < s.frame_count →
        next_use refs cur (frameAt s.physical_memory j).page_no
          ≤ next_use refs cur
              (frameAt s.physical_memory (optimal_replacement s refs cur)).page_no := by
  have hocc := all_occupied_of_none_not_mem hfull
  obtain ⟨h1, h2, h3⟩ := optimal_loop_spec refs cur s.physical_memory 0 0 (-1)
  have h0 := h2 _ (frameAt_mem (show 0 < s.physical_memory.length from hn)) (hocc 0 hn)
  unfold optimal_replacement
  rcases h3 with e | ⟨j, e1, e2, e3, e4⟩
  · rw [e] at h0
    have : (0 : Int) ≤ (next_use refs cur (frameAt s.physical_memory 0).page_no : Int) :=
      Int.natCast_nonneg _
    omega
  · rw [e2, Nat.zero_add]
    refine ⟨e1, ?_⟩
    intro j2 hj2
    have := h2 _ (frameAt_mem (show j2 < s.physical_memory.length from hj2)) (hocc j2 hj2)
    rw [← e4] at this
    exact_mod_cast this


/-- The Optimal run pays no more than `min_faults` on the rest of the string. -/
theorem optimal_run_le_min_faults (refs : List Int) (rnd : Nat → Int) (s : SimState)
    (hn : 1 ≤ s.frame_count) (d : Nat) :
    ∀ k, k + d = refs.length →
      (sim_steps Algo.Optimal refs rnd (sim_reset s) refs.length).page_faults
          - (sim_steps Algo.Optimal refs rnd (sim_reset s) k).page_faults
        ≤ (min_faults s.frame_count
            (resident (sim_steps Algo.Optimal refs rnd (sim_reset s) k).physical_memory)
            (refs.drop k) : Int) := by
  induction d with
  | zero =>
    intro k hk
    have : k = refs.length := by omega
    rw [this, List.drop_length, min_faults_nil]
    simp
  | succ d ih =>
    intro k hk
    have hklt : k < refs.length := by omega
    have hih := ih (k + 1) (by omega)
    rw [sim_steps] at hih
    rw [drop_eq_getD_cons refs k hklt]
    have hnd := sim_steps_nodup Algo.Optimal refs rnd s k
    have hfc : (sim_steps Algo.Optimal refs rnd (sim_reset s) k).frame_count
        = s.frame_count := by
      rw [sim_steps_frame_count, sim_reset_frame_count]
    generalize sim_steps Algo.Optimal refs rnd (sim_reset s) k = t at *
    have hlen : t.physical_memory.length = s.frame_count := hfc
    rcases sim_step_slots Algo.Optimal refs rnd k t with ⟨h0, h1, h2⟩ |
      ⟨h0, h2, f, hf, hnone, h1⟩ | ⟨h0, hfull, h2, h1⟩
    · have hres : resident (sim_step Algo.Optimal refs rnd k t).physical_memory
          = resident t.physical_memory := by
        unfold resident; rw [h1]
      rw [hres, h2] at hih
      rw [min_faults_hit _ _ _ _ (mem_resident.mpr h0)]
      exact hih
    · have hres : resident (sim_step Algo.Optimal refs rnd k t).physical_memory
          = insert (refs.getD k 0) (resident t.physical_memory) := by
        unfold resident; rw [h1]; exact toFinset_set_none _ _ _ hnone
      rw [hres, h2] at hih
      have hc : (resident t.physical_memory).card < s.frame_count := by
        rw [← hlen]
        exact card_resident_lt (List.getElem?_mem hnone)
      rw [min_faults_free _ _ _ _ (fun hx => h0 (mem_resident.mp hx)) hc]
      push_cast
      omega
    · have hsel : (select_victim Algo.Optimal refs k (tick_fault t)).1
          = optimal_replacement (tick_fault t) refs (k + 1) := rfl
      rw [hsel] at h1
      obtain ⟨hv, hfar⟩ := optimal_replacement_farthest (tick_fault t) refs (k + 1)
        (by rw [tick_fault_frame_count, hfc]; exact hn) hfull
      rw [tick_fault_frame_count] at hv hfar
      rw [tick_fault_physical_memory] at hfar
      generalize optimal_replacement (tick_fault t) refs (k + 1) = v at *
      have hv2 : v < t.physical_memory.length := hv
      have hocc := all_occupied_of_none_not_mem hfull
      have hq : (slots t.physical_memory)[v]? = some (some (frameAt t.physical_memory v).page_no) := by
        rw [slots_getElem? _ _ hv2, slot_eq_some.mpr ⟨hocc v hv2, rfl⟩]
      have hres : resident (sim_step Algo.Optimal refs rnd k t).physical_memory
          = insert (refs.getD k 0)
              ((resident t.physical_memory).erase (frameAt t.physical_memory v).page_no) := by
        unfold resident; rw [h1]; exact toFinset_set_some _ _ _ _ hnd hq
      rw [hres, h2] at hih
      have hc : ¬ (resident t.physical_memory).card < s.frame_count := by
        rw [card_resident_full hfull hnd, hlen]; omega
      have hle : (resident t.physical_memory).card ≤ s.frame_count := by
        rw [← hlen]; exact card_resident_le _
      have hqmem : (frameAt t.physical_memory v).page_no ∈ resident t.physical_memory :=
        mem_resident.mpr (List.getElem?_mem hq)
      have hidx : ∀ q ∈ resident t.physical_memory,
          (refs.drop (k + 1)).indexOf q
            ≤ (refs.drop (k + 1)).indexOf (frameAt t.physical_memory v).page_no := by
        intro q hqr
        obtain ⟨fr, hfr, _, hpage⟩ := some_mem_slots.mp (mem_resident.mp hqr)
        obtain ⟨j, hj, hjeq⟩ := exists_frameAt_of_mem hfr
        apply indexOf_le_of_next_use_le refs (k + 1) (by omega)
        have := hfar j hj
        rw [hjeq, hpage] at this
        exact this
      have := min_faults_evict_farthest s.frame_count _ (refs.getD k 0) _ (refs.drop (k + 1))
        (fun hx => h0 (mem_resident.mp hx)) hc hle hqmem hidx
      have h3 : 1 + (min_faults s.frame_count
            (insert (refs.getD k 0)
              ((resident t.physical_memory).erase (frameAt t.physical_memory v).page_no))
            (refs.drop (k + 1)) : Int)
          ≤ (min_faults s.frame_count (resident t.physical_memory)
            (refs.getD k 0 :: refs.drop (k + 1)) : Int) := by exact_mod_cast this
      omega

theorem optimal_le_any (algo : Algo) (refs : List Int) (rnd1 rnd2 : Nat → Int) (s : SimState)
    (hn : 1 ≤ s.frame_count) :
    (simulate_page_replacement Algo.Optimal refs rnd1 s).page_faults
      ≤ (simulate_page_replacement algo refs rnd2 s).page_faults := by
  have h1 := optimal_run_le_min_faults refs rnd1 s hn refs.length 0 (by omega)
  have h2 := min_faults_le_run algo refs rnd2 s hn refs.length 0 (by omega)
  have e1 : (sim_steps Algo.Optimal refs rnd1 (sim_reset s) 0) = sim_reset s := rfl
  have e2 : (sim_steps algo refs rnd2 (sim_reset s) 0) = sim_reset s := rfl
  rw [e1] at h1
  rw [e2] at h2
  have e3 : (sim_reset s).page_faults = 0 := rfl
  rw [e3] at h1 h2
  unfold simulate_page_replacement
  omega

/-- C2: for every frame count `n >= 1` and every reference string (in
particular one whose pages lie in `[0, page_count)`), the run with the Optimal
strategy, which calls `optimal_replacement` with `current_index = i + 1`,
ends with no more page faults than the run with FIFO, with LRU and with Clock
on the same frame count and reference string. -/
theorem optimal_faults_le_fifo_lru_clock (refs : List Int) (rnd : Nat → Int) (s : SimState)
    (hn : 1 ≤ s.frame_count) :
    (simulate_page_replacement Algo.Optimal refs rnd s).page_faults
      ≤ (simulate_page_replacement Algo.FIFO refs rnd s).page_faults ∧
    (simulate_page_replacement Algo.Optimal refs rnd s).page_faults
      ≤ (simulate_page_replacement Algo.LRU refs rnd s).page_faults ∧
    (simulate_page_replacement Algo.Optimal refs rnd s).page_faults
      ≤ (simulate_page_replacement Algo.Clock refs rnd s).page_faults :=
  ⟨optimal_le_any Algo.FIFO refs rnd rnd s hn, optimal_le_any Algo.LRU refs rnd rnd s hn,
    optimal_le_any Algo.Clock refs rnd rnd s hn⟩

theorem optimal_faults_le_fifo_lru_clock_witness :
    1 ≤ (init_state 3 (fun _ _ => 0)).frame_count ∧
    (simulate_page_replacement Algo.Optimal [0, 1, 2, 3, 0, 1, 4, 0, 1, 2, 3, 4] (fun _ => 0)
        (init_state 3 (fun _ _ => 0))).page_faults
      ≤ (simulate_page_replacement Algo.FIFO [0, 1, 2, 3, 0, 1, 4, 0, 1, 2, 3, 4] (fun _ => 0)
        (init_state 3 (fun _ _ => 0))).page_faults :=
  ⟨by decide,
    (optimal_faults_le_fifo_lru_clock [0, 1, 2, 3, 0, 1, 4, 0, 1, 2, 3, 4] (fun _ => 0)
      (init_state 3 (fun _ _ => 0)) (by decide)).1⟩


/-! ## Configuration input is clamped -/

theorem fresh_frames_length (k i : Nat) : (fresh_frames k i).length = k := by
  induction k generalizing i with
  | zero => rfl
  | succ k ih => simp [fresh_frames, ih]

theorem read_frame_count_some (x : Int) :
    read_frame_count (some x) = if x < 3 then 3 else if x > 20 then 20 else x := by
  unfold read_frame_count
  simp only []
  split_ifs <;> omega

theorem tlb_configure_tlb_size (x : Int) (h m l : Option Int) :
    (tlb_configure (some x) h m l).tlb_size
      = if x < 2 then 2 else if x > 32 then 32 else x := by
  unfold tlb_configure
  simp only []
  split_ifs <;> omega

/-- C18: the frame count configured by `setup_memory_frames` for input `x` is
`x` when `3 <= x <= 20`, 3 below and 20 above (and that many frames are
allocated when `malloc` succeeds); the TLB capacity configured by
`simulate_tlb_system` is `x` when `2 <= x <= 32`, 2 below and 32 above; both
results lie within their inclusive bounds and clamping a clamped value changes
nothing. -/
theorem config_clamped (x : Int) :
    (read_frame_count (some x) = if x < 3 then 3 else if x > 20 then 20 else x) ∧
    (3 ≤ read_frame_count (some x) ∧ read_frame_count (some x) ≤ 20) ∧
    (3 ≤ x → x ≤ 20 → read_frame_count (some x) = x) ∧
    read_frame_count (some (read_frame_count (some x))) = read_frame_count (some x) ∧
    (∀ s : SimState,
      ((setup_memory_frames (some x) true s).frame_count : Int) = read_frame_count (some x)) ∧
    (∀ h m l : Option Int,
      (tlb_configure (some x) h m l).tlb_size
        = if x < 2 then 2 else if x > 32 then 32 else x) ∧
    (∀ h m l : Option Int,
      2 ≤ (tlb_configure (some x) h m l).tlb_size ∧
      (tlb_configure (some x) h m l).tlb_size ≤ 32) ∧
    (∀ h m l : Option Int, 2 ≤ x → x ≤ 32 → (tlb_configure (some x) h m l).tlb_size = x) ∧
    (∀ h m l : Option Int,
      (tlb_configure (some (tlb_configure (some x) h m l).tlb_size) h m l).tlb_size
        = (tlb_configure (some x) h m l).tlb_size) := by
  have hf := read_frame_count_some x
  have hf2 := read_frame_count_some (read_frame_count (some x))
  refine ⟨hf, ?_, ?_, ?_, ?_, ?_, ?_, ?_, ?_⟩
  · rw [hf]; split_ifs <;> omega
  · intro h1 h2; rw [hf]; split_ifs <;> omega
  · rw [hf2, hf]; split_ifs <;> omega
  · intro s
    have h3 : 3 ≤ read_frame_count (some x) := by rw [hf]; split_ifs <;> omega
    show (((fresh_frames (read_frame_count (some x)).toNat 0).length : Nat) : Int) = _
    rw [fresh_frames_length]
    omega
  · intro h m l; exact tlb_configure_tlb_size x h m l
  · intro h m l
    rw [tlb_configure_tlb_size]; split_ifs <;> omega
  · intro h m l h1 h2
    rw [tlb_configure_tlb_size]; split_ifs <;> omega
  · intro h m l
    rw [tlb_configure_tlb_size (tlb_configure (some x) h m l).tlb_size,
      tlb_configure_tlb_size x]
    split_ifs <;> omega

/-- C19 (the code at the failing input): `simulate_tlb_system` uses the
reference-string length exactly as entered; for the input 0 the length is 0,
below the documented lower bound 5, and the simulation loop runs zero times.
The capacity entered in the same prompt sequence is clamped. -/
theorem ref_len_not_clamped :
    (tlb_configure (some 1) (some 10) (some 100) (some 0)).ref_len = 0 ∧
    ¬ (5 ≤ (tlb_configure (some 1) (some 10) (some 100) (some 0)).ref_len) ∧
    (tlb_configure (some 1) (some 10) (some 100) (some 0)).tlb_size = 2 ∧
    (tlb_configure (some 4) (some 10) (some 100) (some (-3))).ref_len = -3 ∧
    (tlb_configure (some 4) (some 10) (some 100) (some 1000)).ref_len = 1000 ∧
    (∀ x : Int, ∀ s h m : Option Int, (tlb_configure s h m (some x)).ref_len = x) ∧
    (simulate_tlb_system (some 4) (some 10) (some 100) (some 0) []).tlb_hits
      + (simulate_tlb_system (some 4) (some 10) (some 100) (some 0) []).tlb_misses = 0 := by
  refine ⟨by decide, by decide, by decide, by decide, by decide, ?_, by decide⟩
  intro x s h m
  rfl


/-! ## Paging translation -/

theorem int32_of_range (x : Int) (h0 : -2147483648 ≤ x) (h1 : x < 2147483648) : int32 x = x := by
  unfold int32
  omega

/-- C17: for a logical address `a >= 0` and a process with page count `c`,
`simulate_paging` computes `page = a / 4096` and `offset = a mod 4096`, so
`page * 4096 + offset = a` and `0 <= offset < 4096`; the outcome is
InvalidAddress iff `page >= c`; otherwise it is PageFault iff the entry of
`page` is invalid; otherwise it is the physical address
`frame_no * 4096 + offset` (for a frame number in the range where the C
arithmetic does not overflow), whose quotient by 4096 is `frame_no` and whose
remainder is `offset`. -/
theorem paging_translation (pr : Process) (a : Int) (ha : 0 ≤ a) :
    (simulate_paging pr a).page_no = a / 4096 ∧
    (simulate_paging pr a).offset = a % 4096 ∧
    (simulate_paging pr a).page_no * 4096 + (simulate_paging pr a).offset = a ∧
    0 ≤ (simulate_paging pr a).offset ∧ (simulate_paging pr a).offset < 4096 ∧
    ((simulate_paging pr a).outcome = PagingOutcome.InvalidAddress ↔
      (simulate_paging pr a).page_no ≥ pr.page_count) ∧
    ((simulate_paging pr a).page_no < pr.page_count →
      ((simulate_paging pr a).outcome = PagingOutcome.PageFault ↔
        (pteAt pr.page_table (simulate_paging pr a).page_no).valid = 0)) ∧
    ((simulate_paging pr a).page_no < pr.page_count →
      (pteAt pr.page_table (simulate_paging pr a).page_no).valid ≠ 0 →
      0 ≤ (pteAt pr.page_table (simulate_paging pr a).page_no).frame_no →
      (pteAt pr.page_table (simulate_paging pr a).page_no).frame_no < 524288 →
      (simulate_paging pr a).outcome
        = PagingOutcome.Physical
            ((pteAt pr.page_table (simulate_paging pr a).page_no).frame_no * 4096
              + (simulate_paging pr a).offset) ∧
      ((pteAt pr.page_table (simulate_paging pr a).page_no).frame_no * 4096
          + (simulate_paging pr a).offset) / 4096
        = (pteAt pr.page_table (simulate_paging pr a).page_no).frame_no ∧
      ((pteAt pr.page_table (simulate_paging pr a).page_no).frame_no * 4096
          + (simulate_paging pr a).offset) % 4096
        = (simulate_paging pr a).offset) := by
  have hd : a.tdiv (PAGE_SIZE * 1024) = a / 4096 := Int.tdiv_eq_ediv ha (by decide)
  have hm : a.tmod (PAGE_SIZE * 1024) = a % 4096 := Int.tmod_eq_emod ha (by decide)
  have hpage : (simulate_paging pr a).page_no = a / 4096 := by
    unfold simulate_paging
    simp only [hd]
    split_ifs <;> rfl
  have hoff : (simulate_paging pr a).offset = a % 4096 := by
    unfold simulate_paging
    simp only [hm]
    split_ifs <;> rfl
  have hout : (simulate_paging pr a).outcome
      = if a / 4096 < pr.page_count then
          if (pteAt pr.page_table (a / 4096)).valid ≠ 0 then
            PagingOutcome.Physical
              (int32 (int32 (int32 ((pteAt pr.page_table (a / 4096)).frame_no * PAGE_SIZE) * 1024)
                + a % 4096))
          else PagingOutcome.PageFault
        else PagingOutcome.InvalidAddress := by
    unfold simulate_paging
    simp only [hd, hm]
    split_ifs <;> rfl
  rw [hpage, hoff, hout]
  refine ⟨rfl, rfl, by omega, by omega, by omega, ?_, ?_, ?_⟩
  · constructor
    · intro h
      by_contra hc
      rw [if_pos (by omega)] at h
      split_ifs at h
    · intro h
      rw [if_neg (by omega)]
  · intro hlt
    rw [if_pos hlt]
    constructor
    · intro h
      by_contra hc
      rw [if_pos hc] at h
      cases h
    · intro h
      rw [if_neg (by simp [h])]
  · intro hlt hv hf0 hf1
    rw [if_pos hlt, if_pos hv]
    have e1 : int32 ((pteAt pr.page_table (a / 4096)).frame_no * PAGE_SIZE)
        = (pteAt pr.page_table (a / 4096)).frame_no * 4 :=
      int32_of_range _ (by unfold PAGE_SIZE; omega) (by unfold PAGE_SIZE; omega)
    have e2 : int32 ((pteAt pr.page_table (a / 4096)).frame_no * 4 * 1024)
        = (pteAt pr.page_table (a / 4096)).frame_no * 4096 := by
      rw [int32_of_range _ (by omega) (by omega)]
      ring
    have e3 : int32 ((pteAt pr.page_table (a / 4096)).frame_no * 4096 + a % 4096)
        = (pteAt pr.page_table (a / 4096)).frame_no * 4096 + a % 4096 :=
      int32_of_range _ (by omega) (by omega)
    rw [e1, e2, e3]
    refine ⟨rfl, by omega, by omega⟩

theorem paging_translation_witness :
    (0 : Int) ≤ 8200 ∧
    (simulate_paging
      { pid := 1, page_count := 8,
        page_table := [default, default,
          { page_no := 2, valid := 1, frame_no := 3, last_used := 1, reference_bit := 1,
            modify_bit := 0 }] } 8200).outcome = PagingOutcome.Physical 12296 :=
  ⟨by decide,
    ((paging_translation
      { pid := 1, page_count := 8,
        page_table := [default, default,
          { page_no := 2, valid := 1, frame_no := 3, last_used := 1, reference_bit := 1,
            modify_bit := 0 }] } 8200 (by decide)).2.2.2.2.2.2.2
      (by decide) (by decide) (by decide) (by decide)).1⟩


/-! ## `update_tlb` and `search_tlb` -/

@[simp] theorem tlbAt_cons_zero (e : TLBEntry) (l : List TLBEntry) : tlbAt (e :: l) 0 = e := rfl

theorem empty_slot_from_none (l : List TLBEntry) (k i : Nat) :
    empty_slot_from l k i = -1 ↔
      ∀ j, j < k → j < l.length → (tlbAt l j).valid ≠ 0 := by
  induction l generalizing k i with
  | nil =>
    constructor
    · intro _ j _ hj; simp at hj
    · intro _; cases k <;> rfl
  | cons e rest ih =>
    cases k with
    | zero =>
      constructor
      · intro _ j hj; omega
      · intro _; rfl
    | succ k =>
      by_cases he : e.valid = 0
      · rw [empty_slot_from, if_pos he]
        constructor
        · intro h; omega
        · intro h
          exact absurd he (h 0 (by omega) (by simp))
      · rw [empty_slot_from, if_neg he, ih k (i + 1)]
        constructor
        · intro h j hj hjl
          cases j with
          | zero => simpa using he
          | succ j => simpa using h j (by omega) (by simpa using hjl)
        · intro h j hj hjl
          simpa using h (j + 1) (by omega) (by simpa using hjl)

theorem empty_slot_from_some (l : List TLBEntry) (k i : Nat)
    (h : empty_slot_from l k i ≠ -1) :
    ∃ f : Nat, empty_slot_from l k i = ((i + f : Nat) : Int) ∧ f < k ∧ f < l.length ∧
      (tlbAt l f).valid = 0 ∧ ∀ j, j < f → (tlbAt l j).valid ≠ 0 := by
  induction l generalizing k i with
  | nil => cases k <;> exact absurd rfl h
  | cons e rest ih =>
    cases k with
    | zero => exact absurd rfl h
    | succ k =>
      by_cases he : e.valid = 0
      · refine ⟨0, ?_, by omega, by simp, by simpa using he, fun j hj => by omega⟩
        rw [empty_slot_from, if_pos he]
        rfl
      · rw [empty_slot_from, if_neg he] at h ⊢
        obtain ⟨f, h1, h2, h3, h4, h5⟩ := ih k (i + 1) h
        refine ⟨f + 1, ?_, by omega, by simpa using h3, by simpa using h4, ?_⟩
        · rw [h1]; congr 1; omega
        · intro j hj
          cases j with
          | zero => simpa using he
          | succ j => simpa using h5 j (by omega)

theorem tlb_lru_loop_spec (l : List TLBEntry) :
    ∀ (k i a : Nat) (m : Int),
      (tlb_lru_loop l k i (a, m)).2 ≤ m ∧
      (∀ j, j < k → j < l.length → (tlb_lru_loop l k i (a, m)).2 ≤ (tlbAt l j).last_used) ∧
      (tlb_lru_loop l k i (a, m) = (a, m) ∨
        ∃ j, j < k ∧ j < l.length ∧ (tlb_lru_loop l k i (a, m)).1 = i + j ∧
          (tlbAt l j).last_used = (tlb_lru_loop l k i (a, m)).2 ∧
          (tlb_lru_loop l k i (a, m)).2 < m ∧
          ∀ j2, j2 < j → (tlb_lru_loop l k i (a, m)).2 < (tlbAt l j2).last_used) := by
  induction l with
  | nil =>
    intro k i a m
    have e : tlb_lru_loop [] k i (a, m) = (a, m) := by cases k <;> rfl
    rw [e]
    exact ⟨le_refl _, fun j _ hj => by simp at hj, Or.inl rfl⟩
  | cons e rest ih =>
    intro k i a m
    cases k with
    | zero => exact ⟨le_refl _, fun j hj _ => by omega, Or.inl rfl⟩
    | succ k =>
      by_cases hlt : e.last_used < m
      · rw [tlb_lru_loop, if_pos hlt]
        obtain ⟨h1, h2, h3⟩ := ih k (i + 1) i e.last_used
        refine ⟨by omega, ?_, ?_⟩
        · intro j hj hjl
          cases j with
          | zero => simpa using h1
          | succ j => simpa using h2 j (by omega) (by simpa using hjl)
        · right
          rcases h3 with e1 | ⟨j, e1, e2, e3, e4, e5, e6⟩
          · refine ⟨0, by omega, by simp, ?_, ?_, ?_, fun j2 hj2 => by omega⟩
            · rw [e1]; rfl
            · rw [e1]; rfl
            · rw [e1]; exact hlt
          · refine ⟨j + 1, by omega, by simpa using e2, by omega, by simpa using e4,
              by omega, ?_⟩
            intro j2 hj2
            cases j2 with
            | zero => simpa using e5
            | succ j2 => simpa using e6 j2 (by omega)
      · rw [tlb_lru_loop, if_neg hlt]
        obtain ⟨h1, h2, h3⟩ := ih k (i + 1) a m
        refine ⟨h1, ?_, ?_⟩
        · intro j hj hjl
          cases j with
          | zero =>
            have : m ≤ e.last_used := by omega
            simpa using le_trans h1 this
          | succ j => simpa using h2 j (by omega) (by simpa using hjl)
        · rcases h3 with e1 | ⟨j, e1, e2, e3, e4, e5, e6⟩
          · exact Or.inl e1
          · right
            refine ⟨j + 1, by omega, by simpa using e2, by omega, by simpa using e4, e5, ?_⟩
            intro j2 hj2
            cases j2 with
            | zero =>
              have : m ≤ e.last_used := by omega
              simpa using lt_of_lt_of_le e5 this
            | succ j2 => simpa using e6 j2 (by omega)

/-- The slot chosen by the LRU branch of `update_tlb`: the lowest-index slot
whose `last_used` is minimal among the first `tlb_size` slots. -/
theorem tlb_lru_index_spec (tlb : List TLBEntry) (tlb_size : Nat) (h1 : 1 ≤ tlb_size)
    (hlen : tlb_size ≤ tlb.length) :
    tlb_lru_index tlb tlb_size < tlb_size ∧
      (∀ j, j < tlb_size →
        (tlbAt tlb (tlb_lru_index tlb tlb_size)).last_used ≤ (tlbAt tlb j).last_used) ∧
      (∀ j, j < tlb_lru_index tlb tlb_size →
        (tlbAt tlb (tlb_lru_index tlb tlb_size)).last_used < (tlbAt tlb j).last_used) := by
  cases tlb with
  | nil => simp at hlen; omega
  | cons e0 rest =>
    have hrest : tlb_size - 1 ≤ rest.length := by simp at hlen; omega
    unfold tlb_lru_index
    rw [List.drop_succ_cons, List.drop_zero, tlbAt_cons_zero]
    obtain ⟨a1, a2, a3⟩ := tlb_lru_loop_spec rest (tlb_size - 1) 1 0 e0.last_used
    rcases a3 with e | ⟨j, e1, e2, e3, e4, e5, e6⟩
    · rw [e] at a2 ⊢
      refine ⟨by omega, ?_, fun j hj => by simp at hj⟩
      intro j hj
      cases j with
      | zero => simp
      | succ j => simpa using a2 j (by omega) (by omega)
    · rw [e3]
      have hk : tlbAt (e0 :: rest) (1 + j) = tlbAt rest j := by
        rw [Nat.add_comm]; rfl
      rw [hk, e4]
      refine ⟨by omega, ?_, ?_⟩
      · intro j2 hj2
        cases j2 with
        | zero => simpa using le_of_lt e5
        | succ j2 => simpa using a2 j2 (by omega) (by omega)
      · intro j2 hj2
        cases j2 with
        | zero => simpa using e5
        | succ j2 => simpa using e6 j2 (by omega)

/-- C15: for a TLB of 32 slots with capacity `tlb_size` in `[2, 32]`,
`update_tlb(page, frame, t)` writes `(page, frame, valid = 1, t)` into exactly
one slot among the first `tlb_size` and leaves every other slot unchanged: the
lowest-index invalid slot if there is one, otherwise the slot whose `last_used`
is minimal among the first `tlb_size` slots, the lowest index among ties. -/
theorem update_tlb_writes_one_slot (tlb : List TLBEntry) (tlb_size : Nat)
    (page frame t : Int) (hlen : tlb.length = 32) (h2 : 2 ≤ tlb_size) (h32 : tlb_size ≤ 32) :
    update_tlb_slot tlb tlb_size < tlb_size ∧
    tlbAt (update_tlb tlb tlb_size page frame t) (update_tlb_slot tlb tlb_size)
      = { page_no := page, frame_no := frame, valid := 1, last_used := t } ∧
    (∀ j, j ≠ update_tlb_slot tlb tlb_size →
      tlbAt (update_tlb tlb tlb_size page frame t) j = tlbAt tlb j) ∧
    (update_tlb tlb tlb_size page frame t).length = 32 ∧
    ((∃ j, j < tlb_size ∧ (tlbAt tlb j).valid = 0) →
      (tlbAt tlb (update_tlb_slot tlb tlb_size)).valid = 0 ∧
      ∀ j, j < update_tlb_slot tlb tlb_size → (tlbAt tlb j).valid ≠ 0) ∧
    ((∀ j, j < tlb_size → (tlbAt tlb j).valid ≠ 0) →
      (∀ j, j < tlb_size →
        (tlbAt tlb (update_tlb_slot tlb tlb_size)).last_used ≤ (tlbAt tlb j).last_used) ∧
      (∀ j, j < update_tlb_slot tlb tlb_size →
        (tlbAt tlb (update_tlb_slot tlb tlb_size)).last_used < (tlbAt tlb j).last_used)) := by
  have hnone := empty_slot_from_none tlb tlb_size 0
  have hslot : update_tlb_slot tlb tlb_size < tlb_size ∧
      ((∃ j, j < tlb_size ∧ (tlbAt tlb j).valid = 0) →
        (tlbAt tlb (update_tlb_slot tlb tlb_size)).valid = 0 ∧
        ∀ j, j < update_tlb_slot tlb tlb_size → (tlbAt tlb j).valid ≠ 0) ∧
      ((∀ j, j < tlb_size → (tlbAt tlb j).valid ≠ 0) →
        (∀ j, j < tlb_size →
          (tlbAt tlb (update_tlb_slot tlb tlb_size)).last_used ≤ (tlbAt tlb j).last_used) ∧
        (∀ j, j < update_tlb_slot tlb tlb_size →
          (tlbAt tlb (update_tlb_slot tlb tlb_size)).last_used < (tlbAt tlb j).last_used)) := by
    unfold update_tlb_slot
    by_cases he : empty_slot_from tlb tlb_size 0 = -1
    · rw [if_neg (by simp [he])]
      obtain ⟨b1, b2, b3⟩ := tlb_lru_index_spec tlb tlb_size (by omega) (by omega)
      refine ⟨b1, ?_, fun _ => ⟨b2, b3⟩⟩
      rintro ⟨j, hj, hv⟩
      exact absurd hv (hnone.mp he j hj (by omega))
    · rw [if_pos he]
      obtain ⟨f, c1, c2, c3, c4, c5⟩ := empty_slot_from_some tlb tlb_size 0 he
      have hf : (empty_slot_from tlb tlb_size 0).toNat = f := by
        rw [c1]; simp
      rw [hf]
      refine ⟨c2, fun _ => ⟨c4, c5⟩, ?_⟩
      intro hall
      exact absurd c4 (hall f c2)
  obtain ⟨s1, s2, s3⟩ := hslot
  refine ⟨s1, ?_, ?_, ?_, s2, s3⟩
  · unfold update_tlb
    exact tlbAt_set_self _ _ _ (by omega)
  · intro j hj
    unfold update_tlb
    exact tlbAt_set_ne _ _ _ _ hj
  · unfold update_tlb
    rw [List.length_set, hlen]

theorem update_tlb_writes_one_slot_witness :
    init_tlb.length = 32 ∧
    tlbAt (update_tlb init_tlb 4 7 15 1) (update_tlb_slot init_tlb 4)
      = { page_no := 7, frame_no := 15, valid := 1, last_used := 1 } :=
  ⟨by decide,
    (update_tlb_writes_one_slot init_tlb 4 7 15 1 (by decide) (by decide) (by decide)).2.1⟩


theorem search_tlb_from_neg_one (p : Int) (l : List TLBEntry) (k i : Nat) :
    search_tlb_from p l k i = -1 ↔
      ∀ j, j < k → j < l.length → ¬ ((tlbAt l j).valid ≠ 0 ∧ (tlbAt l j).page_no = p) := by
  induction l generalizing k i with
  | nil =>
    constructor
    · intro _ j _ hj; simp at hj
    · intro _; cases k <;> rfl
  | cons e rest ih =>
    cases k with
    | zero =>
      constructor
      · intro _ j hj; omega
      · intro _; rfl
    | succ k =>
      by_cases he : e.valid ≠ 0 ∧ e.page_no = p
      · rw [search_tlb_from, if_pos he]
        constructor
        · intro h; omega
        · intro h
          exact absurd he (h 0 (by omega) (by simp))
      · rw [search_tlb_from, if_neg he, ih k (i + 1)]
        constructor
        · intro h j hj hjl
          cases j with
          | zero => simpa using he
          | succ j => simpa using h j (by omega) (by simpa using hjl)
        · intro h j hj hjl
          simpa using h (j + 1) (by omega) (by simpa using hjl)

theorem search_tlb_from_found (p : Int) (l : List TLBEntry) (k i : Nat)
    (h : search_tlb_from p l k i ≠ -1) :
    ∃ f : Nat, search_tlb_from p l k i = ((i + f : Nat) : Int) ∧ f < k ∧ f < l.length ∧
      (tlbAt l f).valid ≠ 0 ∧ (tlbAt l f).page_no = p ∧
      ∀ j, j < f → ¬ ((tlbAt l j).valid ≠ 0 ∧ (tlbAt l j).page_no = p) := by
  induction l generalizing k i with
  | nil => cases k <;> exact absurd rfl h
  | cons e rest ih =>
    cases k with
    | zero => exact absurd rfl h
    | succ k =>
      by_cases he : e.valid ≠ 0 ∧ e.page_no = p
      · refine ⟨0, ?_, by omega, by simp, by simpa using he.1, by simpa using he.2,
          fun j hj => by omega⟩
        rw [search_tlb_from, if_pos he]
        rfl
      · rw [search_tlb_from, if_neg he] at h ⊢
        obtain ⟨f, h1, h2, h3, h4, h5, h6⟩ := ih k (i + 1) h
        refine ⟨f + 1, ?_, by omega, by simpa using h3, by simpa using h4, by simpa using h5, ?_⟩
        · rw [h1]; congr 1; omega
        · intro j hj
          cases j with
          | zero => simpa using he
          | succ j => simpa using h6 j (by omega)

/-- The hit branch of one step of the TLB simulation loop. -/
theorem tlb_step_hit (hit_time miss_time : Int) (refs : List Int) (i : Nat) (s : TLBState)
    (k : Nat) (h : search_tlb s.tlb s.tlb_size (refs.getD i 0) = (k : Int)) :
    tlb_step hit_time miss_time refs i s
      = { s with
          tlb_hits := s.tlb_hits + 1
          total_time := s.total_time + hit_time
          tlb := s.tlb.set k { tlbAt s.tlb k with last_used := (i : Int) + 1 } } := by
  unfold tlb_step
  have hne : (k : Int) ≠ -1 := by omega
  simp only [h, hne, ne_eq, not_false_eq_true, if_true, Int.toNat_ofNat]

/-- The miss branch of one step of the TLB simulation loop. -/
theorem tlb_step_miss (hit_time miss_time : Int) (refs : List Int) (i : Nat) (s : TLBState)
    (h : search_tlb s.tlb s.tlb_size (refs.getD i 0) = -1) :
    tlb_step hit_time miss_time refs i s
      = { s with
          tlb_misses := s.tlb_misses + 1
          total_time := s.total_time + (hit_time + miss_time)
          tlb := update_tlb s.tlb s.tlb_size (refs.getD i 0) (refs.getD i 0 * 2 + 1)
                  ((i : Int) + 1) } := by
  unfold tlb_step
  simp only [h, ne_eq, not_true_eq_false, if_false]

theorem lru_loop_spec (mem : List Frame) :
    ∀ (i a : Nat) (m : Int) (fnd : Bool),
      (lru_loop mem i (a, m, fnd)).2.1 ≤ m ∧
      (∀ j, j < mem.length → (frameAt mem j).occupied ≠ 0 →
        (lru_loop mem i (a, m, fnd)).2.1 ≤ (frameAt mem j).load_time ∨
          m ≤ (frameAt mem j).load_time) ∧
      (lru_loop mem i (a, m, fnd) = (a, m, fnd) ∨
        ∃ j, j < mem.length ∧ (lru_loop mem i (a, m, fnd)).1 = i + j ∧
          (lru_loop mem i (a, m, fnd)).2.2 = true ∧
          (frameAt mem j).occupied ≠ 0 ∧
          (frameAt mem j).load_time = (lru_loop mem i (a, m, fnd)).2.1 ∧
          (lru_loop mem i (a, m, fnd)).2.1 < m ∧
          ∀ j2, j2 < j → (frameAt mem j2).occupied ≠ 0 →
            (lru_loop mem i (a, m, fnd)).2.1 < (frameAt mem j2).load_time) := by
  induction mem with
  | nil =>
    intro i a m fnd
    exact ⟨le_refl _, fun j hj => by simp at hj, Or.inl rfl⟩
  | cons fr rest ih =>
    intro i a m fnd
    by_cases hc : fr.occupied ≠ 0 ∧ fr.load_time < m
    · rw [lru_loop, if_pos hc]
      obtain ⟨h1, h2, h3⟩ := ih (i + 1) i fr.load_time true
      refine ⟨by omega, ?_, ?_⟩
      · intro j hj ho
        cases j with
        | zero => left; simpa using h1
        | succ j =>
          rcases h2 j (by simpa using hj) (by simpa using ho) with e | e
          · left; simpa using e
          · left
            have : (lru_loop rest (i + 1) (i, fr.load_time, true)).2.1
                ≤ (frameAt rest j).load_time := le_trans h1 e
            simpa using this
      · right
        rcases h3 with e | ⟨j, e1, e2, e3, e4, e5, e6, e7⟩
        · refine ⟨0, by simp, ?_, ?_, by simpa using hc.1, ?_, ?_, fun j2 hj2 => by omega⟩
          · rw [e]; rfl
          · rw [e]
          · rw [e]; rfl
          · rw [e]; exact hc.2
        · refine ⟨j + 1, by simpa using e1, by omega, e3, by simpa using e4,
            by simpa using e5, by omega, ?_⟩
          intro j2 hj2 ho2
          cases j2 with
          | zero => simpa using e6
          | succ j2 => simpa using e7 j2 (by omega) (by simpa using ho2)
    · rw [lru_loop, if_neg hc]
      obtain ⟨h1, h2, h3⟩ := ih (i + 1) a m fnd
      refine ⟨h1, ?_, ?_⟩
      · intro j hj ho
        cases j with
        | zero =>
          right
          have ho' : fr.occupied ≠ 0 := by simpa using ho
          have : ¬ fr.load_time < m := fun hx => hc ⟨ho', hx⟩
          simpa using not_lt.mp this
        | succ j => simpa using h2 j (by simpa using hj) (by simpa using ho)
      · rcases h3 with e | ⟨j, e1, e2, e3, e4, e5, e6, e7⟩
        · exact Or.inl e
        · right
          refine ⟨j + 1, by simpa using e1, by omega, e3, by simpa using e4,
            by simpa using e5, e6, ?_⟩
          intro j2 hj2 ho2
          cases j2 with
          | zero =>
            have ho' : fr.occupied ≠ 0 := by simpa using ho2
            have : ¬ fr.load_time < m := fun hx => hc ⟨ho', hx⟩
            have h5 := not_lt.mp this
            simpa using lt_of_lt_of_le e6 h5
          | succ j2 => simpa using e7 j2 (by omega) (by simpa using ho2)

/-! ## What `optimal_replacement` computes -/

theorem next_use_scan_spec (p : Int) (l : List Int) :
    ∀ (j dflt : Nat),
      (next_use_scan p l j dflt = dflt ∧ ∀ t, t < l.length → l.getD t 0 ≠ p) ∨
      (∃ t, t < l.length ∧ next_use_scan p l j dflt = j + t ∧ l.getD t 0 = p ∧
        ∀ t2, t2 < t → l.getD t2 0 ≠ p) := by
  induction l with
  | nil => intro j dflt; exact Or.inl ⟨rfl, fun t ht => by simp at ht⟩
  | cons r rest ih =>
    intro j dflt
    by_cases h : r = p
    · right
      refine ⟨0, by simp, ?_, by simpa using h, fun t2 ht2 => by omega⟩
      rw [next_use_scan, if_pos h]
      rfl
    · rw [next_use_scan, if_neg h]
      rcases ih (j + 1) dflt with ⟨e1, e2⟩ | ⟨t, e1, e2, e3, e4⟩
      · left
        refine ⟨e1, ?_⟩
        intro t ht
        cases t with
        | zero => simpa using h
        | succ t => simpa using e2 t (by simpa using ht)
      · right
        refine ⟨t + 1, by simpa using e1, by omega, by simpa using e3, ?_⟩
        intro t2 ht2
        cases t2 with
        | zero => simpa using h
        | succ t2 => simpa using e4 t2 (by omega)

theorem getD_drop_int (refs : List Int) (cur t : Nat) :
    (refs.drop cur).getD t 0 = refs.getD (cur + t) 0 := by
  simp only [List.getD_eq_getElem?_getD, List.getElem?_drop]

/-- The value `next_use` that `optimal_replacement` computes for a page: the
least `j` with `cur <= j < ref_count` and `refs[j]` equal to the page, or
`ref_count + 1` when there is none. -/
theorem next_use_spec (refs : List Int) (cur : Nat) (hcur : cur ≤ refs.length) (p : Int) :
    (next_use refs cur p = refs.length + 1 ∧
      ∀ j, cur ≤ j → j < refs.length → refs.getD j 0 ≠ p) ∨
    (cur ≤ next_use refs cur p ∧ next_use refs cur p < refs.length ∧
      refs.getD (next_use refs cur p) 0 = p ∧
      ∀ j, cur ≤ j → j < next_use refs cur p → refs.getD j 0 ≠ p) := by
  have hlen : (refs.drop cur).length = refs.length - cur := List.length_drop cur refs
  unfold next_use
  rcases next_use_scan_spec p (refs.drop cur) cur (refs.length + 1) with
    ⟨e1, e2⟩ | ⟨t, e1, e2, e3, e4⟩
  · left
    refine ⟨e1, ?_⟩
    intro j hj1 hj2
    have := e2 (j - cur) (by omega)
    rw [getD_drop_int] at this
    have hjj : cur + (j - cur) = j := by omega
    rw [hjj] at this
    exact this
  · right
    rw [e2]
    refine ⟨by omega, by omega, ?_, ?_⟩
    · rw [← getD_drop_int]; exact e3
    · intro j hj1 hj2
      have := e4 (j - cur) (by omega)
      rw [getD_drop_int] at this
      have hjj : cur + (j - cur) = j := by omega
      rw [hjj] at this
      exact this

theorem optimal_loop_lowest (refs : List Int) (cur : Nat) (mem : List Frame) :
    ∀ (i a : Nat) (b : Int),
      optimal_loop refs cur mem i (a, b) = (a, b) ∨
        ∃ j, j < mem.length ∧ (optimal_loop refs cur mem i (a, b)).1 = i + j ∧
          (frameAt mem j).occupied ≠ 0 ∧
          (next_use refs cur (frameAt mem j).page_no : Int)
            = (optimal_loop refs cur mem i (a, b)).2 ∧
          b < (optimal_loop refs cur mem i (a, b)).2 ∧
          ∀ j2, j2 < j → (frameAt mem j2).occupied ≠ 0 →
            (next_use refs cur (frameAt mem j2).page_no : Int)
              < (optimal_loop refs cur mem i (a, b)).2 := by
  induction mem with
  | nil => intro i a b; exact Or.inl rfl
  | cons fr rest ih =>
    intro i a b
    by_cases ho : fr.occupied ≠ 0
    · by_cases hgt : (next_use refs cur fr.page_no : Int) > b
      · rw [optimal_loop, if_pos ho, if_pos hgt]
        right
        rcases ih (i + 1) i (next_use refs cur fr.page_no : Int) with
          e | ⟨j, e1, e2, e3, e4, e5, e6⟩
        · refine ⟨0, by simp, ?_, by simpa using ho, ?_, ?_, fun j2 hj2 => by omega⟩
          · rw [e]; rfl
          · rw [e]; rfl
          · rw [e]; exact hgt
        · refine ⟨j + 1, by simpa using e1, by omega, by simpa using e3, by simpa using e4,
            by omega, ?_⟩
          intro j2 hj2 ho2
          cases j2 with
          | zero => simpa using e5
          | succ j2 => simpa using e6 j2 (by omega) (by simpa using ho2)
      · rw [optimal_loop, if_pos ho, if_neg hgt]
        rcases ih (i + 1) a b with e | ⟨j, e1, e2, e3, e4, e5, e6⟩
        · exact Or.inl e
        · right
          refine ⟨j + 1, by simpa using e1, by omega, by simpa using e3, by simpa using e4,
            e5, ?_⟩
          intro j2 hj2 ho2
          cases j2 with
          | zero =>
            have : (next_use refs cur fr.page_no : Int) ≤ b := not_lt.mp hgt
            simpa using lt_of_le_of_lt this e5
          | succ j2 => simpa using e6 j2 (by omega) (by simpa using ho2)
    · rw [optimal_loop, if_neg ho]
      rcases ih (i + 1) a b with e | ⟨j, e1, e2, e3, e4, e5, e6⟩
      · exact Or.inl e
      · right
        refine ⟨j + 1, by simpa using e1, by omega, by simpa using e3, by simpa using e4,
          e5, ?_⟩
        intro j2 hj2 ho2
        cases j2 with
        | zero =>
          have : fr.occupied ≠ 0 := by simpa using ho2
          exact absurd this ho
        | succ j2 => simpa using e6 j2 (by omega) (by simpa using ho2)

/-- C12: for a frame table with at least one occupied frame and a position
`cur <= ref_count`, `optimal_replacement` returns an occupied frame whose
`next_use` is maximal among the occupied frames, the lowest index among those;
`next_use` of a page is the least `j` with `cur <= j < ref_count` and
`refs[j]` equal to the page, or `ref_count + 1` when there is none; the
simulation calls it at step `i` with `cur = i + 1`, and it changes nothing. -/
theorem optimal_replacement_farthest_lowest (s : SimState) (refs : List Int) (cur : Nat)
    (hcur : cur ≤ refs.length)
    (hocc : ∃ j, j < s.frame_count ∧ (frameAt s.physical_memory j).occupied ≠ 0) :
    optimal_replacement s refs cur < s.frame_count ∧
    (frameAt s.physical_memory (optimal_replacement s refs cur)).occupied ≠ 0 ∧
    (∀ j, j < s.frame_count → (frameAt s.physical_memory j).occupied ≠ 0 →
      next_use refs cur (frameAt s.physical_memory j).page_no
        ≤ next_use refs cur
            (frameAt s.physical_memory (optimal_replacement s refs cur)).page_no) ∧
    (∀ j, j < optimal_replacement s refs cur → (frameAt s.physical_memory j).occupied ≠ 0 →
      next_use refs cur (frameAt s.physical_memory j).page_no
        < next_use refs cur
            (frameAt s.physical_memory (optimal_replacement s refs cur)).page_no) ∧
    (∀ p : Int,
      (next_use refs cur p = refs.length + 1 ∧
        ∀ j, cur ≤ j → j < refs.length → refs.getD j 0 ≠ p) ∨
      (cur ≤ next_use refs cur p ∧ next_use refs cur p < refs.length ∧
        refs.getD (next_use refs cur p) 0 = p ∧
        ∀ j, cur ≤ j → j < next_use refs cur p → refs.getD j 0 ≠ p)) ∧
    (∀ i : Nat, select_victim Algo.Optimal refs i s = (optimal_replacement s refs (i + 1), s)) := by
  obtain ⟨j0, hj0, ho0⟩ := hocc
  obtain ⟨_, h2, _⟩ := optimal_loop_spec refs cur s.physical_memory 0 0 (-1)
  have hj0' := h2 _ (frameAt_mem (show j0 < s.physical_memory.length from hj0)) ho0
  have hres : optimal_replacement s refs cur
      = (optimal_loop refs cur s.physical_memory 0 (0, -1)).1 := rfl
  rcases optimal_loop_lowest refs cur s.physical_memory 0 0 (-1) with
    e | ⟨j, e1, e2, e3, e4, e5, e6⟩
  · exfalso
    rw [e] at hj0'
    have : (0 : Int) ≤ (next_use refs cur (frameAt s.physical_memory j0).page_no : Int) :=
      Int.natCast_nonneg _
    have hj0'' : (next_use refs cur (frameAt s.physical_memory j0).page_no : Int) ≤ -1 := hj0'
    omega
  · have hv : optimal_replacement s refs cur = j := by rw [hres, e2, Nat.zero_add]
    rw [hv]
    refine ⟨e1, e3, ?_, ?_, fun p => next_use_spec refs cur hcur p, fun i => rfl⟩
    · intro j2 hj2 ho2
      have := h2 _ (frameAt_mem (show j2 < s.physical_memory.length from hj2)) ho2
      rw [← e4] at this
      exact_mod_cast this
    · intro j2 hj2 ho2
      have := e6 j2 hj2 ho2
      rw [← e4] at this
      exact_mod_cast this

theorem optimal_replacement_farthest_lowest_witness :
    1 ≤ ([0, 1, 2, 0, 1] : List Int).length ∧
    (frameAt (simulate_page_replacement Algo.Optimal [0, 1, 2] (fun _ => 0)
        (init_state 3 (fun _ _ => 0))).physical_memory
      (optimal_replacement (simulate_page_replacement Algo.Optimal [0, 1, 2] (fun _ => 0)
        (init_state 3 (fun _ _ => 0))) [0, 1, 2, 0, 1] 1)).occupied ≠ 0 :=
  ⟨by decide,
    (optimal_replacement_farthest_lowest
      (simulate_page_replacement Algo.Optimal [0, 1, 2] (fun _ => 0)
        (init_state 3 (fun _ _ => 0)))
      [0, 1, 2, 0, 1] 1 (by decide) ⟨0, by decide, by decide⟩).2.1⟩


/-! ## What `fifo_replacement` computes -/

theorem cyc_eq (n c k : Nat) (hc : c < n) (hk : k ≤ n) :
    (c + k) % n = if c + k < n then c + k else c + k - n := by
  split
  · next h => exact Nat.mod_eq_of_lt h
  · next h =>
    rw [Nat.mod_eq_sub_mod (by omega)]
    exact Nat.mod_eq_of_lt (by omega)

theorem cyc_offset (n c j : Nat) (hc : c < n) (hj : j < n) :
    ∃ d, d < n ∧ (c + d) % n = j := by
  by_cases h : c ≤ j
  · refine ⟨j - c, by omega, ?_⟩
    rw [cyc_eq n c (j - c) hc (by omega)]
    split <;> omega
  · refine ⟨j + n - c, by omega, ?_⟩
    rw [cyc_eq n c (j + n - c) hc (by omega)]
    split <;> omega

theorem cyc_step (n c k : Nat) : ((c + 1) % n + k) % n = (c + (k + 1)) % n := by
  rw [Nat.mod_add_mod]
  congr 1
  omega

theorem fifo_loop_first (mem : List Frame) (n : Nat) :
    ∀ (fuel selected : Nat), selected < n →
      (∃ d, d < fuel ∧ (frameAt mem ((selected + d) % n)).occupied ≠ 0) →
      ∃ d, d < fuel ∧
        fifo_loop mem n fuel selected = ((selected + d) % n, ((selected + d) % n + 1) % n) ∧
        (frameAt mem ((selected + d) % n)).occupied ≠ 0 ∧
        ∀ d2, d2 < d → (frameAt mem ((selected + d2) % n)).occupied = 0 := by
  intro fuel
  induction fuel with
  | zero => rintro selected _ ⟨d, hd, _⟩; omega
  | succ fuel ih =>
    rintro selected hs ⟨d0, hd0, ho0⟩
    have hs0 : (selected + 0) % n = selected := Nat.mod_eq_of_lt hs
    by_cases h : (frameAt mem selected).occupied ≠ 0
    · refine ⟨0, by omega, ?_, by rw [hs0]; exact h, fun d2 hd2 => by omega⟩
      rw [hs0, fifo_loop, if_pos h]
    · rw [fifo_loop, if_neg h]
      cases d0 with
      | zero => rw [hs0] at ho0; exact absurd ho0 h
      | succ d1 =>
        have hn : 0 < n := by omega
        obtain ⟨d, e1, e2, e3, e4⟩ := ih ((selected + 1) % n) (Nat.mod_lt _ hn)
          ⟨d1, by omega, by rw [cyc_step]; exact ho0⟩
        rw [cyc_step] at e2 e3
        refine ⟨d + 1, by omega, e2, e3, ?_⟩
        intro d2 hd2
        cases d2 with
        | zero => rw [hs0]; exact not_not.mp h
        | succ d2 =>
          have := e4 d2 (by omega)
          rw [cyc_step] at this
          exact this

/-- C13: with the cursor inside `[0, frame_count)` and at least one occupied
frame, `fifo_replacement` returns the first occupied frame in the cyclic order
starting at the cursor, sets `fifo_index` to one past the returned frame
modulo `frame_count`, and changes nothing else (no frame in particular); a
hit step and a load into a free frame leave `fifo_index` unchanged. -/
theorem fifo_replacement_first_occupied (s : SimState)
    (hc : s.fifo_index < s.frame_count)
    (hocc : ∃ j, j < s.frame_count ∧ (frameAt s.physical_memory j).occupied ≠ 0) :
    (∃ d, d < s.frame_count ∧
      (fifo_replacement s).1 = (s.fifo_index + d) % s.frame_count ∧
      ∀ d2, d2 < d →
        (frameAt s.physical_memory ((s.fifo_index + d2) % s.frame_count)).occupied = 0) ∧
    (fifo_replacement s).1 < s.frame_count ∧
    (frameAt s.physical_memory (fifo_replacement s).1).occupied ≠ 0 ∧
    (fifo_replacement s).2.fifo_index = ((fifo_replacement s).1 + 1) % s.frame_count ∧
    (fifo_replacement s).2.physical_memory = s.physical_memory ∧
    (fifo_replacement s).2
      = { s with fifo_index := ((fifo_replacement s).1 + 1) % s.frame_count } ∧
    (∀ (algo : Algo) (refs : List Int) (rnd : Nat → Int) (i f : Nat),
      find_page s.physical_memory (refs.getD i 0) = some f →
      (sim_step algo refs rnd i s).fifo_index = s.fifo_index) ∧
    (∀ (algo : Algo) (refs : List Int) (rnd : Nat → Int) (i : Nat),
      find_page s.physical_memory (refs.getD i 0) = none →
      get_free_frame s.physical_memory ≠ -1 →
      (sim_step algo refs rnd i s).fifo_index = s.fifo_index) := by
  obtain ⟨j, hj, hoj⟩ := hocc
  obtain ⟨d0, hd0, hd0j⟩ := cyc_offset s.frame_count s.fifo_index j hc hj
  obtain ⟨d, e1, e2, e3, e4⟩ := fifo_loop_first s.physical_memory s.frame_count
    s.frame_count s.fifo_index hc ⟨d0, hd0, by rw [hd0j]; exact hoj⟩
  have hn : 0 < s.frame_count := by omega
  have h1 : (fifo_replacement s).1 = (s.fifo_index + d) % s.frame_count := by
    unfold fifo_replacement
    simp only []
    rw [e2]
  have h2 : (fifo_replacement s).2
      = { s with fifo_index := ((s.fifo_index + d) % s.frame_count + 1) % s.frame_count } := by
    unfold fifo_replacement
    simp only []
    rw [e2]
  refine ⟨⟨d, e1, h1, e4⟩, ?_, ?_, ?_, ?_, ?_, ?_, ?_⟩
  · rw [h1]; exact Nat.mod_lt _ hn
  · rw [h1]; exact e3
  · rw [h2, h1]
  · rw [h2]
  · rw [h2, h1]
  · intro algo refs rnd i f hf
    unfold sim_step
    rw [sim_step_ev_hit algo refs rnd i s f hf]
    rfl
  · intro algo refs rnd i hf hfree
    obtain ⟨f, hf1, _⟩ := get_free_frame_spec s.physical_memory hfree
    unfold sim_step
    rw [sim_step_ev_free algo refs rnd i s f hf hf1]
    rfl

theorem fifo_replacement_first_occupied_witness :
    (fifo_replacement
      (simulate_page_replacement Algo.FIFO [7, 0, 1, 2] (fun _ => 0)
        (init_state 3 (fun _ _ => 0)))).1 < 3 ∧
    (fifo_replacement
      (simulate_page_replacement Algo.FIFO [7, 0, 1, 2] (fun _ => 0)
        (init_state 3 (fun _ _ => 0)))).2.fifo_index
      = ((fifo_replacement
          (simulate_page_replacement Algo.FIFO [7, 0, 1, 2] (fun _ => 0)
            (init_state 3 (fun _ _ => 0)))).1 + 1) % 3 :=
  ⟨(fifo_replacement_first_occupied
      (simulate_page_replacement Algo.FIFO [7, 0, 1, 2] (fun _ => 0)
        (init_state 3 (fun _ _ => 0)))
      (by decide) ⟨0, by decide, by decide⟩).2.1,
   (fifo_replacement_first_occupied
      (simulate_page_replacement Algo.FIFO [7, 0, 1, 2] (fun _ => 0)
        (init_state 3 (fun _ _ => 0)))
      (by decide) ⟨0, by decide, by decide⟩).2.2.2.1⟩


/-! ## What `clock_replacement` computes when every frame is occupied -/

theorem cyc_ne (n c k : Nat) (hc : c < n) (hk1 : 0 < k) (hk2 : k < n) : (c + k) % n ≠ c := by
  rw [cyc_eq n c k hc (by omega)]
  split <;> omega

theorem clock_loop_run (n : Nat) :
    ∀ (d fuel hand : Nat) (m : List Frame), m.length = n → hand < n → d ≤ n → d + 1 ≤ fuel →
      (∀ j, j < n → (frameAt m j).occupied ≠ 0) →
      (∀ d2, d2 < d → (frameAt m ((hand + d2) % n)).reference_bit ≠ 0) →
      (d < n → (frameAt m ((hand + d) % n)).reference_bit = 0) →
      (clock_loop n fuel m hand).1 = (hand + d) % n ∧
      (clock_loop n fuel m hand).2.2 = ((hand + d) % n + 1) % n ∧
      (∀ d2, d2 < d →
        (frameAt (clock_loop n fuel m hand).2.1 ((hand + d2) % n)).reference_bit = 0) ∧
      (∀ j, (∀ d2, d2 < d → j ≠ (hand + d2) % n) →
        (frameAt (clock_loop n fuel m hand).2.1 j).reference_bit
          = (frameAt m j).reference_bit) := by
  intro d
  induction d with
  | zero =>
    intro fuel hand m hlen hh _ hfuel hocc _ hz
    have hs0 : (hand + 0) % n = hand := Nat.mod_eq_of_lt hh
    have hb := hz (by omega)
    rw [hs0] at hb
    obtain ⟨f, rfl⟩ : ∃ f, fuel = f + 1 := ⟨fuel - 1, by omega⟩
    rw [clock_loop_bit_clear n f m hand (hocc hand hh) hb, hs0]
    exact ⟨rfl, rfl, fun d2 hd2 => by omega, fun j _ => rfl⟩
  | succ d ih =>
    intro fuel hand m hlen hh hd hfuel hocc hset hz
    have hn : 0 < n := by omega
    have hs0 : (hand + 0) % n = hand := Nat.mod_eq_of_lt hh
    have hb : (frameAt m hand).reference_bit ≠ 0 := by
      have := hset 0 (by omega)
      rw [hs0] at this
      exact this
    obtain ⟨f, rfl⟩ : ∃ f, fuel = f + 1 := ⟨fuel - 1, by omega⟩
    rw [clock_loop, if_pos (hocc hand hh), if_neg hb]
    have hlen2 : (updFrame m hand (fun fr => { fr with reference_bit := 0 })).length = n := by
      rw [updFrame_length]; exact hlen
    obtain ⟨r1, r2, r3, r4⟩ := ih f ((hand + 1) % n)
      (updFrame m hand (fun fr => { fr with reference_bit := 0 })) hlen2 (Nat.mod_lt _ hn)
      (by omega) (by omega)
      (fun j hj => by rw [occupied_updFrame_clear]; exact hocc j hj)
      (fun d2 hd2 => by
        rw [cyc_step, reference_bit_updFrame_clear,
          if_neg (fun hc => cyc_ne n hand (d2 + 1) hh (by omega) (by omega) hc.1)]
        exact hset (d2 + 1) (by omega))
      (fun hdn => by
        rw [cyc_step, reference_bit_updFrame_clear]
        by_cases hlast : d + 1 < n
        · rw [if_neg (fun hc => cyc_ne n hand (d + 1) hh (by omega) hlast hc.1)]
          exact hz hlast
        · have hdn2 : d + 1 = n := by omega
          have hback : (hand + (d + 1)) % n = hand := by
            rw [hdn2, Nat.add_mod_right]; exact Nat.mod_eq_of_lt hh
          rw [hback, if_pos ⟨rfl, by omega⟩])
    rw [cyc_step] at r1 r2
    refine ⟨r1, r2, ?_, ?_⟩
    · intro d2 hd2
      cases d2 with
      | zero =>
        rw [hs0, r4 hand (fun d3 hd3 => by
          rw [cyc_step]
          exact fun hc => cyc_ne n hand (d3 + 1) hh (by omega) (by omega) hc.symm),
          reference_bit_updFrame_clear, if_pos ⟨rfl, by omega⟩]
      | succ k =>
        have := r3 k (by omega)
        rw [cyc_step] at this
        exact this
    · intro j hj
      have hj0 : j ≠ hand := by
        have := hj 0 (by omega)
        rw [hs0] at this
        exact this
      rw [r4 j (fun d3 hd3 => by rw [cyc_step]; exact hj (d3 + 1) (by omega)),
        reference_bit_updFrame_clear, if_neg (fun hc => hj0 hc.1)]

/-- C14: with the hand inside `[0, frame_count)` and every frame occupied,
`clock_replacement` returns the first frame in cyclic order from the hand
whose reference bit is 0, clears the reference bit of every frame it passed
over before that frame and changes no other bit (and no other field of any
frame), and sets `clock_hand` to one past the returned frame modulo
`frame_count`; if every reference bit is non-zero it clears all of them and
returns the frame under the hand. -/
theorem clock_replacement_second_chance (s : SimState)
    (hh : s.clock_hand < s.frame_count)
    (hocc : ∀ j, j < s.frame_count → (frameAt s.physical_memory j).occupied ≠ 0) :
    (∀ d, d < s.frame_count →
      (frameAt s.physical_memory ((s.clock_hand + d) % s.frame_count)).reference_bit = 0 →
      (∀ d2, d2 < d →
        (frameAt s.physical_memory
          ((s.clock_hand + d2) % s.frame_count)).reference_bit ≠ 0) →
      (clock_replacement s).1 = (s.clock_hand + d) % s.frame_count ∧
      (∀ d2, d2 < d →
        (frameAt (clock_replacement s).2.physical_memory
          ((s.clock_hand + d2) % s.frame_count)).reference_bit = 0) ∧
      (∀ j, (∀ d2, d2 < d → j ≠ (s.clock_hand + d2) % s.frame_count) →
        (frameAt (clock_replacement s).2.physical_memory j).reference_bit
          = (frameAt s.physical_memory j).reference_bit)) ∧
    ((∀ j, j < s.frame_count → (frameAt s.physical_memory j).reference_bit ≠ 0) →
      (clock_replacement s).1 = s.clock_hand ∧
      ∀ j, j < s.frame_count →
        (frameAt (clock_replacement s).2.physical_memory j).reference_bit = 0) ∧
    (clock_replacement s).2.clock_hand = ((clock_replacement s).1 + 1) % s.frame_count ∧
    (clock_replacement s).2.physical_memory.map clearRef = s.physical_memory.map clearRef ∧
    (clock_replacement s).1 < s.frame_count := by
  have hn : 0 < s.frame_count := by omega
  have hlen : s.physical_memory.length = s.frame_count := rfl
  have hfuel : ∀ d, d ≤ s.frame_count → d + 1 ≤ s.frame_count * 2 := fun d hd => by omega
  have e1 : (clock_replacement s).1
      = (clock_loop s.frame_count (s.frame_count * 2) s.physical_memory s.clock_hand).1 := rfl
  have e2 : (clock_replacement s).2.physical_memory
      = (clock_loop s.frame_count (s.frame_count * 2) s.physical_memory s.clock_hand).2.1 := rfl
  have e3 : (clock_replacement s).2.clock_hand
      = (clock_loop s.frame_count (s.frame_count * 2) s.physical_memory s.clock_hand).2.2 := rfl
  have hall : (∀ j, j < s.frame_count → (frameAt s.physical_memory j).reference_bit ≠ 0) →
      (clock_loop s.frame_count (s.frame_count * 2) s.physical_memory s.clock_hand).1
        = s.clock_hand ∧
      (clock_loop s.frame_count (s.frame_count * 2) s.physical_memory s.clock_hand).2.2
        = (s.clock_hand + 1) % s.frame_count ∧
      ∀ j, j < s.frame_count →
        (frameAt (clock_loop s.frame_count (s.frame_count * 2) s.physical_memory
          s.clock_hand).2.1 j).reference_bit = 0 := by
    intro hset
    obtain ⟨r1, r2, r3, _⟩ := clock_loop_run s.frame_count s.frame_count (s.frame_count * 2)
      s.clock_hand s.physical_memory hlen hh (le_refl _) (hfuel _ (le_refl _)) hocc
      (fun d2 _ => hset _ (Nat.mod_lt _ hn)) (fun h => absurd h (lt_irrefl _))
    have hback : (s.clock_hand + s.frame_count) % s.frame_count = s.clock_hand := by
      rw [Nat.add_mod_right]; exact Nat.mod_eq_of_lt hh
    rw [hback] at r1 r2
    refine ⟨r1, r2, ?_⟩
    intro j hj
    obtain ⟨d, hd, hdj⟩ := cyc_offset s.frame_count s.clock_hand j hh hj
    have := r3 d hd
    rw [hdj] at this
    exact this
  refine ⟨?_, ?_, ?_, ?_, ?_⟩
  · intro d hd hz hset
    obtain ⟨r1, _, r3, r4⟩ := clock_loop_run s.frame_count d (s.frame_count * 2)
      s.clock_hand s.physical_memory hlen hh (le_of_lt hd) (hfuel _ (le_of_lt hd)) hocc
      hset (fun _ => hz)
    rw [e1, e2]
    exact ⟨r1, r3, r4⟩
  · intro hset
    rw [e1, e2]
    exact ⟨(hall hset).1, (hall hset).2.2⟩
  · rw [e1, e3]
    by_cases hex : ∃ d, d < s.frame_count ∧
        (frameAt s.physical_memory ((s.clock_hand + d) % s.frame_count)).reference_bit = 0
    · have hmin := fun d2 (hd2 : d2 < Nat.find hex) => Nat.find_min hex hd2
      obtain ⟨hd, hz⟩ := Nat.find_spec hex
      obtain ⟨r1, r2, _, _⟩ := clock_loop_run s.frame_count (Nat.find hex) (s.frame_count * 2)
        s.clock_hand s.physical_memory hlen hh (le_of_lt hd) (hfuel _ (le_of_lt hd)) hocc
        (fun d2 hd2 hc => hmin d2 hd2 ⟨by omega, hc⟩) (fun _ => hz)
      rw [r1, r2]
    · have hset : ∀ j, j < s.frame_count → (frameAt s.physical_memory j).reference_bit ≠ 0 := by
        intro j hj hc
        obtain ⟨d, hd, hdj⟩ := cyc_offset s.frame_count s.clock_hand j hh hj
        exact hex ⟨d, hd, by rw [hdj]; exact hc⟩
      rw [(hall hset).1, (hall hset).2.1]
  · rw [e2]
    exact clock_loop_clearRef _ _ _ _
  · rw [e1]
    exact (clock_loop_lt _ _ _ _ hh).1

theorem clock_replacement_second_chance_witness :
    (clock_replacement
      (simulate_page_replacement Algo.Clock [7, 0, 1] (fun _ => 0)
        (init_state 3 (fun _ _ => 0)))).1 = 0 ∧
    (clock_replacement
      (simulate_page_replacement Algo.Clock [7, 0, 1] (fun _ => 0)
        (init_state 3 (fun _ _ => 0)))).2.clock_hand = 1 :=
  ⟨((clock_replacement_second_chance
      (simulate_page_replacement Algo.Clock [7, 0, 1] (fun _ => 0)
        (init_state 3 (fun _ _ => 0)))
      (by decide) (by decide)).2.1 (by decide)).1,
   (clock_replacement_second_chance
      (simulate_page_replacement Algo.Clock [7, 0, 1] (fun _ => 0)
        (init_state 3 (fun _ _ => 0)))
      (by decide) (by decide)).2.2.1.trans (by decide)⟩


/-! ## How many probes `clock_replacement` needs -/

theorem clock_loop_probes_some (n : Nat) :
    ∀ (fuel : Nat) (mem : List Frame) (hand k : Nat),
      clock_loop_probes n fuel mem hand = some k →
      1 ≤ k ∧ k ≤ fuel ∧ (frameAt mem (clock_loop n fuel mem hand).1).occupied ≠ 0 := by
  intro fuel
  induction fuel with
  | zero => intro mem hand k h; simp [clock_loop_probes] at h
  | succ fuel ih =>
    intro mem hand k h
    by_cases ho : (frameAt mem hand).occupied ≠ 0
    · by_cases hb : (frameAt mem hand).reference_bit = 0
      · rw [clock_loop_probes, if_pos ho, if_pos hb] at h
        rw [clock_loop_bit_clear n fuel mem hand ho hb]
        have hk : 1 = k := Option.some.inj h
        exact ⟨by omega, by omega, ho⟩
      · rw [clock_loop_probes, if_pos ho, if_neg hb] at h
        rw [clock_loop, if_pos ho, if_neg hb]
        obtain ⟨k2, hk2, hk⟩ := Option.map_eq_some'.mp h
        obtain ⟨r1, r2, r3⟩ := ih _ _ _ hk2
        rw [occupied_updFrame_clear] at r3
        exact ⟨by omega, by omega, r3⟩
    · rw [clock_loop_probes, if_neg ho] at h
      rw [clock_loop, if_neg ho]
      obtain ⟨k2, hk2, hk⟩ := Option.map_eq_some'.mp h
      obtain ⟨r1, r2, r3⟩ := ih _ _ _ hk2
      exact ⟨by omega, by omega, r3⟩

theorem clock_loop_probes_clear_bit (n : Nat) :
    ∀ (d fuel : Nat) (mem : List Frame) (hand : Nat), hand < n → d < fuel →
      (frameAt mem ((hand + d) % n)).occupied ≠ 0 →
      (frameAt mem ((hand + d) % n)).reference_bit = 0 →
      ∃ k, clock_loop_probes n fuel mem hand = some k ∧ k ≤ d + 1 := by
  intro d
  induction d with
  | zero =>
    intro fuel mem hand hh hf ho hb
    rw [Nat.add_zero, Nat.mod_eq_of_lt hh] at ho hb
    obtain ⟨f, rfl⟩ : ∃ f, fuel = f + 1 := ⟨fuel - 1, by omega⟩
    exact ⟨1, by rw [clock_loop_probes, if_pos ho, if_pos hb], le_refl _⟩
  | succ d ih =>
    intro fuel mem hand hh hf ho hb
    have hn : 0 < n := by omega
    obtain ⟨f, rfl⟩ : ∃ f, fuel = f + 1 := ⟨fuel - 1, by omega⟩
    by_cases ho1 : (frameAt mem hand).occupied ≠ 0
    · by_cases hb1 : (frameAt mem hand).reference_bit = 0
      · exact ⟨1, by rw [clock_loop_probes, if_pos ho1, if_pos hb1], by omega⟩
      · obtain ⟨k, hk, hk2⟩ := ih f
          (updFrame mem hand (fun fr => { fr with reference_bit := 0 })) ((hand + 1) % n)
          (Nat.mod_lt _ hn) (by omega)
          (by rw [cyc_step, occupied_updFrame_clear]; exact ho)
          (by
            rw [cyc_step, reference_bit_updFrame_clear]
            split
            · rfl
            · exact hb)
        refine ⟨k + 1, ?_, by omega⟩
        rw [clock_loop_probes, if_pos ho1, if_neg hb1, hk]
        rfl
    · obtain ⟨k, hk, hk2⟩ := ih f mem ((hand + 1) % n) (Nat.mod_lt _ hn) (by omega)
        (by rw [cyc_step]; exact ho) (by rw [cyc_step]; exact hb)
      refine ⟨k + 1, ?_, by omega⟩
      rw [clock_loop_probes, if_neg ho1, hk]
      rfl

theorem clock_loop_probes_occupied (n : Nat) :
    ∀ (d fuel : Nat) (mem : List Frame) (hand : Nat), hand < n → mem.length = n →
      d + n < fuel →
      (frameAt mem ((hand + d) % n)).occupied ≠ 0 →
      ∃ k, clock_loop_probes n fuel mem hand = some k ∧ k ≤ d + 1 + n := by
  intro d
  induction d with
  | zero =>
    intro fuel mem hand hh hlen hf ho
    rw [Nat.add_zero, Nat.mod_eq_of_lt hh] at ho
    have hn : 0 < n := by omega
    obtain ⟨f, rfl⟩ : ∃ f, fuel = f + 1 := ⟨fuel - 1, by omega⟩
    by_cases hb : (frameAt mem hand).reference_bit = 0
    · exact ⟨1, by rw [clock_loop_probes, if_pos ho, if_pos hb], by omega⟩
    · have hback : ((hand + 1) % n + (n - 1)) % n = hand := by
        rw [cyc_step]
        have : n - 1 + 1 = n := by omega
        rw [this, Nat.add_mod_right]
        exact Nat.mod_eq_of_lt hh
      obtain ⟨k, hk, hk2⟩ := clock_loop_probes_clear_bit n (n - 1) f
        (updFrame mem hand (fun fr => { fr with reference_bit := 0 })) ((hand + 1) % n)
        (Nat.mod_lt _ hn) (by omega)
        (by rw [hback, occupied_updFrame_clear]; exact ho)
        (by rw [hback, reference_bit_updFrame_clear, if_pos ⟨rfl, by omega⟩])
      refine ⟨k + 1, ?_, by omega⟩
      rw [clock_loop_probes, if_pos ho, if_neg hb, hk]
      rfl
  | succ d ih =>
    intro fuel mem hand hh hlen hf ho
    have hn : 0 < n := by omega
    obtain ⟨f, rfl⟩ : ∃ f, fuel = f + 1 := ⟨fuel - 1, by omega⟩
    by_cases ho1 : (frameAt mem hand).occupied ≠ 0
    · by_cases hb1 : (frameAt mem hand).reference_bit = 0
      · exact ⟨1, by rw [clock_loop_probes, if_pos ho1, if_pos hb1], by omega⟩
      · obtain ⟨k, hk, hk2⟩ := ih f
          (updFrame mem hand (fun fr => { fr with reference_bit := 0 })) ((hand + 1) % n)
          (Nat.mod_lt _ hn) (by rw [updFrame_length]; exact hlen) (by omega)
          (by rw [cyc_step, occupied_updFrame_clear]; exact ho)
        refine ⟨k + 1, ?_, by omega⟩
        rw [clock_loop_probes, if_pos ho1, if_neg hb1, hk]
        rfl
    · obtain ⟨k, hk, hk2⟩ := ih f mem ((hand + 1) % n) (Nat.mod_lt _ hn) hlen (by omega)
        (by rw [cyc_step]; exact ho)
      refine ⟨k + 1, ?_, by omega⟩
      rw [clock_loop_probes, if_neg ho1, hk]
      rfl

/-- C20 (amended): with the hand inside `[0, frame_count)` and at least one
occupied frame, `clock_replacement` selects its victim inside the loop within
at most `2 * frame_count` probes, and within `frame_count + 1` probes when
the frame under the hand is occupied (in particular when every frame is
occupied); the fallback after the loop is not reached, the returned index
lies in `[0, frame_count)` and names an occupied frame, and `clock_hand`
stays in `[0, frame_count)`. -/
theorem clock_replacement_probe_bound (s : SimState)
    (hh : s.clock_hand < s.frame_count)
    (hocc : ∃ j, j < s.frame_count ∧ (frameAt s.physical_memory j).occupied ≠ 0) :
    ∃ k, clock_replacement_probes s = some k ∧ 1 ≤ k ∧ k ≤ 2 * s.frame_count ∧
      ((frameAt s.physical_memory s.clock_hand).occupied ≠ 0 → k ≤ s.frame_count + 1) ∧
      ((∀ j, j < s.frame_count → (frameAt s.physical_memory j).occupied ≠ 0) →
        k ≤ s.frame_count + 1) ∧
      (clock_replacement s).1 < s.frame_count ∧
      (frameAt s.physical_memory (clock_replacement s).1).occupied ≠ 0 ∧
      (frameAt (clock_replacement s).2.physical_memory (clock_replacement s).1).occupied ≠ 0 ∧
      (clock_replacement s).2.clock_hand < s.frame_count := by
  obtain ⟨j, hj, hoj⟩ := hocc
  obtain ⟨d, hd, hdj⟩ := cyc_offset s.frame_count s.clock_hand j hh hj
  obtain ⟨k, hk, hk2⟩ := clock_loop_probes_occupied s.frame_count d (s.frame_count * 2)
    s.physical_memory s.clock_hand hh rfl (by omega) (by rw [hdj]; exact hoj)
  obtain ⟨r1, r2, r3⟩ := clock_loop_probes_some s.frame_count _ _ _ _ hk
  have hhand : (frameAt s.physical_memory s.clock_hand).occupied ≠ 0 → k ≤ s.frame_count + 1 := by
    intro ho
    obtain ⟨k2, hk3, hk4⟩ := clock_loop_probes_occupied s.frame_count 0 (s.frame_count * 2)
      s.physical_memory s.clock_hand hh rfl (by omega)
      (by rw [Nat.add_zero, Nat.mod_eq_of_lt hh]; exact ho)
    rw [hk] at hk3
    have : k = k2 := Option.some.inj hk3
    omega
  have e1 : (clock_replacement s).1
      = (clock_loop s.frame_count (s.frame_count * 2) s.physical_memory s.clock_hand).1 := rfl
  have e2 : (clock_replacement s).2.physical_memory
      = (clock_loop s.frame_count (s.frame_count * 2) s.physical_memory s.clock_hand).2.1 := rfl
  have e3 : (clock_replacement s).2.clock_hand
      = (clock_loop s.frame_count (s.frame_count * 2) s.physical_memory s.clock_hand).2.2 := rfl
  have hafter : (frameAt (clock_replacement s).2.physical_memory
      (clock_replacement s).1).occupied ≠ 0 := by
    have hm := clock_loop_clearRef s.frame_count (s.frame_count * 2) s.physical_memory
      s.clock_hand
    have hlt := occupied_lt_length r3
    have hlen := clock_loop_length s.frame_count (s.frame_count * 2) s.physical_memory
      s.clock_hand
    rw [e1, e2]
    have h1 : ((clock_loop s.frame_count (s.frame_count * 2) s.physical_memory
        s.clock_hand).2.1.map clearRef)[(clock_loop s.frame_count (s.frame_count * 2)
          s.physical_memory s.clock_hand).1]?
        = (s.physical_memory.map clearRef)[(clock_loop s.frame_count (s.frame_count * 2)
          s.physical_memory s.clock_hand).1]? := by rw [hm]
    rw [List.getElem?_map, List.getElem?_map, List.getElem?_eq_getElem (by rw [hlen]; exact hlt),
      List.getElem?_eq_getElem hlt] at h1
    have h2 := Option.some.inj h1
    have h3 : ∀ (l : List Frame) (i : Nat) (h : i < l.length), frameAt l i = l[i] := by
      intro l i h
      simp [frameAt, List.getD_eq_getElem?_getD, List.getElem?_eq_getElem h]
    rw [h3 _ _ (by rw [hlen]; exact hlt)]
    rw [h3 _ _ hlt] at r3
    have h4 := congrArg Frame.occupied h2
    simp only [clearRef] at h4
    rw [h4]
    exact r3
  exact ⟨k, hk, r1, by omega, hhand,
    fun hall => hhand (hall _ hh),
    (clock_loop_lt _ _ _ _ hh).1, r3, hafter, (clock_loop_lt _ _ _ _ hh).2⟩

theorem clock_replacement_probe_bound_witness :
    ∃ k, clock_replacement_probes
        (simulate_page_replacement Algo.Clock [7, 0, 1] (fun _ => 0)
          (init_state 3 (fun _ _ => 0))) = some k ∧ 1 ≤ k ∧ k ≤ 2 * 3 :=
  (clock_replacement_probe_bound
      (simulate_page_replacement Algo.Clock [7, 0, 1] (fun _ => 0)
        (init_state 3 (fun _ _ => 0)))
      (by decide) ⟨0, by decide, by decide⟩).imp
    (fun _ h => ⟨h.1, h.2.1, h.2.2.1⟩)

/-- C20 as stated fails: with three frames of which only frame 1 is occupied,
its reference bit set, and the hand at 0, `clock_replacement` returns frame 1
at its fifth probe, which is more than `frame_count + 1 = 4`. -/
theorem clock_replacement_five_probes :
    (0 : Nat) < 3 ∧
    (frameAt
      [{ frame_no := 0, page_no := -1, process_id := -1, occupied := 0, reference_bit := 0,
         modify_bit := 0, age_counter := 0, load_time := -1 },
       { frame_no := 1, page_no := 4, process_id := 1, occupied := 1, reference_bit := 1,
         modify_bit := 0, age_counter := 0, load_time := 1 },
       { frame_no := 2, page_no := -1, process_id := -1, occupied := 0, reference_bit := 0,
         modify_bit := 0, age_counter := 0, load_time := -1 }] 1).occupied ≠ 0 ∧
    clock_replacement_probes
      { (init_state 0 (fun _ _ => 0)) with
        physical_memory :=
          [{ frame_no := 0, page_no := -1, process_id := -1, occupied := 0, reference_bit := 0,
             modify_bit := 0, age_counter := 0, load_time := -1 },
           { frame_no := 1, page_no := 4, process_id := 1, occupied := 1, reference_bit := 1,
             modify_bit := 0, age_counter := 0, load_time := 1 },
           { frame_no := 2, page_no := -1, process_id := -1, occupied := 0, reference_bit := 0,
             modify_bit := 0, age_counter := 0, load_time := -1 }]
        clock_hand := 0 } = some 5 ∧
    ¬ (5 ≤ 3 + 1) ∧
    (clock_replacement
      { (init_state 0 (fun _ _ => 0)) with
        physical_memory :=
          [{ frame_no := 0, page_no := -1, process_id := -1, occupied := 0, reference_bit := 0,
             modify_bit := 0, age_counter := 0, load_time := -1 },
           { frame_no := 1, page_no := 4, process_id := 1, occupied := 1, reference_bit := 1,
             modify_bit := 0, age_counter := 0, load_time := 1 },
           { frame_no := 2, page_no := -1, process_id := -1, occupied := 0, reference_bit := 0,
             modify_bit := 0, age_counter := 0, load_time := -1 }]
        clock_hand := 0 }).1 = 1 :=
  ⟨by decide, by decide, by decide, by decide, by decide⟩


/-! ## Time stamps along a run -/

theorem load_page_load_time (s : SimState) (f : Nat) (p m : Int) (j : Nat) :
    (frameAt (load_page s f p m).physical_memory j).load_time
        = (if j = f ∧ f < s.physical_memory.length then s.time_counter
           else (frameAt s.physical_memory j).load_time) ∧
      ((frameAt (load_page s f p m).physical_memory j).occupied ≠ 0 →
        ¬ (j = f ∧ f < s.physical_memory.length) →
        (frameAt s.physical_memory j).occupied ≠ 0) := by
  rw [load_page_physical_memory, frameAt_updFrame]
  split
  · next h => exact ⟨rfl, fun _ hc => absurd h hc⟩
  · exact ⟨rfl, fun h _ => h⟩

theorem page_hit_load_time (s : SimState) (f : Nat) (p : Int) (j : Nat) :
    (frameAt (page_hit s f p).physical_memory j).load_time
        = (if j = f ∧ f < s.physical_memory.length then s.time_counter
           else (frameAt s.physical_memory j).load_time) ∧
      ((frameAt (page_hit s f p).physical_memory j).occupied ≠ 0 →
        ¬ (j = f ∧ f < s.physical_memory.length) →
        (frameAt s.physical_memory j).occupied ≠ 0) := by
  rw [page_hit_physical_memory, frameAt_updFrame]
  split
  · next h => exact ⟨rfl, fun _ hc => absurd h hc⟩
  · exact ⟨rfl, fun h _ => h⟩

theorem select_victim_load_time (algo : Algo) (refs : List Int) (i : Nat) (s : SimState)
    (j : Nat) :
    (frameAt (select_victim algo refs i s).2.physical_memory j).load_time
      = (frameAt s.physical_memory j).load_time := by
  have h := clearRef_frameAt (select_victim_clearRef algo refs i s) j
  have h1 := congrArg Frame.load_time h
  exact h1

/-- One step keeps every occupied frame's `load_time` at or below
`time_counter`, which it increments by one. -/
theorem sim_step_load_time_le (algo : Algo) (refs : List Int) (rnd : Nat → Int) (i : Nat)
    (s : SimState)
    (h : ∀ j, (frameAt s.physical_memory j).occupied ≠ 0 →
      (frameAt s.physical_memory j).load_time ≤ s.time_counter) :
    (sim_step algo refs rnd i s).time_counter = s.time_counter + 1 ∧
    ∀ j, (frameAt (sim_step algo refs rnd i s).physical_memory j).occupied ≠ 0 →
      (frameAt (sim_step algo refs rnd i s).physical_memory j).load_time
        ≤ (sim_step algo refs rnd i s).time_counter := by
  rcases sim_step_ev_cases refs i s with ⟨f, hf⟩ | ⟨hf, f, hfree⟩ | ⟨hf, hfree⟩
  · have e : sim_step algo refs rnd i s = page_hit (tick s) f (refs.getD i 0) := by
      unfold sim_step
      rw [sim_step_ev_hit algo refs rnd i s f hf]
    have et : (sim_step algo refs rnd i s).time_counter = s.time_counter + 1 := by
      rw [e]; rfl
    refine ⟨et, ?_⟩
    intro j hj
    rw [et]
    rw [e] at hj ⊢
    obtain ⟨h1, h2⟩ := page_hit_load_time (tick s) f (refs.getD i 0) j
    rw [h1]
    split
    · rw [tick_time_counter]
    · next hc =>
      have := h j (h2 hj hc)
      rw [tick_physical_memory]
      omega
  · have e : sim_step algo refs rnd i s
        = load_page (tick_fault s) f (refs.getD i 0) (rnd i) := by
      unfold sim_step
      rw [sim_step_ev_free algo refs rnd i s f hf hfree]
    have et : (sim_step algo refs rnd i s).time_counter = s.time_counter + 1 := by
      rw [e]; rfl
    refine ⟨et, ?_⟩
    intro j hj
    rw [et]
    rw [e] at hj ⊢
    obtain ⟨h1, h2⟩ := load_page_load_time (tick_fault s) f (refs.getD i 0) (rnd i) j
    rw [h1]
    split
    · rw [tick_fault_time_counter]
    · next hc =>
      have := h j (h2 hj hc)
      rw [tick_fault_physical_memory]
      omega
  · have e : sim_step algo refs rnd i s
        = load_page
            (remove_old_page (select_victim algo refs i (tick_fault s)).2
              (select_victim algo refs i (tick_fault s)).1)
            (select_victim algo refs i (tick_fault s)).1 (refs.getD i 0) (rnd i) := by
      unfold sim_step
      rw [sim_step_ev_replace algo refs rnd i s hf hfree]
    have etc : (remove_old_page (select_victim algo refs i (tick_fault s)).2
        (select_victim algo refs i (tick_fault s)).1).time_counter = s.time_counter + 1 := by
      rw [remove_old_page_time_counter, select_victim_time_counter, tick_fault_time_counter]
    have et : (sim_step algo refs rnd i s).time_counter = s.time_counter + 1 := by
      rw [e]; exact etc
    refine ⟨et, ?_⟩
    intro j hj
    rw [et]
    rw [e] at hj ⊢
    obtain ⟨h1, h2⟩ := load_page_load_time
      (remove_old_page (select_victim algo refs i (tick_fault s)).2
        (select_victim algo refs i (tick_fault s)).1)
      (select_victim algo refs i (tick_fault s)).1 (refs.getD i 0) (rnd i) j
    rw [h1]
    split
    · rw [etc]
    · next hc =>
      have ho := h2 hj hc
      rw [remove_old_page_physical_memory] at ho ⊢
      rw [(select_victim_frameAt algo refs i (tick_fault s) j).2.2.1,
        tick_fault_physical_memory] at ho
      rw [select_victim_load_time, tick_fault_physical_memory]
      have := h j ho
      omega

/-- Along every run that starts from the reset state, after `k` steps
`time_counter` is `k` and every occupied frame has `load_time <= time_counter`:
the setting in which `lru_replacement` finds a candidate. -/
theorem sim_steps_load_time_le (algo : Algo) (refs : List Int) (rnd : Nat → Int)
    (s : SimState) (k : Nat) :
    (sim_steps algo refs rnd (sim_reset s) k).time_counter = (k : Int) ∧
    ∀ j, (frameAt (sim_steps algo refs rnd (sim_reset s) k).physical_memory j).occupied ≠ 0 →
      (frameAt (sim_steps algo refs rnd (sim_reset s) k).physical_memory j).load_time
        ≤ (sim_steps algo refs rnd (sim_reset s) k).time_counter := by
  induction k with
  | zero =>
    refine ⟨rfl, ?_⟩
    intro j hj
    exfalso
    apply hj
    have hmem : ∀ fr ∈ (sim_reset s).physical_memory, fr.occupied = 0 := by
      intro fr hfr
      simp only [sim_reset, List.mem_map] at hfr
      obtain ⟨a, _, rfl⟩ := hfr
      rfl
    by_cases hlt : j < (sim_reset s).physical_memory.length
    · exact hmem _ (frameAt_mem hlt)
    · simp [sim_steps, frameAt, List.getD_eq_getElem?_getD,
        List.getElem?_eq_none (Nat.le_of_not_lt hlt)]
      rfl
  | succ k ih =>
    obtain ⟨h1, h2⟩ := sim_step_load_time_le algo refs rnd k
      (sim_steps algo refs rnd (sim_reset s) k) ih.2
    rw [sim_steps]
    refine ⟨?_, h2⟩
    rw [h1, ih.1]
    push_cast
    rfl


/-! ## Invariants of the TLB simulation loop -/

theorem tlbOk_write (k : Nat) (s : TLBState) (w : Nat) (e : TLBEntry) (t : TLBState)
    (h : TLBOk k s) (hw : w < s.tlb_size) (h32 : s.tlb_size ≤ 32)
    (htlb : t.tlb = s.tlb.set w e) (hsize : t.tlb_size = s.tlb_size)
    (hcount : t.tlb_hits + t.tlb_misses = s.tlb_hits + s.tlb_misses + 1)
    (hvalid : e.valid ≠ 0) (hstamp : e.last_used = (k : Int) + 1)
    (hlow : ∀ j, j < w → (tlbAt s.tlb j).valid ≠ 0)
    (hpage : ∀ j, j < s.tlb_size → j ≠ w → (tlbAt s.tlb j).valid ≠ 0 →
      (tlbAt s.tlb j).page_no ≠ e.page_no) :
    TLBOk (k + 1) t := by
  obtain ⟨hlen, hcnt, ⟨m, hm, hpre⟩, hst, hpg, hlu⟩ := h
  have hwl : w < s.tlb.length := by omega
  have hself : tlbAt t.tlb w = e := by rw [htlb]; exact tlbAt_set_self _ _ _ hwl
  have hne : ∀ j, j ≠ w → tlbAt t.tlb j = tlbAt s.tlb j := by
    intro j hj; rw [htlb]; exact tlbAt_set_ne _ _ _ _ hj
  refine ⟨?_, ?_, ?_, ?_, ?_, ?_⟩
  · rw [htlb, List.length_set]; exact hlen
  · rw [hcount, hcnt]; push_cast; rfl
  · rw [hsize]
    by_cases hwv : (tlbAt s.tlb w).valid ≠ 0
    · refine ⟨m, hm, ?_⟩
      intro j hj
      by_cases hjw : j = w
      · subst hjw
        rw [hself]
        exact ⟨fun _ => (hpre j hj).mp hwv, fun _ => hvalid⟩
      · rw [hne j hjw]; exact hpre j hj
    · have hwm : w = m := by
        have h1 : ¬ w < m := fun hc => hwv ((hpre w hw).mpr hc)
        have h2 : ¬ m < w := fun hc => absurd ((hpre m (by omega)).mp (hlow m hc))
          (lt_irrefl m)
        omega
      refine ⟨w + 1, by omega, ?_⟩
      intro j hj
      by_cases hjw : j = w
      · subst hjw
        rw [hself]
        exact ⟨fun _ => by omega, fun _ => hvalid⟩
      · rw [hne j hjw, hpre j hj]
        omega
  · rw [hsize]
    intro j hj hv
    by_cases hjw : j = w
    · subst hjw
      rw [hself, hstamp]
      push_cast
      omega
    · rw [hne j hjw] at hv ⊢
      have := hst j hj hv
      push_cast
      omega
  · rw [hsize]
    intro j1 j2 hj1 hj2 hv1 hv2 hp
    by_cases h1 : j1 = w
    · by_cases h2 : j2 = w
      · rw [h1, h2]
      · exfalso
        rw [h1, hself, hne j2 h2] at hp
        rw [hne j2 h2] at hv2
        exact hpage j2 hj2 h2 hv2 hp.symm
    · by_cases h2 : j2 = w
      · exfalso
        rw [h2, hself, hne j1 h1] at hp
        rw [hne j1 h1] at hv1
        exact hpage j1 hj1 h1 hv1 hp
      · rw [hne j1 h1] at hv1 hp
        rw [hne j2 h2] at hv2 hp
        exact hpg j1 j2 hj1 hj2 hv1 hv2 hp
  · rw [hsize]
    intro j1 j2 hj1 hj2 hv1 hv2 hp
    by_cases h1 : j1 = w
    · by_cases h2 : j2 = w
      · rw [h1, h2]
      · exfalso
        rw [h1, hself, hne j2 h2, hstamp] at hp
        rw [hne j2 h2] at hv2
        have := hst j2 hj2 hv2
        omega
    · by_cases h2 : j2 = w
      · exfalso
        rw [h2, hself, hne j1 h1, hstamp] at hp
        rw [hne j1 h1] at hv1
        have := hst j1 hj1 hv1
        omega
      · rw [hne j1 h1] at hv1 hp
        rw [hne j2 h2] at hv2 hp
        exact hlu j1 j2 hj1 hj2 hv1 hv2 hp

theorem tlb_step_tlb_size (hit_time miss_time : Int) (refs : List Int) (i : Nat)
    (s : TLBState) : (tlb_step hit_time miss_time refs i s).tlb_size = s.tlb_size := by
  unfold tlb_step
  simp only []
  split <;> rfl

theorem tlb_steps_tlb_size (hit_time miss_time : Int) (refs : List Int) (s : TLBState)
    (k : Nat) : (tlb_steps hit_time miss_time refs s k).tlb_size = s.tlb_size := by
  induction k with
  | zero => rfl
  | succ k ih => rw [tlb_steps, tlb_step_tlb_size, ih]

theorem tlbOk_step (hit_time miss_time : Int) (refs : List Int) (k : Nat) (s : TLBState)
    (h : TLBOk k s) (h1 : 1 ≤ s.tlb_size) (h32 : s.tlb_size ≤ 32) :
    TLBOk (k + 1) (tlb_step hit_time miss_time refs k s) := by
  have hlen : s.tlb.length = 32 := h.1
  by_cases hs : search_tlb s.tlb s.tlb_size (refs.getD k 0) = -1
  · have hmiss := (search_tlb_from_neg_one (refs.getD k 0) s.tlb s.tlb_size 0).mp hs
    have e := tlb_step_miss hit_time miss_time refs k s hs
    have hw : update_tlb_slot s.tlb s.tlb_size < s.tlb_size ∧
        ∀ j, j < update_tlb_slot s.tlb s.tlb_size → (tlbAt s.tlb j).valid ≠ 0 := by
      unfold update_tlb_slot
      by_cases he : empty_slot_from s.tlb s.tlb_size 0 ≠ -1
      · rw [if_pos he]
        obtain ⟨f, e1, e2, _, _, e5⟩ := empty_slot_from_some s.tlb s.tlb_size 0 he
        rw [e1, Nat.zero_add, Int.toNat_ofNat]
        exact ⟨e2, e5⟩
      · rw [if_neg he]
        have hall := (empty_slot_from_none s.tlb s.tlb_size 0).mp (not_not.mp he)
        have hidx := (tlb_lru_index_spec s.tlb s.tlb_size h1 (by omega)).1
        exact ⟨hidx, fun j hj => hall j (by omega) (by omega)⟩
    refine tlbOk_write k s (update_tlb_slot s.tlb s.tlb_size)
      { page_no := refs.getD k 0, frame_no := refs.getD k 0 * 2 + 1, valid := 1,
        last_used := (k : Int) + 1 }
      _ h hw.1 h32 ?_ ?_ ?_ (show (1 : Int) ≠ 0 by decide) rfl hw.2 ?_
    · rw [e]; rfl
    · rw [e]
    · rw [e]; simp only []; omega
    · intro j hj _ hv hp
      exact hmiss j hj (by omega) ⟨hv, hp⟩
  · obtain ⟨f, e1, e2, _, e4, e5, _⟩ :=
      search_tlb_from_found (refs.getD k 0) s.tlb s.tlb_size 0 hs
    rw [Nat.zero_add] at e1
    have e := tlb_step_hit hit_time miss_time refs k s f e1
    have hh := h
    obtain ⟨_, _, ⟨m, hm, hpre⟩, _, hpg, _⟩ := hh
    have hfm : f < m := (hpre f e2).mp e4
    refine tlbOk_write k s f { tlbAt s.tlb f with last_used := (k : Int) + 1 }
      _ h e2 h32 ?_ ?_ ?_ e4 rfl ?_ ?_
    · rw [e]
    · rw [e]
    · rw [e]; simp only []; omega
    · intro j hj
      exact (hpre j (by omega)).mpr (by omega)
    · intro j hj hjf hv hp
      exact hjf (hpg j f hj e2 hv e4 hp)

theorem tlbOk_start (tlb_size : Nat) : TLBOk 0 (tlb_start tlb_size) := by
  have hinv : ∀ j, (tlbAt (tlb_start tlb_size).tlb j).valid = 0 := by
    intro j
    have : (tlb_start tlb_size).tlb = List.replicate 32 empty_tlb_entry := rfl
    rw [this]
    simp only [tlbAt, List.getD_eq_getElem?_getD, List.getElem?_replicate]
    split <;> rfl
  refine ⟨rfl, rfl, ⟨0, Nat.zero_le _, fun j _ => ?_⟩, ?_, ?_, ?_⟩
  · exact ⟨fun h => absurd (hinv j) h, fun h => absurd h (Nat.not_lt_zero j)⟩
  · intro j _ hv; exact absurd (hinv j) hv
  · intro j1 _ _ _ hv; exact absurd (hinv j1) hv
  · intro j1 _ _ _ hv; exact absurd (hinv j1) hv

theorem tlbOk_steps (hit_time miss_time : Int) (refs : List Int) (tlb_size : Nat)
    (h1 : 1 ≤ tlb_size) (h32 : tlb_size ≤ 32) (k : Nat) :
    TLBOk k (tlb_steps hit_time miss_time refs (tlb_start tlb_size) k) := by
  induction k with
  | zero => exact tlbOk_start tlb_size
  | succ k ih =>
    rw [tlb_steps]
    have hsz : (tlb_steps hit_time miss_time refs (tlb_start tlb_size) k).tlb_size = tlb_size := by
      rw [tlb_steps_tlb_size]; rfl
    exact tlbOk_step hit_time miss_time refs k _ ih (by rw [hsz]; exact h1)
      (by rw [hsz]; exact h32)


/-- C22: for a capacity `tlb_size` in `[2, 32]` and a reference string, the
state `s` reached from `init_tlb` after `k` iterations of the simulation loop
(`k = 0` is the state right after `init_tlb`; the loop runs `k` up to the
length of the string) satisfies: the valid entries
among the first `tlb_size` slots hold pairwise distinct pages and pairwise
distinct `last_used` values, they are exactly the first `m` slots for some
`m <= tlb_size`, and `tlb_hits + tlb_misses = k`; the next iteration calls
`update_tlb` exactly when `search_tlb` returns -1. -/
theorem tlb_loop_invariants (hit_time miss_time : Int) (refs : List Int) (tlb_size k : Nat)
    (h2 : 2 ≤ tlb_size) (h32 : tlb_size ≤ 32) (s : TLBState)
    (hs : s = tlb_steps hit_time miss_time refs (tlb_start tlb_size) k) :
    s.tlb_size = tlb_size ∧
    (∀ j1 j2, j1 < tlb_size → j2 < tlb_size →
      (tlbAt s.tlb j1).valid ≠ 0 → (tlbAt s.tlb j2).valid ≠ 0 →
      (tlbAt s.tlb j1).page_no = (tlbAt s.tlb j2).page_no → j1 = j2) ∧
    (∀ j1 j2, j1 < tlb_size → j2 < tlb_size →
      (tlbAt s.tlb j1).valid ≠ 0 → (tlbAt s.tlb j2).valid ≠ 0 →
      (tlbAt s.tlb j1).last_used = (tlbAt s.tlb j2).last_used → j1 = j2) ∧
    (∃ m, m ≤ tlb_size ∧ ∀ j, j < tlb_size → ((tlbAt s.tlb j).valid ≠ 0 ↔ j < m)) ∧
    s.tlb_hits + s.tlb_misses = (k : Int) ∧
    (∀ j, j < tlb_size → (tlbAt s.tlb j).valid ≠ 0 →
      1 ≤ (tlbAt s.tlb j).last_used ∧ (tlbAt s.tlb j).last_used ≤ (k : Int)) ∧
    (k = 0 → s.tlb = init_tlb ∧ ∀ j, (tlbAt s.tlb j).valid = 0) ∧
    (search_tlb s.tlb s.tlb_size (refs.getD k 0) = -1 →
      (tlb_step hit_time miss_time refs k s).tlb
        = update_tlb s.tlb s.tlb_size (refs.getD k 0) (refs.getD k 0 * 2 + 1) ((k : Int) + 1)) ∧
    (search_tlb s.tlb s.tlb_size (refs.getD k 0) ≠ -1 →
      ∀ j, (tlbAt (tlb_step hit_time miss_time refs k s).tlb j).valid = (tlbAt s.tlb j).valid ∧
        (tlbAt (tlb_step hit_time miss_time refs k s).tlb j).page_no
          = (tlbAt s.tlb j).page_no ∧
        (tlbAt (tlb_step hit_time miss_time refs k s).tlb j).frame_no
          = (tlbAt s.tlb j).frame_no) := by
  have hsz : s.tlb_size = tlb_size := by rw [hs, tlb_steps_tlb_size]; rfl
  have hok : TLBOk k s := by
    rw [hs]; exact tlbOk_steps hit_time miss_time refs tlb_size (by omega) h32 k
  obtain ⟨hlen, hcnt, hpre, hst, hpg, hlu⟩ := hok
  rw [hsz] at hpre hst hpg hlu
  refine ⟨hsz, hpg, hlu, hpre, hcnt, hst, ?_, ?_, ?_⟩
  · intro h0
    have e : s.tlb = init_tlb := by rw [hs, h0]; rfl
    refine ⟨e, fun j => ?_⟩
    rw [e]
    simp only [init_tlb, tlbAt, List.getD_eq_getElem?_getD, List.getElem?_replicate]
    split <;> rfl
  · intro hmiss
    rw [tlb_step_miss hit_time miss_time refs k s hmiss]
  · intro hhit j
    obtain ⟨f, e1, e2, _, _, _, _⟩ :=
      search_tlb_from_found (refs.getD k 0) s.tlb s.tlb_size 0 hhit
    rw [Nat.zero_add] at e1
    have e : (tlb_step hit_time miss_time refs k s).tlb
        = s.tlb.set f { tlbAt s.tlb f with last_used := (k : Int) + 1 } := by
      rw [tlb_step_hit hit_time miss_time refs k s f e1]
    rw [e]
    by_cases hjf : j = f
    · subst hjf
      rw [tlbAt_set_self _ _ _ (by omega)]
      exact ⟨rfl, rfl, rfl⟩
    · rw [tlbAt_set_ne _ _ _ _ hjf]
      exact ⟨rfl, rfl, rfl⟩

theorem tlb_loop_invariants_witness :
    (tlb_steps 10 100 [3, 5, 3, 7, 5] (tlb_start 2) 5).tlb_hits
      + (tlb_steps 10 100 [3, 5, 3, 7, 5] (tlb_start 2) 5).tlb_misses = 5 ∧
    (∃ m, m ≤ 2 ∧ ∀ j, j < 2 →
      ((tlbAt (tlb_steps 10 100 [3, 5, 3, 7, 5] (tlb_start 2) 5).tlb j).valid ≠ 0 ↔ j < m)) :=
  ⟨(tlb_loop_invariants 10 100 [3, 5, 3, 7, 5] 2 5 (by decide) (by decide)
      (tlb_steps 10 100 [3, 5, 3, 7, 5] (tlb_start 2) 5) rfl).2.2.2.2.1,
   (tlb_loop_invariants 10 100 [3, 5, 3, 7, 5] 2 5 (by decide) (by decide)
      (tlb_steps 10 100 [3, 5, 3, 7, 5] (tlb_start 2) 5) rfl).2.2.2.1⟩


/-! ## Time stamps record the last reference -/

theorem occupied_page_inj (mem : List Frame) (hnd : (slots mem).reduceOption.Nodup)
    (j1 j2 : Nat) (h1 : (frameAt mem j1).occupied ≠ 0) (h2 : (frameAt mem j2).occupied ≠ 0)
    (hp : (frameAt mem j1).page_no = (frameAt mem j2).page_no) : j1 = j2 := by
  have e1 : (slots mem)[j1]? = some (some (frameAt mem j1).page_no) := by
    rw [slots_getElem? mem j1 (occupied_lt_length h1)]
    exact congrArg some (slot_eq_some.mpr ⟨h1, rfl⟩)
  have e2 : (slots mem)[j2]? = some (some (frameAt mem j1).page_no) := by
    rw [slots_getElem? mem j2 (occupied_lt_length h2)]
    exact congrArg some (slot_eq_some.mpr ⟨h2, hp.symm⟩)
  exact nodup_reduceOption_index hnd e1 e2

theorem stamps_write (refs : List Int) (k : Nat) (mem0 mem1 : List Frame) (v : Nat)
    (g : Frame → Frame)
    (h : ∀ j, (frameAt mem0 j).occupied ≠ 0 →
      ∃ t : Nat, (frameAt mem0 j).load_time = (t : Int) ∧ 1 ≤ t ∧ t ≤ k ∧
        refs.getD (t - 1) 0 = (frameAt mem0 j).page_no ∧
        ∀ t2, t < t2 → t2 ≤ k → refs.getD (t2 - 1) 0 ≠ (frameAt mem0 j).page_no)
    (hsame : ∀ j, (frameAt mem1 j).occupied = (frameAt mem0 j).occupied ∧
      (frameAt mem1 j).load_time = (frameAt mem0 j).load_time ∧
      (frameAt mem1 j).page_no = (frameAt mem0 j).page_no)
    (hg1 : (g (frameAt mem1 v)).load_time = (k : Int) + 1)
    (hg2 : (g (frameAt mem1 v)).page_no = refs.getD k 0)
    (hother : ∀ j, j ≠ v → (frameAt mem0 j).occupied ≠ 0 →
      (frameAt mem0 j).page_no ≠ refs.getD k 0) :
    ∀ j, (frameAt (updFrame mem1 v g) j).occupied ≠ 0 →
      ∃ t : Nat, (frameAt (updFrame mem1 v g) j).load_time = (t : Int) ∧ 1 ≤ t ∧ t ≤ k + 1 ∧
        refs.getD (t - 1) 0 = (frameAt (updFrame mem1 v g) j).page_no ∧
        ∀ t2, t < t2 → t2 ≤ k + 1 →
          refs.getD (t2 - 1) 0 ≠ (frameAt (updFrame mem1 v g) j).page_no := by
  intro j hj
  rw [frameAt_updFrame] at hj ⊢
  by_cases hc : j = v ∧ v < mem1.length
  · rw [if_pos hc]
    refine ⟨k + 1, ?_, by omega, le_refl _, ?_, fun t2 h1 h2 => by omega⟩
    · rw [hg1]; push_cast; rfl
    · rw [hg2, Nat.add_sub_cancel]
  · rw [if_neg hc] at hj ⊢
    have hjv : j ≠ v := fun e => hc ⟨e, by rw [← e]; exact occupied_lt_length hj⟩
    obtain ⟨s1, s2, s3⟩ := hsame j
    rw [s1] at hj
    obtain ⟨t, t1, t2, t3, t4, t5⟩ := h j hj
    rw [s2, s3]
    refine ⟨t, t1, t2, by omega, t4, ?_⟩
    intro u hu1 hu2
    by_cases hu : u ≤ k
    · exact t5 u hu1 hu
    · have huk : u = k + 1 := by omega
      rw [huk, Nat.add_sub_cancel]
      exact fun e => hother j hjv hj e.symm

theorem stampsOk_step (algo : Algo) (refs : List Int) (rnd : Nat → Int) (k : Nat)
    (s : SimState) (h : StampsOk refs k s) (hnd : (slots s.physical_memory).reduceOption.Nodup) :
    StampsOk refs (k + 1) (sim_step algo refs rnd k s) := by
  obtain ⟨htc, hfr⟩ := h
  have hle : ∀ j, (frameAt s.physical_memory j).occupied ≠ 0 →
      (frameAt s.physical_memory j).load_time ≤ s.time_counter := by
    intro j hj
    obtain ⟨t, t1, _, t3, _⟩ := hfr j hj
    rw [t1, htc]
    exact_mod_cast t3
  refine ⟨?_, ?_⟩
  · rw [(sim_step_load_time_le algo refs rnd k s hle).1, htc]
    push_cast
    rfl
  rcases sim_step_ev_cases refs k s with ⟨f, hf⟩ | ⟨hf, f, hfree⟩ | ⟨hf, hfree⟩
  · obtain ⟨f1, f2, f3, _⟩ := find_page_some s.physical_memory _ f hf
    have hpm : (sim_step algo refs rnd k s).physical_memory
        = updFrame s.physical_memory f (fun fr =>
            { fr with reference_bit := 1, load_time := s.time_counter + 1 }) := by
      unfold sim_step
      rw [sim_step_ev_hit algo refs rnd k s f hf]
      rfl
    rw [hpm]
    refine stamps_write refs k s.physical_memory s.physical_memory f _ hfr
      (fun j => ⟨rfl, rfl, rfl⟩) ?_ f3 ?_
    · show s.time_counter + 1 = (k : Int) + 1
      rw [htc]
    · intro j hjf hj hp
      exact hjf (occupied_page_inj s.physical_memory hnd j f hj f2 (hp.trans f3.symm))
  · have hpm : (sim_step algo refs rnd k s).physical_memory
        = updFrame s.physical_memory f (fun fr =>
            { fr with occupied := 1, page_no := refs.getD k 0, process_id := 1,
                      reference_bit := 1, modify_bit := rnd k,
                      load_time := s.time_counter + 1 }) := by
      unfold sim_step
      rw [sim_step_ev_free algo refs rnd k s f hf hfree]
      rfl
    rw [hpm]
    refine stamps_write refs k s.physical_memory s.physical_memory f _ hfr
      (fun j => ⟨rfl, rfl, rfl⟩) ?_ rfl ?_
    · show s.time_counter + 1 = (k : Int) + 1
      rw [htc]
    · intro j _ hj hp
      exact (find_page_none s.physical_memory _).mp hf _ (frameAt_mem (occupied_lt_length hj))
        ⟨hj, hp⟩
  · have hpm : (sim_step algo refs rnd k s).physical_memory
        = updFrame (select_victim algo refs k (tick_fault s)).2.physical_memory
            (select_victim algo refs k (tick_fault s)).1 (fun fr =>
            { fr with occupied := 1, page_no := refs.getD k 0, process_id := 1,
                      reference_bit := 1, modify_bit := rnd k,
                      load_time := s.time_counter + 1 }) := by
      unfold sim_step
      rw [sim_step_ev_replace algo refs rnd k s hf hfree, load_page_physical_memory,
        remove_old_page_physical_memory, remove_old_page_time_counter,
        select_victim_time_counter, tick_fault_time_counter]
    rw [hpm]
    refine stamps_write refs k s.physical_memory _ _ _ hfr ?_ ?_ rfl ?_
    · intro j
      have h1 := select_victim_frameAt algo refs k (tick_fault s) j
      have h2 := select_victim_load_time algo refs k (tick_fault s) j
      rw [tick_fault_physical_memory] at h1 h2
      exact ⟨h1.2.2.1, h2, h1.2.2.2⟩
    · show s.time_counter + 1 = (k : Int) + 1
      rw [htc]
    · intro j _ hj hp
      exact (find_page_none s.physical_memory _).mp hf _ (frameAt_mem (occupied_lt_length hj))
        ⟨hj, hp⟩

theorem stampsOk_steps (algo : Algo) (refs : List Int) (rnd : Nat → Int) (s : SimState)
    (k : Nat) : StampsOk refs k (sim_steps algo refs rnd (sim_reset s) k) := by
  induction k with
  | zero =>
    refine ⟨rfl, ?_⟩
    intro j hj
    exfalso
    have hlt := occupied_lt_length hj
    have hmem := frameAt_mem hlt
    simp only [sim_steps, sim_reset, List.mem_map] at hmem
    obtain ⟨a, _, ha⟩ := hmem
    have := congrArg Frame.occupied ha
    exact hj this.symm
  | succ k ih =>
    rw [sim_steps]
    exact stampsOk_step algo refs rnd k _ ih (sim_steps_nodup algo refs rnd s k)


theorem sim_step_touched (algo : Algo) (refs : List Int) (rnd : Nat → Int) (k : Nat)
    (s : SimState) (hc : CursorsOk s) :
    ∃ f, f < s.frame_count ∧
      ((sim_step_ev algo refs rnd k s).2 = StepEvent.hit f ∨
        (sim_step_ev algo refs rnd k s).2 = StepEvent.loadFree f ∨
        ∃ old, (sim_step_ev algo refs rnd k s).2 = StepEvent.replace f old) ∧
      (frameAt (sim_step_ev algo refs rnd k s).1.physical_memory f).occupied ≠ 0 ∧
      (frameAt (sim_step_ev algo refs rnd k s).1.physical_memory f).page_no = refs.getD k 0 ∧
      (frameAt (sim_step_ev algo refs rnd k s).1.physical_memory f).load_time
        = s.time_counter + 1 ∧
      (frameAt (sim_step_ev algo refs rnd k s).1.physical_memory f).reference_bit = 1 := by
  rcases sim_step_ev_cases refs k s with ⟨f, hf⟩ | ⟨hf, f, hfree⟩ | ⟨hf, hfree⟩
  · obtain ⟨f1, f2, f3, _⟩ := find_page_some s.physical_memory _ f hf
    have e := sim_step_ev_hit algo refs rnd k s f hf
    have hfr : frameAt (sim_step_ev algo refs rnd k s).1.physical_memory f
        = { frameAt s.physical_memory f with
            reference_bit := 1, load_time := s.time_counter + 1 } := by
      rw [e]
      show frameAt (page_hit (tick s) f (refs.getD k 0)).physical_memory f = _
      rw [page_hit_physical_memory, tick_physical_memory, frameAt_updFrame_self _ f1]
      rfl
    refine ⟨f, f1, Or.inl (by rw [e]), ?_, ?_, ?_, ?_⟩
    · rw [hfr]; exact f2
    · rw [hfr]; exact f3
    · rw [hfr]
    · rw [hfr]
  · have hne : get_free_frame s.physical_memory ≠ -1 := by rw [hfree]; omega
    obtain ⟨f0, g1, g2, _, _⟩ := get_free_frame_spec s.physical_memory hne
    have hff : f0 = f := by rw [hfree] at g1; exact_mod_cast g1.symm
    rw [hff] at g2
    have e := sim_step_ev_free algo refs rnd k s f hf hfree
    have hfr : frameAt (sim_step_ev algo refs rnd k s).1.physical_memory f
        = { frameAt s.physical_memory f with
            occupied := 1, page_no := refs.getD k 0, process_id := 1, reference_bit := 1,
            modify_bit := rnd k, load_time := s.time_counter + 1 } := by
      rw [e]
      show frameAt (load_page (tick_fault s) f (refs.getD k 0) (rnd k)).physical_memory f = _
      rw [load_page_physical_memory, tick_fault_physical_memory, frameAt_updFrame_self _ g2]
      rfl
    refine ⟨f, g2, Or.inr (Or.inl (by rw [e])), ?_, ?_, ?_, ?_⟩
    · rw [hfr]; exact (show (1 : Int) ≠ 0 by decide)
    · rw [hfr]
    · rw [hfr]
    · rw [hfr]
  · have e := sim_step_ev_replace algo refs rnd k s hf hfree
    have hv := (select_victim_lt algo refs k (tick_fault s) hc.1 hc.2).1
    have hv2 : (select_victim algo refs k (tick_fault s)).1
        < (select_victim algo refs k (tick_fault s)).2.physical_memory.length := by
      rw [select_victim_length]; exact hv
    have hfr : frameAt (sim_step_ev algo refs rnd k s).1.physical_memory
          (select_victim algo refs k (tick_fault s)).1
        = { frameAt (select_victim algo refs k (tick_fault s)).2.physical_memory
              (select_victim algo refs k (tick_fault s)).1 with
            occupied := 1, page_no := refs.getD k 0, process_id := 1, reference_bit := 1,
            modify_bit := rnd k, load_time := s.time_counter + 1 } := by
      rw [e]
      show frameAt (load_page _ _ (refs.getD k 0) (rnd k)).physical_memory _ = _
      rw [load_page_physical_memory, remove_old_page_physical_memory,
        remove_old_page_time_counter, select_victim_time_counter, tick_fault_time_counter,
        frameAt_updFrame_self _ hv2]
    refine ⟨_, hv, Or.inr (Or.inr ⟨_, by rw [e]⟩), ?_, ?_, ?_, ?_⟩
    · rw [hfr]; exact (show (1 : Int) ≠ 0 by decide)
    · rw [hfr]
    · rw [hfr]
    · rw [hfr]

theorem lru_replacement_min (s : SimState)
    (h : ∃ j, j < s.frame_count ∧ (frameAt s.physical_memory j).occupied ≠ 0 ∧
      (frameAt s.physical_memory j).load_time ≤ s.time_counter) :
    lru_replacement s < s.frame_count ∧
    (frameAt s.physical_memory (lru_replacement s)).occupied ≠ 0 ∧
    (∀ j, j < s.frame_count → (frameAt s.physical_memory j).occupied ≠ 0 →
      (frameAt s.physical_memory (lru_replacement s)).load_time
        ≤ (frameAt s.physical_memory j).load_time) := by
  obtain ⟨j0, hj0, ho0, hl0⟩ := h
  obtain ⟨h1, h2, h3⟩ := lru_loop_spec s.physical_memory 0 0 (s.time_counter + 1) false
  have hres : lru_replacement s
      = if (lru_loop s.physical_memory 0 (0, s.time_counter + 1, false)).2.2 then
          (lru_loop s.physical_memory 0 (0, s.time_counter + 1, false)).1 else 0 := rfl
  rcases h3 with e | ⟨j, e1, e2, e3, e4, e5, e6, e7⟩
  · exfalso
    rcases h2 j0 hj0 ho0 with c | c
    · rw [e] at c
      have c2 : s.time_counter + 1 ≤ (frameAt s.physical_memory j0).load_time := c
      omega
    · omega
  · have hv : lru_replacement s = j := by
      rw [hres, e3, if_pos rfl, e2, Nat.zero_add]
    rw [hv]
    refine ⟨e1, e4, ?_⟩
    intro j2 hj2 ho2
    rw [e5]
    rcases h2 j2 hj2 ho2 with c | c
    · exact c
    · omega

theorem lru_victim_oldest_reference (refs : List Int) (rnd : Nat → Int) (k : Nat)
    (s : SimState) (hn : 1 ≤ s.frame_count) (h : StampsOk refs k s)
    (hnd : (slots s.physical_memory).reduceOption.Nodup)
    (hf : find_page s.physical_memory (refs.getD k 0) = none)
    (hfree : get_free_frame s.physical_memory = -1) :
    lru_replacement (tick_fault s) < s.frame_count ∧
    (sim_step_ev Algo.LRU refs rnd k s).2
      = StepEvent.replace (lru_replacement (tick_fault s))
          (some (frameAt s.physical_memory (lru_replacement (tick_fault s))).page_no) ∧
    ∃ tv : Nat, 1 ≤ tv ∧ tv ≤ k ∧
      (frameAt s.physical_memory (lru_replacement (tick_fault s))).load_time = (tv : Int) ∧
      refs.getD (tv - 1) 0
        = (frameAt s.physical_memory (lru_replacement (tick_fault s))).page_no ∧
      (∀ t2, tv < t2 → t2 ≤ k → refs.getD (t2 - 1) 0
        ≠ (frameAt s.physical_memory (lru_replacement (tick_fault s))).page_no) ∧
      ∀ j, j < s.frame_count → j ≠ lru_replacement (tick_fault s) →
        ∃ tj : Nat, tv < tj ∧ tj ≤ k ∧
          (frameAt s.physical_memory j).load_time = (tj : Int) ∧
          refs.getD (tj - 1) 0 = (frameAt s.physical_memory j).page_no := by
  obtain ⟨htc, hfr⟩ := h
  have hall := (all_occupied_iff s.physical_memory).mp
    ((get_free_frame_eq_neg_one s.physical_memory).mp hfree)
  have h0 : (0 : Nat) < s.physical_memory.length := hn
  obtain ⟨t0, a1, a2, a3, _⟩ := hfr 0 (hall 0 h0)
  obtain ⟨m1, m2, m3⟩ := lru_replacement_min (tick_fault s)
    ⟨0, hn, hall 0 h0, by
      rw [tick_fault_physical_memory, tick_fault_time_counter, a1, htc]
      have : (t0 : Int) ≤ (k : Int) := by exact_mod_cast a3
      omega⟩
  rw [tick_fault_physical_memory] at m2 m3
  rw [tick_fault_frame_count] at m1 m3
  obtain ⟨tv, v1, v2, v3, v4, v5⟩ := hfr _ m2
  refine ⟨m1, ?_, tv, v2, v3, v1, v4, v5, ?_⟩
  · rw [sim_step_ev_replace Algo.LRU refs rnd k s hf hfree]
    have hsel : select_victim Algo.LRU refs k (tick_fault s)
        = (lru_replacement (tick_fault s), tick_fault s) := rfl
    rw [hsel]
    simp only [evicted_page, tick_fault_physical_memory]
    rw [if_pos m2]
  · intro j hj hjv
    obtain ⟨tj, j1, j2, j3, j4, _⟩ := hfr j (hall j hj)
    have hle := m3 j hj (hall j hj)
    rw [v1, j1] at hle
    have hle2 : tv ≤ tj := by exact_mod_cast hle
    refine ⟨tj, ?_, j3, j1, j4⟩
    rcases Nat.lt_or_ge tv tj with c | c
    · exact c
    · exfalso
      have heq : tv = tj := by omega
      rw [heq] at v4
      exact hjv (occupied_page_inj s.physical_memory hnd j _ (hall j hj) m2
        (j4.symm.trans v4))


/-- C21: in a run of any strategy on at least one frame, the state `s`
reached after `k` iterations of the reference loop has `time_counter = k`,
and every occupied frame's `load_time` is the 1-based number of the most
recent of the first `k` references to the page it holds, so it lies in
`[1, time_counter]`; iteration `k + 1` touches one frame (the hit frame, the
free frame or the victim), which then holds the referenced page with
`load_time = k + 1` and reference bit 1; and when that iteration is an LRU
replacement, the victim holds the resident page whose last reference is the
oldest: every other frame's page was referenced after it. -/
theorem load_time_is_last_reference (algo : Algo) (refs : List Int) (rnd : Nat → Int)
    (s0 : SimState) (hn : 1 ≤ s0.frame_count) (k : Nat) (s : SimState)
    (hs : s = sim_steps algo refs rnd (sim_reset s0) k) :
    s.time_counter = (k : Int) ∧
    (∀ j, (frameAt s.physical_memory j).occupied ≠ 0 →
      ∃ t : Nat, (frameAt s.physical_memory j).load_time = (t : Int) ∧ 1 ≤ t ∧ t ≤ k ∧
        refs.getD (t - 1) 0 = (frameAt s.physical_memory j).page_no ∧
        ∀ t2, t < t2 → t2 ≤ k →
          refs.getD (t2 - 1) 0 ≠ (frameAt s.physical_memory j).page_no) ∧
    (∀ j, (frameAt s.physical_memory j).occupied ≠ 0 →
      1 ≤ (frameAt s.physical_memory j).load_time ∧
      (frameAt s.physical_memory j).load_time ≤ s.time_counter) ∧
    (sim_step_ev algo refs rnd k s).1 = sim_steps algo refs rnd (sim_reset s0) (k + 1) ∧
    (∃ f, f < s0.frame_count ∧
      ((sim_step_ev algo refs rnd k s).2 = StepEvent.hit f ∨
        (sim_step_ev algo refs rnd k s).2 = StepEvent.loadFree f ∨
        ∃ old, (sim_step_ev algo refs rnd k s).2 = StepEvent.replace f old) ∧
      (frameAt (sim_step_ev algo refs rnd k s).1.physical_memory f).occupied ≠ 0 ∧
      (frameAt (sim_step_ev algo refs rnd k s).1.physical_memory f).page_no
        = refs.getD k 0 ∧
      (frameAt (sim_step_ev algo refs rnd k s).1.physical_memory f).load_time
        = (k : Int) + 1 ∧
      (frameAt (sim_step_ev algo refs rnd k s).1.physical_memory f).reference_bit = 1) ∧
    (algo = Algo.LRU → find_page s.physical_memory (refs.getD k 0) = none →
      get_free_frame s.physical_memory = -1 →
      lru_replacement (tick_fault s) < s0.frame_count ∧
      (sim_step_ev algo refs rnd k s).2
        = StepEvent.replace (lru_replacement (tick_fault s))
            (some (frameAt s.physical_memory (lru_replacement (tick_fault s))).page_no) ∧
      ∃ tv : Nat, 1 ≤ tv ∧ tv ≤ k ∧
        (frameAt s.physical_memory (lru_replacement (tick_fault s))).load_time = (tv : Int) ∧
        refs.getD (tv - 1) 0
          = (frameAt s.physical_memory (lru_replacement (tick_fault s))).page_no ∧
        (∀ t2, tv < t2 → t2 ≤ k → refs.getD (t2 - 1) 0
          ≠ (frameAt s.physical_memory (lru_replacement (tick_fault s))).page_no) ∧
        ∀ j, j < s0.frame_count → j ≠ lru_replacement (tick_fault s) →
          ∃ tj : Nat, tv < tj ∧ tj ≤ k ∧
            (frameAt s.physical_memory j).load_time = (tj : Int) ∧
            refs.getD (tj - 1) 0 = (frameAt s.physical_memory j).page_no) := by
  have hok : StampsOk refs k s := by rw [hs]; exact stampsOk_steps algo refs rnd s0 k
  have hnd : (slots s.physical_memory).reduceOption.Nodup := by
    rw [hs]; exact sim_steps_nodup algo refs rnd s0 k
  have hfc : s.frame_count = s0.frame_count := by
    rw [hs, sim_steps_frame_count, sim_reset_frame_count]
  have hcur : CursorsOk s := by
    rw [hs]; exact sim_steps_cursors algo refs rnd _ (sim_reset_cursors s0 hn) k
  refine ⟨hok.1, hok.2, ?_, ?_, ?_, ?_⟩
  · intro j hj
    obtain ⟨t, t1, t2, t3, _⟩ := hok.2 j hj
    rw [t1, hok.1]
    constructor
    · exact_mod_cast t2
    · exact_mod_cast t3
  · rw [hs]; rfl
  · obtain ⟨f, f1, f2, f3, f4, f5, f6⟩ := sim_step_touched algo refs rnd k s hcur
    rw [hok.1] at f5
    rw [hfc] at f1
    exact ⟨f, f1, f2, f3, f4, f5, f6⟩
  · intro halgo hf hfree
    have h := lru_victim_oldest_reference refs rnd k s (by rw [hfc]; exact hn) hok hnd hf hfree
    rw [hfc] at h
    rw [halgo]
    exact h

theorem load_time_is_last_reference_witness :
    (sim_steps Algo.LRU [7, 0, 1, 2, 0, 3] (fun _ => 0)
      (sim_reset (init_state 3 (fun _ _ => 0))) 4).time_counter = 4 ∧
    (∀ j, (frameAt (sim_steps Algo.LRU [7, 0, 1, 2, 0, 3] (fun _ => 0)
        (sim_reset (init_state 3 (fun _ _ => 0))) 4).physical_memory j).occupied ≠ 0 →
      1 ≤ (frameAt (sim_steps Algo.LRU [7, 0, 1, 2, 0, 3] (fun _ => 0)
        (sim_reset (init_state 3 (fun _ _ => 0))) 4).physical_memory j).load_time ∧
      (frameAt (sim_steps Algo.LRU [7, 0, 1, 2, 0, 3] (fun _ => 0)
        (sim_reset (init_state 3 (fun _ _ => 0))) 4).physical_memory j).load_time
        ≤ (sim_steps Algo.LRU [7, 0, 1, 2, 0, 3] (fun _ => 0)
            (sim_reset (init_state 3 (fun _ _ => 0))) 4).time_counter) :=
  ⟨(load_time_is_last_reference Algo.LRU [7, 0, 1, 2, 0, 3] (fun _ => 0)
      (init_state 3 (fun _ _ => 0)) (by decide) 4 _ rfl).1,
   (load_time_is_last_reference Algo.LRU [7, 0, 1, 2, 0, 3] (fun _ => 0)
      (init_state 3 (fun _ _ => 0)) (by decide) 4 _ rfl).2.2.1⟩


/-! ## What `lru_replacement` returns -/

/-- C11: for a frame table with at least one occupied frame whose `load_time`
is not above `time_counter`, `lru_replacement` returns the index of an
occupied frame whose `load_time` is minimal among the occupied frames, the
lowest index among the frames with that minimal `load_time`; it changes no
frame and no other global.  The condition on `time_counter` is the setting of
every execution: a frame's `load_time` is only ever assigned the current
`time_counter`, so in every state of every run, and in the state in which the
fault path calls `lru_replacement`, every occupied frame has
`load_time <= time_counter` (last conjunct). -/
theorem lru_replacement_oldest (s : SimState) (refs : List Int) (i : Nat)
    (h : ∃ j, j < s.frame_count ∧ (frameAt s.physical_memory j).occupied ≠ 0 ∧
      (frameAt s.physical_memory j).load_time ≤ s.time_counter) :
    lru_replacement s < s.frame_count ∧
    (frameAt s.physical_memory (lru_replacement s)).occupied ≠ 0 ∧
    (∀ j, j < s.frame_count → (frameAt s.physical_memory j).occupied ≠ 0 →
      (frameAt s.physical_memory (lru_replacement s)).load_time
        ≤ (frameAt s.physical_memory j).load_time) ∧
    (∀ j, j < lru_replacement s → (frameAt s.physical_memory j).occupied ≠ 0 →
      (frameAt s.physical_memory (lru_replacement s)).load_time
        < (frameAt s.physical_memory j).load_time) ∧
    select_victim Algo.LRU refs i s = (lru_replacement s, s) ∧
    (∀ (algo : Algo) (rs : List Int) (rnd : Nat → Int) (s0 : SimState) (k j : Nat),
      (frameAt (sim_steps algo rs rnd (sim_reset s0) k).physical_memory j).occupied ≠ 0 →
      (frameAt (sim_steps algo rs rnd (sim_reset s0) k).physical_memory j).load_time
          ≤ (sim_steps algo rs rnd (sim_reset s0) k).time_counter ∧
        (frameAt (tick_fault (sim_steps algo rs rnd (sim_reset s0) k)).physical_memory
            j).load_time
          ≤ (tick_fault (sim_steps algo rs rnd (sim_reset s0) k)).time_counter) := by
  obtain ⟨j0, hj0, ho0, hl0⟩ := h
  obtain ⟨h1, h2, h3⟩ := lru_loop_spec s.physical_memory 0 0 (s.time_counter + 1) false
  have hres : lru_replacement s
      = if (lru_loop s.physical_memory 0 (0, s.time_counter + 1, false)).2.2 then
          (lru_loop s.physical_memory 0 (0, s.time_counter + 1, false)).1 else 0 := rfl
  have hrun : ∀ (algo : Algo) (rs : List Int) (rnd : Nat → Int) (s0 : SimState) (k j : Nat),
      (frameAt (sim_steps algo rs rnd (sim_reset s0) k).physical_memory j).occupied ≠ 0 →
      (frameAt (sim_steps algo rs rnd (sim_reset s0) k).physical_memory j).load_time
          ≤ (sim_steps algo rs rnd (sim_reset s0) k).time_counter ∧
        (frameAt (tick_fault (sim_steps algo rs rnd (sim_reset s0) k)).physical_memory
            j).load_time
          ≤ (tick_fault (sim_steps algo rs rnd (sim_reset s0) k)).time_counter := by
    intro algo rs rnd s0 k j hj
    have hle := (sim_steps_load_time_le algo rs rnd s0 k).2 j hj
    refine ⟨hle, ?_⟩
    rw [tick_fault_physical_memory, tick_fault_time_counter]
    omega
  rcases h3 with e | ⟨j, e1, e2, e3, e4, e5, e6, e7⟩
  · exfalso
    rcases h2 j0 hj0 ho0 with c | c
    · rw [e] at c
      have c2 : s.time_counter + 1 ≤ (frameAt s.physical_memory j0).load_time := c
      omega
    · omega
  · have hv : lru_replacement s = j := by
      rw [hres, e3, if_pos rfl, e2, Nat.zero_add]
    have hsel : select_victim Algo.LRU refs i s = (lru_replacement s, s) := rfl
    rw [hsel, hv]
    refine ⟨e1, e4, ?_, ?_, rfl, hrun⟩
    · intro j2 hj2 ho2
      rw [e5]
      rcases h2 j2 hj2 ho2 with c | c
      · exact c
      · omega
    · intro j2 hj2 ho2
      rw [e5]
      exact e7 j2 hj2 ho2

theorem lru_replacement_oldest_witness :
    (∃ j, j < 3 ∧
      (frameAt (tick_fault (sim_steps Algo.LRU [7, 0, 1, 2] (fun _ => 0)
          (sim_reset (init_state 3 (fun _ _ => 0))) 3)).physical_memory j).occupied ≠ 0 ∧
      (frameAt (tick_fault (sim_steps Algo.LRU [7, 0, 1, 2] (fun _ => 0)
          (sim_reset (init_state 3 (fun _ _ => 0))) 3)).physical_memory j).load_time
        ≤ (tick_fault (sim_steps Algo.LRU [7, 0, 1, 2] (fun _ => 0)
            (sim_reset (init_state 3 (fun _ _ => 0))) 3)).time_counter) ∧
    (frameAt (tick_fault (sim_steps Algo.LRU [7, 0, 1, 2] (fun _ => 0)
        (sim_reset (init_state 3 (fun _ _ => 0))) 3)).physical_memory
      (lru_replacement (tick_fault (sim_steps Algo.LRU [7, 0, 1, 2] (fun _ => 0)
        (sim_reset (init_state 3 (fun _ _ => 0))) 3)))).occupied ≠ 0 ∧
    lru_replacement (tick_fault (sim_steps Algo.LRU [7, 0, 1, 2] (fun _ => 0)
        (sim_reset (init_state 3 (fun _ _ => 0))) 3)) = 0 :=
  ⟨⟨0, by decide, by decide, by decide⟩,
    (lru_replacement_oldest
      (tick_fault (sim_steps Algo.LRU [7, 0, 1, 2] (fun _ => 0)
        (sim_reset (init_state 3 (fun _ _ => 0))) 3))
      [7, 0, 1, 2] 3 ⟨0, by decide, by decide, by decide⟩).2.1,
    by decide⟩

end SeeFixed
